import Mathlib

/-!
Shallow embedding of the arbitrary-precision arithmetic core of the
repository (`src/biginteger.h`): the `BigInteger` class (a sign flag plus a
little-endian vector of base-10^9 limbs) and the `Rational` class built on
top of it.  C++ member functions become pure Lean functions on a
`BigInteger` structure; the mutating compound-assignment operators are
modelled as functions returning the new value.  `while`-loops whose
termination is not structural are modelled with an explicit fuel argument
that is always supplied large enough (each such function comes with a
characterisation lemma showing the fuel never runs out on the inputs the
program reaches).
-/

/-- Limb base of the C++ class: `CELL_BASE = 1'000'000'000`. -/
def CELL_BASE : ℕ := 1000000000

/-- Digits per limb: `CELL_LEN = 9`. -/
def CELL_LEN : ℕ := 9

/-- The `BigInteger` class: `m_digits` is the little-endian limb vector,
`m_negative` the sign flag. -/
structure BigInteger where
  m_digits : List ℕ
  m_negative : Bool
deriving DecidableEq

namespace BigInteger

/-- Numeric value of a little-endian limb vector. -/
def magVal : List ℕ → ℕ
  | [] => 0
  | d :: ds => d + CELL_BASE * magVal ds

/-- Magnitude of a `BigInteger` (value of its limb vector, ignoring sign). -/
def magNat (x : BigInteger) : ℕ := magVal x.m_digits

/-- Signed integer value of a `BigInteger`. -/
def toInt (x : BigInteger) : ℤ :=
  if x.m_negative then -(magNat x : ℤ) else (magNat x : ℤ)

/-- Helper of `remove_leading_zeroes`: drop the most-significant zero limbs
(the trailing zeros of the little-endian vector). -/
def stripLead (ds : List ℕ) : List ℕ :=
  (ds.reverse.dropWhile (fun d => d == 0)).reverse

/-- `BigInteger::remove_leading_zeroes`: on the empty vector do nothing;
if all limbs are zero collapse to the canonical zero `[0]` and clear the
sign; otherwise erase the most-significant zero limbs. -/
def remove_leading_zeroes (ds : List ℕ) (neg : Bool) : List ℕ × Bool :=
  if ds = [] then (ds, neg)
  else
    let s := stripLead ds
    if s = [] then ([0], false) else (s, neg)

/-- `BigInteger::shift_left`: prepend a zero limb (multiply by the base). -/
def shift_left (ds : List ℕ) : List ℕ := 0 :: ds

/-- Trailing phase of the carry loops: both index ranges are exhausted and
the loop keeps pushing `carry % CELL_BASE` while the carry is nonzero
(fuel-encoded; `carryRun` supplies fuel `c`, which suffices because the
carry strictly decreases under division by the base). -/
def carryRunGo : ℕ → ℕ → List ℕ
  | 0, _ => []
  | f + 1, c => if c = 0 then [] else (c % CELL_BASE) :: carryRunGo f (c / CELL_BASE)

/-- Digits pushed by a carry that survives past the end of both operands. -/
def carryRun (c : ℕ) : List ℕ := carryRunGo c c

/-- Phase of `add_abs` after `this`'s original limbs are exhausted: the
loop continues over the zero-padded tail, adding `other`'s limbs and the
carry. -/
def addTail : List ℕ → ℕ → List ℕ
  | [], c => carryRun c
  | y :: ys, c => ((y + c) % CELL_BASE) :: addTail ys ((y + c) / CELL_BASE)

/-- Main loop of `BigInteger::add_abs`: limb-wise addition with carry
propagation in base `CELL_BASE` (the C++ loop first resizes `this` to the
longer length, then folds in `other`'s limb when the index is in range). -/
def addLoop : List ℕ → List ℕ → ℕ → List ℕ
  | [], ys, c => addTail ys c
  | x :: xs, ys, c =>
      ((x + ys.headD 0 + c) % CELL_BASE) ::
        addLoop xs ys.tail ((x + ys.headD 0 + c) / CELL_BASE)

/-- `BigInteger::add_abs`: add `other`'s magnitude into `x`'s and
re-normalise (`remove_leading_zeroes` may clear the sign flag). -/
def add_abs (x other : BigInteger) : BigInteger :=
  let ds := addLoop x.m_digits other.m_digits 0
  let p := remove_leading_zeroes ds x.m_negative
  ⟨p.1, p.2⟩

/-- Loop body of `BigInteger::sub_abs`, fuel-encoded: index `i` walks over
`this`'s limbs, subtracting `other`'s limb and the borrow; note that the
C++ source calls `remove_leading_zeroes()` inside the loop body, which can
shrink the vector mid-iteration — the model reproduces that exactly.  Fuel
`ds.length` suffices because the vector never grows. -/
def sub_absGo : ℕ → List ℕ → Bool → List ℕ → ℕ → ℕ → List ℕ × Bool
  | 0, ds, neg, _, _, _ => (ds, neg)
  | f + 1, ds, neg, os, i, borrow =>
    if i < ds.length then
      let cell := if i < os.length then os.getD i 0 else 0
      let diff : ℤ := (ds.getD i 0 : ℤ) - (borrow : ℤ) - (cell : ℤ)
      let d' : ℕ := if diff < 0 then (diff + (CELL_BASE : ℤ)).toNat else diff.toNat
      let b' : ℕ := if diff < 0 then 1 else 0
      let p := remove_leading_zeroes (ds.set i d') neg
      sub_absGo f p.1 p.2 os (i + 1) b'
    else (ds, neg)

/-- `BigInteger::sub_abs`: subtract `other`'s magnitude from `x`'s
(callers guarantee `other`'s magnitude is not larger). -/
def sub_abs (x other : BigInteger) : BigInteger :=
  let p := sub_absGo x.m_digits.length x.m_digits x.m_negative other.m_digits 0 0
  ⟨p.1, p.2⟩

/-- Limb-by-limb comparison from the most significant end (the input lists
are the reversed limb vectors); mirrors the final loop of `operator<`,
flipping the verdict when both numbers are negative, and returning `false`
when all limbs agree. -/
def lexLt : List ℕ → List ℕ → Bool → Bool
  | a :: as, b :: bs, neg => if a = b then lexLt as bs neg else (decide (a < b)) != neg
  | _, _, _ => false

/-- `operator<` on `BigInteger`: differing signs decide immediately; then
differing limb counts decide (flipped for negatives); then limbs are
compared most-significant first. -/
def lt (x y : BigInteger) : Bool :=
  if x.m_negative != y.m_negative then x.m_negative
  else if x.m_digits.length ≠ y.m_digits.length then
    (decide (x.m_digits.length < y.m_digits.length)) != x.m_negative
  else lexLt x.m_digits.reverse y.m_digits.reverse x.m_negative

/-- `operator==` on `BigInteger`: equal sign flags and equal limb vectors. -/
def beq (x y : BigInteger) : Bool :=
  (x.m_negative == y.m_negative) && (x.m_digits == y.m_digits)

/-- `operator<=` on `BigInteger`, defined in the source as `!(left > right)`
with `left > right` defined as `right < left`. -/
def le (x y : BigInteger) : Bool := !(lt y x)

/-- Digit-extraction loop of the `BigInteger(int)` constructor
(fuel-encoded `while (num > 0)`; fuel `n` suffices since `n / CELL_BASE`
strictly decreases). -/
def natDigitsGo : ℕ → ℕ → List ℕ
  | 0, _ => []
  | f + 1, n => if n = 0 then [] else (n % CELL_BASE) :: natDigitsGo f (n / CELL_BASE)

/-- Little-endian limb vector of a natural number (empty for zero, matching
the constructor's loop). -/
def natDigits (n : ℕ) : List ℕ := natDigitsGo n n

/-- The `BigInteger(int num)` constructor: record the sign of `num`, then
extract the limbs of `|num|`, pushing a single `0` limb when `num == 0`. -/
def ofInt (z : ℤ) : BigInteger :=
  ⟨if z.natAbs = 0 then [0] else natDigits z.natAbs, decide (z < 0)⟩

/-- `BigInteger::abs`: copy with the sign flag cleared. -/
def abs (x : BigInteger) : BigInteger := ⟨x.m_digits, false⟩

/-- `BigInteger::is_zero`: a single limb equal to zero. -/
def is_zero (x : BigInteger) : Bool := x.m_digits == [0]

/-- Unary `operator-`: flip the sign unless the value equals
`BigInteger(0)`. -/
def negate (x : BigInteger) : BigInteger :=
  if beq x (ofInt 0) then x else ⟨x.m_digits, !x.m_negative⟩

/-- `operator+=`: same signs add magnitudes keeping the shared sign;
different signs subtract the smaller magnitude from the larger, the result
taking the sign of the operand with the larger magnitude. -/
def add (x other : BigInteger) : BigInteger :=
  if x.m_negative == other.m_negative then add_abs x other
  else if lt (abs x) (abs other) then
    let temp := sub_abs other x
    ⟨temp.m_digits, other.m_negative⟩
  else sub_abs x other

/-- `operator-=`: special-case `other == *this` to the zero vector, else
negate, add, and negate back; finally clear the sign if the result is
zero. -/
def sub (x other : BigInteger) : BigInteger :=
  let r : BigInteger :=
    if beq other x then ⟨[0], x.m_negative⟩
    else
      let s := add ⟨x.m_digits, !x.m_negative⟩ other
      ⟨s.m_digits, !s.m_negative⟩
  if is_zero r then ⟨r.m_digits, false⟩ else r

/-- Carry-draining phase of the inner multiplication loop (`j` past
`other`'s limbs, carry still nonzero): add the carry into the remaining
accumulator cells. -/
def innerB : List ℕ → ℕ → List ℕ
  | [], c => carryRun c
  | a :: acc, c =>
      if c = 0 then a :: acc
      else ((a + c) % CELL_BASE) :: innerB acc ((a + c) / CELL_BASE)

/-- Inner loop of `operator*=` at row `i`: the accumulator suffix starting
at cell `i`, into which `x_i * other` is added with carry propagation. -/
def innerA : List ℕ → ℕ → List ℕ → ℕ → List ℕ
  | acc, xi, y :: ys, c =>
      let p := acc.headD 0 + c + xi * y
      (p % CELL_BASE) :: innerA acc.tail xi ys (p / CELL_BASE)
  | acc, _, [], c => innerB acc c

/-- Outer loop of `operator*=`: for each limb `xi` of `this` (at position
`i`), run the inner loop on the accumulator cells from position `i` on. -/
def outer : List ℕ → List ℕ → List ℕ → ℕ → List ℕ
  | acc, [], _, _ => acc
  | acc, xi :: xs, ys, i => outer (acc.take i ++ innerA (acc.drop i) xi ys 0) xs ys (i + 1)

/-- `operator*=`: schoolbook multiplication into an accumulator of
`size(a) + size(b) + 1` zero limbs; the result sign is the XOR of the
operand signs, and the final `remove_leading_zeroes` clears it when the
product is zero. -/
def mul (x other : BigInteger) : BigInteger :=
  let acc := outer (List.replicate (x.m_digits.length + other.m_digits.length + 1) 0)
      x.m_digits other.m_digits 0
  let p := remove_leading_zeroes acc (x.m_negative != other.m_negative)
  ⟨p.1, p.2⟩

/-- Binary search of `operator/=` for one quotient limb, fuel-encoded:
classic `while (left <= right)` over `int` bounds with `mid = (left +
right) >> 1` (the reachable states keep `left + right ≥ 0`, where `>> 1`
agrees with Lean's integer division by 2).  The interval width shrinks at
every step, so fuel `CELL_BASE + 1` suffices for the initial interval
`[0, CELL_BASE - 1]`. -/
def bsearchGo : ℕ → (ℤ → Bool) → ℤ → ℤ → ℤ → ℤ
  | 0, _, _, _, val => val
  | f + 1, P, left, right, val =>
    if left ≤ right then
      let mid := (left + right) / 2
      if P mid then bsearchGo f P (mid + 1) right mid
      else bsearchGo f P left (mid - 1) val
    else val

/-- Quotient-limb search of `operator/=`: the largest `mid` in
`[0, CELL_BASE - 1]` with `b * mid <= curValue` (`b * mid` goes through the
`BigInteger(int)` conversion and `operator*`, the comparison through
`operator<=`). -/
def qdigit (b cur : BigInteger) : ℕ :=
  (bsearchGo (CELL_BASE + 1) (fun m => le (mul b (ofInt m)) cur)
    0 ((CELL_BASE : ℤ) - 1) 0).toNat

/-- Store of one quotient limb: `result.m_digits[iter] = val` when `iter`
is in range, else `push_back(val)` (the push can land below index `iter`;
the source relies on those early limbs being zero). -/
def divStepRes (res : List ℕ) (iter q : ℕ) : List ℕ :=
  if iter < res.length then res.set iter q else res ++ [q]

/-- Long-division loop of `operator/=` over the dividend limbs, most
significant first (the list argument is the reversed limb vector; `iter`
of the C++ loop equals the length of the remaining list).  Each step
shifts the running remainder left, folds in the next dividend limb,
re-normalises, finds the quotient limb by binary search, stores it, and
reduces the remainder by `b * val`. -/
def divLoop (b : BigInteger) : List ℕ → BigInteger → List ℕ → BigInteger × List ℕ
  | [], cur, res => (cur, res)
  | d :: rest, cur, res =>
    let p := remove_leading_zeroes (d :: cur.m_digits) cur.m_negative
    let cur2 : BigInteger := ⟨p.1, p.2⟩
    let q := qdigit b cur2
    let cur3 := sub cur2 (mul b (ofInt (q : ℤ)))
    divLoop b rest cur3 (divStepRes res rest.length q)

/-- `operator/=`: equal magnitudes short-circuit to `±1`; a smaller
dividend magnitude short-circuits to `0`; otherwise long division with a
result vector of `size(a) - size(b) + 1` zero limbs, sign the XOR of the
operand signs. -/
def div (x other : BigInteger) : BigInteger :=
  let result_negative := x.m_negative != other.m_negative
  let a := abs x
  let b := abs other
  if beq a b then ⟨[1], result_negative⟩
  else if lt a b then ofInt 0
  else
    let res0 := List.replicate (a.m_digits.length - b.m_digits.length + 1) 0
    let p := divLoop b a.m_digits.reverse ⟨[0], false⟩ res0
    let q := remove_leading_zeroes p.2 result_negative
    ⟨q.1, q.2⟩

/-- `operator%=`: `*this -= (*this / other) * other`. -/
def mod (x other : BigInteger) : BigInteger := sub x (mul (div x other) other)

/-- Character of a decimal digit (`'0' + n`). -/
def digitChar (n : ℕ) : Char := Char.ofNat (48 + n)

/-- Decimal digits of `n`, most significant first, fuel-encoded
(`std::to_string`'s digit extraction; fuel `n + 1` suffices since `n / 10`
strictly decreases). -/
def decDigitsGo : ℕ → ℕ → List ℕ
  | 0, _ => []
  | f + 1, n => if n < 10 then [n] else decDigitsGo f (n / 10) ++ [n % 10]

/-- Decimal digit list of a natural number, most significant first. -/
def decDigits (n : ℕ) : List ℕ := decDigitsGo (n + 1) n

/-- Model of `std::to_string` on a limb: its decimal characters. -/
def natRepr (n : ℕ) : List Char := (decDigits n).map digitChar

/-- Zero-padding of a limb's decimal string to `CELL_LEN` characters
(`std::string(CELL_LEN - size, '0')` prepended). -/
def padLimb (cs : List Char) : List Char :=
  List.replicate (CELL_LEN - cs.length) '0' ++ cs

/-- `BigInteger::toString` at the character-list level: `"0"` for zero;
otherwise the sign, the most significant limb unpadded, then every lower
limb zero-padded to exactly `CELL_LEN` digits. -/
def toChars (x : BigInteger) : List Char :=
  if is_zero x then ['0']
  else
    let be := x.m_digits.reverse
    (if x.m_negative then ['-'] else []) ++ natRepr (be.headD 0) ++
      (be.tail.map (fun d => padLimb (natRepr d))).flatten

/-- `BigInteger::toString`. -/
def toString (x : BigInteger) : String := ⟨toChars x⟩

/-- `BigInteger::is_correct_str`: the empty string is accepted; otherwise
an optional leading `'-'`/`'+'` must be followed only by ASCII digits. -/
def is_correct_str (cs : List Char) : Bool :=
  match cs with
  | [] => true
  | c :: rest =>
    if c = '-' ∨ c = '+' then rest.all Char.isDigit
    else (c :: rest).all Char.isDigit

/-- Model of `std::stoul` on a digit string. -/
def charsToNat (cs : List Char) : ℕ :=
  cs.foldl (fun a c => a * 10 + (c.toNat - 48)) 0

/-- Chunking loop of the string constructor, fuel-encoded: the input is
the reversed digit characters; each step takes `CELL_LEN` of them (the
least significant block), restores their order, and recurses.  Fuel
`length` suffices since each step consumes at least one character. -/
def chunksGo : ℕ → List Char → List (List Char)
  | 0, _ => []
  | f + 1, l =>
    if l = [] then [] else (l.take CELL_LEN).reverse :: chunksGo f (l.drop CELL_LEN)

/-- Limbs read from the digit characters (most significant first on input;
the output is little-endian, one limb per 9-character block from the
right, exactly as the constructor's backwards loop pushes them). -/
def limbsOfChars (ds : List Char) : List ℕ :=
  (chunksGo ds.reverse.length ds.reverse).map charsToNat

/-- The `BigInteger(const std::string&)` constructor: reject the empty or
malformed string by falling back to the default (zero) value; otherwise
record the sign, read the limbs in 9-digit blocks from the right,
re-normalise, and push a `0` limb if none was produced (which happens for
the bare sign strings, leaving the already-recorded sign untouched). -/
def ofChars (cs : List Char) : BigInteger :=
  if cs = [] ∨ is_correct_str cs = false then ⟨[0], false⟩
  else
    let neg := cs.headD ' ' = '-'
    let body := if cs.headD ' ' = '-' ∨ cs.headD ' ' = '+' then cs.tail else cs
    let p := remove_leading_zeroes (limbsOfChars body) neg
    ⟨if p.1 = [] then [0] else p.1, p.2⟩

/-- String-constructor entry point. -/
def fromString (s : String) : BigInteger := ofChars s.data

/-- Limb vector with every limb below the base. -/
def Bounded (ds : List ℕ) : Prop := ∀ d ∈ ds, d < CELL_BASE

/-- Normalised limb vector: nonempty, and no most-significant zero limb
except for the canonical zero `[0]`. -/
def Norm (ds : List ℕ) : Prop := ds ≠ [] ∧ (ds = [0] ∨ ds.getLast? ≠ some 0)

/-- Class invariant of `BigInteger`: bounded limbs, normalised vector, and
no negative zero. -/
def Valid (x : BigInteger) : Prop :=
  Bounded x.m_digits ∧ Norm x.m_digits ∧ (x.m_digits = [0] → x.m_negative = false)

/-- Canonical-zero property alone: a zero magnitude forces a cleared sign
flag. -/
def MagZeroInv (x : BigInteger) : Prop := magNat x = 0 → x.m_negative = false

instance : DecidablePred Bounded := fun ds => List.decidableBAll _ ds

instance : DecidablePred Norm := fun _ => instDecidableAnd

instance (x : BigInteger) : Decidable (Valid x) := instDecidableAnd

instance (x : BigInteger) : Decidable (MagZeroInv x) := by
  unfold MagZeroInv; infer_instance

end BigInteger

/-- The `Rational` class: a numerator/denominator pair of `BigInteger`s. -/
structure Rational where
  numerator : BigInteger
  denominator : BigInteger
deriving DecidableEq

namespace Rational

/-- Euclidean loop of `Rational::gcd`, fuel-encoded `while (b != 0)`:
each step replaces `(a, b)` by `(b, a % b)`.  Fuel `magNat b + 1` suffices
on valid inputs because the magnitude of `b` strictly decreases. -/
def gcdGo : ℕ → BigInteger → BigInteger → BigInteger
  | 0, a, _ => a
  | f + 1, a, b =>
    if BigInteger.beq b (BigInteger.ofInt 0) then a
    else gcdGo f b (BigInteger.mod a b)

/-- `Rational::gcd`: Euclid on the absolute values. -/
def gcd (a b : BigInteger) : BigInteger :=
  gcdGo (BigInteger.magNat (BigInteger.abs b) + 1) (BigInteger.abs a) (BigInteger.abs b)

/-- `Rational::normalize`: move a negative denominator's sign into the
numerator, then divide both parts by their gcd when it is nonzero. -/
def normalize (r : Rational) : Rational :=
  let r1 : Rational :=
    if BigInteger.lt r.denominator (BigInteger.ofInt 0) then
      ⟨BigInteger.negate r.numerator, BigInteger.negate r.denominator⟩
    else r
  let g := gcd r1.numerator r1.denominator
  if BigInteger.beq g (BigInteger.ofInt 0) = false then
    ⟨BigInteger.div r1.numerator g, BigInteger.div r1.denominator g⟩
  else r1

/-- The `Rational(int)` constructor (denominator 1, no normalisation). -/
def ofInt (n : ℤ) : Rational := ⟨BigInteger.ofInt n, BigInteger.ofInt 1⟩

/-- The `Rational(const BigInteger&)` constructor (denominator 1). -/
def ofBigInt (n : BigInteger) : Rational := ⟨n, BigInteger.ofInt 1⟩

/-- The two-argument `Rational` constructor: store and normalise. -/
def mk' (num denom : BigInteger) : Rational := normalize ⟨num, denom⟩

/-- `operator+=` on `Rational`: cross-multiply and normalise. -/
def add (a b : Rational) : Rational :=
  normalize ⟨BigInteger.add (BigInteger.mul a.numerator b.denominator)
      (BigInteger.mul b.numerator a.denominator),
    BigInteger.mul a.denominator b.denominator⟩

/-- `operator-=` on `Rational`. -/
def sub (a b : Rational) : Rational :=
  normalize ⟨BigInteger.sub (BigInteger.mul a.numerator b.denominator)
      (BigInteger.mul b.numerator a.denominator),
    BigInteger.mul a.denominator b.denominator⟩

/-- `operator*=` on `Rational`. -/
def mul (a b : Rational) : Rational :=
  normalize ⟨BigInteger.mul a.numerator b.numerator,
    BigInteger.mul a.denominator b.denominator⟩

/-- `operator/=` on `Rational`: multiply by the reciprocal. -/
def divR (a b : Rational) : Rational :=
  normalize ⟨BigInteger.mul a.numerator b.denominator,
    BigInteger.mul a.denominator b.numerator⟩

/-- `Rational::toString`: plain numerator when the denominator is 1, else
`numerator/denominator`. -/
def toString (r : Rational) : String :=
  if BigInteger.beq r.denominator (BigInteger.ofInt 1) then
    BigInteger.toString r.numerator
  else
    BigInteger.toString r.numerator ++ "/" ++ BigInteger.toString r.denominator

/-- Fractional-digit loop of `Rational::asDecimal`: each step emits
`num / den` and continues with `(num % den) * 10`. -/
def fracGo (den : BigInteger) : ℕ → BigInteger → List Char
  | 0, _ => []
  | k + 1, num =>
      BigInteger.toChars (BigInteger.div num den) ++
        fracGo den k (BigInteger.mul (BigInteger.mod num den) (BigInteger.ofInt 10))

/-- `Rational::asDecimal`: integer part by division, a standalone minus
sign when the remainder is negative while the integer part shows as zero,
then `precision` fractional digits obtained by repeatedly multiplying the
absolute remainder by 10 and dividing by the denominator. -/
def asDecimal (r : Rational) (precision : ℕ) : String :=
  let num := r.numerator
  let den := r.denominator
  let integerPart := BigInteger.div num den
  let num2 := BigInteger.mod num den
  let head : List Char :=
    (if BigInteger.lt num2 (BigInteger.ofInt 0) &&
        BigInteger.beq integerPart (BigInteger.ofInt 0)
      then ['-'] else []) ++ BigInteger.toChars integerPart
  if precision = 0 then ⟨head⟩
  else
    ⟨head ++ ['.'] ++
      fracGo den precision (BigInteger.mul (BigInteger.abs num2) (BigInteger.ofInt 10))⟩

/-- Invariant claimed for canonical `Rational`s: valid parts, a strictly
positive denominator, and coprime magnitudes. -/
def RatInv (r : Rational) : Prop :=
  BigInteger.Valid r.numerator ∧ BigInteger.Valid r.denominator ∧
    r.denominator.m_negative = false ∧ 0 < BigInteger.magNat r.denominator ∧
    Nat.gcd (BigInteger.magNat r.numerator) (BigInteger.magNat r.denominator) = 1

instance (r : Rational) : Decidable (RatInv r) := instDecidableAnd

end Rational

namespace BigInteger

/-! ### Basic facts about limb values and normalisation -/

theorem cellBase_pos : 0 < CELL_BASE := by decide

theorem magVal_nil : magVal [] = 0 := rfl

theorem magVal_cons (d : ℕ) (ds : List ℕ) :
    magVal (d :: ds) = d + CELL_BASE * magVal ds := rfl

theorem magVal_append (l1 l2 : List ℕ) :
    magVal (l1 ++ l2) = magVal l1 + CELL_BASE ^ l1.length * magVal l2 := by
  induction l1 with
  | nil => simp [magVal]
  | cons d ds ih =>
    simp only [List.cons_append, magVal_cons, ih, List.length_cons, pow_succ]
    ring

theorem magVal_eq_zero_iff (ds : List ℕ) : magVal ds = 0 ↔ ∀ d ∈ ds, d = 0 := by
  induction ds with
  | nil => simp [magVal]
  | cons d ds ih =>
    simp only [magVal_cons, List.mem_cons, Nat.add_eq_zero, Nat.mul_eq_zero]
    constructor
    · rintro ⟨h1, h2⟩
      rcases h2 with h2 | h2
      · exact absurd h2 (by decide)
      · intro x hx
        rcases hx with rfl | hx
        · exact h1
        · exact ih.mp h2 x hx
    · intro h
      exact ⟨h d (Or.inl rfl), Or.inr (ih.mpr fun x hx => h x (Or.inr hx))⟩

theorem magVal_lt_of_bounded {ds : List ℕ} (h : Bounded ds) :
    magVal ds < CELL_BASE ^ ds.length := by
  induction ds with
  | nil => simp [magVal]
  | cons d ds ih =>
    have hd : d < CELL_BASE := h d (List.mem_cons_self d ds)
    have htl : Bounded ds := fun x hx => h x (List.mem_cons_of_mem d hx)
    have := ih htl
    simp only [magVal_cons, List.length_cons, pow_succ]
    calc d + CELL_BASE * magVal ds
        ≤ (CELL_BASE - 1) + CELL_BASE * (CELL_BASE ^ ds.length - 1) := by
          have : magVal ds ≤ CELL_BASE ^ ds.length - 1 := by omega
          have : CELL_BASE * magVal ds ≤ CELL_BASE * (CELL_BASE ^ ds.length - 1) :=
            Nat.mul_le_mul_left _ this
          omega
      _ < CELL_BASE ^ ds.length * CELL_BASE := by
          have hp : 0 < CELL_BASE ^ ds.length := Nat.pos_pow_of_pos _ cellBase_pos
          have := Nat.mul_le_mul_left CELL_BASE
            (Nat.succ_le_of_lt hp)
          simp only [Nat.mul_sub, Nat.mul_one]
          have hb : 0 < CELL_BASE := cellBase_pos
          have : CELL_BASE * CELL_BASE ^ ds.length = CELL_BASE ^ ds.length * CELL_BASE := by ring
          omega

theorem norm_tail {d : ℕ} {ds : List ℕ} (h : Norm (d :: ds)) (hne : ds ≠ []) : Norm ds := by
  obtain ⟨-, h2⟩ := h
  refine ⟨hne, ?_⟩
  rcases ds with - | ⟨e, es⟩
  · exact absurd rfl hne
  rcases h2 with h2 | h2
  · simp at h2
  · rw [List.getLast?_cons_cons] at h2
    right; exact h2

theorem magVal_pos_of_norm {ds : List ℕ} (h : Norm ds) (hne : ds ≠ [0]) :
    0 < magVal ds := by
  rcases Nat.eq_zero_or_pos (magVal ds) with h1 | h1
  · exfalso
    have hall := (magVal_eq_zero_iff ds).mp h1
    obtain ⟨h2, h3⟩ := h
    rcases h3 with h3 | h3
    · exact hne h3
    · apply h3
      rcases List.eq_nil_or_concat ds with rfl | ⟨l, a, rfl⟩
      · exact absurd rfl h2
      · rw [List.concat_eq_append, List.getLast?_concat]
        have : a = 0 := hall a (by simp)
        rw [this]
  · exact h1

theorem base_pow_le_magVal_of_norm {ds : List ℕ} (hn : Norm ds) (hne : ds ≠ [0]) :
    CELL_BASE ^ (ds.length - 1) ≤ magVal ds := by
  obtain ⟨h1, h2⟩ := hn
  rcases List.eq_nil_or_concat ds with rfl | ⟨l, a, rfl⟩
  · exact absurd rfl h1
  rw [List.concat_eq_append] at *
  have ha : a ≠ 0 := by
    rcases h2 with h2 | h2
    · exact absurd h2 hne
    · rw [List.getLast?_concat] at h2
      intro hc; exact h2 (by rw [hc])
  rw [magVal_append]
  have hma : 1 ≤ magVal [a] := by
    simp only [magVal_cons, magVal_nil]
    omega
  have hlen : (l ++ [a]).length - 1 = l.length := by simp
  rw [hlen]
  calc CELL_BASE ^ l.length = CELL_BASE ^ l.length * 1 := by ring
    _ ≤ CELL_BASE ^ l.length * magVal [a] := Nat.mul_le_mul_left _ hma
    _ ≤ magVal l + CELL_BASE ^ l.length * magVal [a] := Nat.le_add_left _ _

/-- Uniqueness of the canonical representation: two bounded, normalised
limb vectors with the same value are equal. -/
theorem magVal_inj {ds es : List ℕ} (hbd : Bounded ds) (hbe : Bounded es)
    (hnd : Norm ds) (hne : Norm es) (h : magVal ds = magVal es) : ds = es := by
  induction ds generalizing es with
  | nil => exact absurd rfl hnd.1
  | cons d ds ih =>
    rcases es with - | ⟨e, es⟩
    · exact absurd rfl hne.1
    · have hd : d < CELL_BASE := hbd d (by simp)
      have he : e < CELL_BASE := hbe e (by simp)
      have hde : d = e := by
        have h1 : magVal (d :: ds) % CELL_BASE = d := by
          simp [magVal_cons, Nat.add_mul_mod_self_left, Nat.mod_eq_of_lt hd]
        have h2 : magVal (e :: es) % CELL_BASE = e := by
          simp [magVal_cons, Nat.add_mul_mod_self_left, Nat.mod_eq_of_lt he]
        rw [← h1, ← h2, h]
      subst hde
      have htv : magVal ds = magVal es := by
        have h1 : magVal (d :: ds) / CELL_BASE = magVal ds := by
          simp [magVal_cons, Nat.add_mul_div_left _ _ cellBase_pos, Nat.div_eq_of_lt hd]
        have h2 : magVal (d :: es) / CELL_BASE = magVal es := by
          simp [magVal_cons, Nat.add_mul_div_left _ _ cellBase_pos, Nat.div_eq_of_lt hd]
        rw [← h1, ← h2, h]
      rcases eq_or_ne ds [] with rfl | hds <;> rcases eq_or_ne es [] with rfl | hes
      · rfl
      · exfalso
        have hes0 : es ≠ [0] := by
          intro hc; subst hc
          obtain ⟨-, h2⟩ := hne
          simp [List.getLast?_cons_cons] at h2
        have := magVal_pos_of_norm (norm_tail hne hes) hes0
        simp only [magVal_nil] at htv
        omega
      · exfalso
        have hds0 : ds ≠ [0] := by
          intro hc; subst hc
          obtain ⟨-, h2⟩ := hnd
          simp [List.getLast?_cons_cons] at h2
        have := magVal_pos_of_norm (norm_tail hnd hds) hds0
        simp only [magVal_nil] at htv
        omega
      · have := ih (fun x hx => hbd x (by simp [hx]))
          (fun x hx => hbe x (by simp [hx]))
          (norm_tail hnd hds) (norm_tail hne hes) htv
        rw [this]

/-! ### `remove_leading_zeroes` -/

theorem dropWhile_zero_reverse_val (l : List ℕ) :
    magVal ((l.dropWhile (fun d => d == 0)).reverse) = magVal l.reverse := by
  induction l with
  | nil => rfl
  | cons a l ih =>
    rw [List.dropWhile_cons]
    by_cases ha : a = 0
    · subst ha
      simp only [beq_self_eq_true, if_true, ih, List.reverse_cons, magVal_append]
      simp [magVal_cons, magVal_nil]
    · simp [ha]

theorem dropWhile_head_not {p : ℕ → Bool} :
    ∀ {l : List ℕ} {c : ℕ} {t : List ℕ}, l.dropWhile p = c :: t → p c = false := by
  intro l
  induction l with
  | nil => intro c t h; simp [List.dropWhile] at h
  | cons a l ih =>
    intro c t h
    rw [List.dropWhile_cons] at h
    by_cases ha : p a
    · rw [if_pos ha] at h; exact ih h
    · rw [if_neg ha] at h
      injection h with h1 h2
      subst h1
      simpa using ha

theorem stripLead_val (ds : List ℕ) : magVal (stripLead ds) = magVal ds := by
  unfold stripLead
  rw [dropWhile_zero_reverse_val, List.reverse_reverse]

theorem stripLead_sub {ds : List ℕ} {d : ℕ} (h : d ∈ stripLead ds) : d ∈ ds := by
  unfold stripLead at h
  rw [List.mem_reverse] at h
  have := (@List.dropWhile_sublist _ ds.reverse (fun d => d == 0)).mem h
  rwa [List.mem_reverse] at this

theorem stripLead_last {ds : List ℕ} (h : stripLead ds ≠ []) :
    (stripLead ds).getLast? ≠ some 0 := by
  have hgl : (stripLead ds).getLast? = (ds.reverse.dropWhile (fun d => d == 0)).head? := by
    unfold stripLead
    exact List.getLast?_reverse _
  rcases hd : ds.reverse.dropWhile (fun d => d == 0) with - | ⟨c, t⟩
  · exfalso
    apply h
    unfold stripLead
    rw [hd]
    rfl
  · rw [hgl, hd, List.head?_cons]
    have := dropWhile_head_not hd
    simp only [ne_eq, Option.some.injEq]
    intro hc
    rw [hc] at this
    simp at this

theorem rlz_magVal (ds : List ℕ) (n : Bool) :
    magVal (remove_leading_zeroes ds n).1 = magVal ds := by
  unfold remove_leading_zeroes
  by_cases h : ds = []
  · simp [h]
  · rw [if_neg h]
    by_cases hs : stripLead ds = []
    · simp only [hs, if_true]
      have := stripLead_val ds
      rw [hs] at this
      simp only [magVal_nil] at this
      simp [magVal_cons, magVal_nil, ← this]
    · simp only [hs, if_neg hs]
      exact stripLead_val ds

theorem rlz_norm {ds : List ℕ} (h : ds ≠ []) (n : Bool) :
    Norm (remove_leading_zeroes ds n).1 := by
  unfold remove_leading_zeroes
  rw [if_neg h]
  by_cases hs : stripLead ds = []
  · simp only [hs, if_true]
    exact ⟨by simp, Or.inl rfl⟩
  · simp only [if_neg hs]
    exact ⟨hs, Or.inr (stripLead_last hs)⟩

theorem rlz_bounded {ds : List ℕ} (hb : Bounded ds) (n : Bool) :
    Bounded (remove_leading_zeroes ds n).1 := by
  unfold remove_leading_zeroes
  by_cases h : ds = []
  · simpa [h] using hb
  · rw [if_neg h]
    by_cases hs : stripLead ds = []
    · simp only [hs, if_true]
      intro d hd
      simp only [List.mem_singleton] at hd
      subst hd; exact cellBase_pos
    · simp only [if_neg hs]
      exact fun d hd => hb d (stripLead_sub hd)

theorem rlz_canon {ds : List ℕ} (n : Bool)
    (h : (remove_leading_zeroes ds n).1 = [0]) :
    (remove_leading_zeroes ds n).2 = false := by
  unfold remove_leading_zeroes at *
  by_cases h0 : ds = []
  · simp [h0] at h
  · rw [if_neg h0] at *
    by_cases hs : stripLead ds = []
    · simp [hs]
    · simp only [if_neg hs] at *
      exact absurd (h ▸ stripLead_last hs) (by simp)

theorem rlz_valid {ds : List ℕ} (h : ds ≠ []) (hb : Bounded ds) (n : Bool) :
    Valid ⟨(remove_leading_zeroes ds n).1, (remove_leading_zeroes ds n).2⟩ :=
  ⟨rlz_bounded hb n, rlz_norm h n, rlz_canon n⟩

theorem rlz_sign_of_ne_zero {ds : List ℕ} (h : magVal ds ≠ 0) (n : Bool) :
    (remove_leading_zeroes ds n).2 = n := by
  unfold remove_leading_zeroes
  have h0 : ds ≠ [] := by intro hc; subst hc; exact h rfl
  rw [if_neg h0]
  by_cases hs : stripLead ds = []
  · exfalso
    have := stripLead_val ds
    rw [hs] at this
    exact h this.symm
  · simp [if_neg hs]

theorem rlz_id {ds : List ℕ} {n : Bool} (hn : Norm ds) (hz : ds = [0] → n = false) :
    remove_leading_zeroes ds n = (ds, n) := by
  obtain ⟨h1, h2⟩ := hn
  rcases h2 with h2 | h2
  · subst h2
    have := hz rfl
    subst this
    decide
  · have hs : stripLead ds = ds := by
      unfold stripLead
      rcases hr : ds.reverse with - | ⟨c, t⟩
      · exact absurd (by simpa using congrArg List.reverse hr) h1
      · have hds : ds.getLast? = ds.reverse.head? := by
          conv_lhs => rw [← List.reverse_reverse ds]
          exact List.getLast?_reverse _
        have hc : c ≠ 0 := by
          rw [hds, hr, List.head?_cons] at h2
          intro hcc; exact h2 (by rw [hcc])
        have hdw : List.dropWhile (fun d => d == 0) (c :: t) = c :: t := by
          rw [List.dropWhile_cons, if_neg]
          simp [hc]
        rw [hdw, ← hr, List.reverse_reverse]
    simp [remove_leading_zeroes, h1, hs]

theorem valid_magZeroInv {x : BigInteger} (h : Valid x) : MagZeroInv x := by
  intro hz
  obtain ⟨hb, hn, hc⟩ := h
  apply hc
  have hall := (magVal_eq_zero_iff x.m_digits).mp hz
  obtain ⟨h1, h2⟩ := hn
  rcases h2 with h2 | h2
  · exact h2
  · exfalso
    rcases List.eq_nil_or_concat x.m_digits with hnl | ⟨l, a, hl⟩
    · exact h1 hnl
    · rw [List.concat_eq_append] at hl
      apply h2
      rw [hl, List.getLast?_concat]
      have : a = 0 := hall a (by rw [hl]; simp)
      rw [this]

theorem valid_digits_eq_zero {x : BigInteger} (h : Valid x) (hz : magNat x = 0) :
    x.m_digits = [0] := by
  obtain ⟨hb, hn, hc⟩ := h
  have hall := (magVal_eq_zero_iff x.m_digits).mp hz
  rcases hn.2 with h2 | h2
  · exact h2
  · exfalso
    rcases List.eq_nil_or_concat x.m_digits with hnl | ⟨l, a, hl⟩
    · exact hn.1 hnl
    · rw [List.concat_eq_append] at hl
      apply h2
      rw [hl, List.getLast?_concat]
      have : a = 0 := hall a (by rw [hl]; simp)
      rw [this]

/-! ### Comparison operators -/

theorem magVal_singleton (a : ℕ) : magVal [a] = a := by
  simp [magVal_cons, magVal_nil]

theorem valid_pos_of_neg {x : BigInteger} (hx : Valid x) (h : x.m_negative = true) :
    0 < magNat x := by
  apply magVal_pos_of_norm hx.2.1
  intro hc
  have h2 := hx.2.2 hc
  rw [h] at h2
  simp at h2

theorem toInt_of_neg_false {x : BigInteger} (h : x.m_negative = false) :
    toInt x = (magNat x : ℤ) := by
  unfold toInt
  rw [h]
  simp

theorem toInt_of_neg_true {x : BigInteger} (h : x.m_negative = true) :
    toInt x = -(magNat x : ℤ) := by
  unfold toInt
  rw [h]
  simp

theorem natAbs_toInt (x : BigInteger) : (toInt x).natAbs = magNat x := by
  unfold toInt
  rcases x.m_negative with - | - <;> simp

theorem toInt_neg_flag {x : BigInteger} (hx : Valid x) :
    toInt x < 0 ↔ x.m_negative = true := by
  rcases hb : x.m_negative with - | -
  · rw [toInt_of_neg_false hb]
    constructor
    · intro h2; exfalso; omega
    · intro h2; simp at h2
  · rw [toInt_of_neg_true hb]
    have := valid_pos_of_neg hx hb
    constructor
    · intro _; rfl
    · intro _; omega

theorem magVal_append_lt {l1 l2 : List ℕ} {a b : ℕ} (hlen : l1.length = l2.length)
    (hb1 : ∀ d ∈ l1, d < CELL_BASE) (hab : a < b) :
    magVal (l1 ++ [a]) < magVal (l2 ++ [b]) := by
  rw [magVal_append, magVal_append, magVal_singleton, magVal_singleton]
  have h1 : magVal l1 < CELL_BASE ^ l1.length := magVal_lt_of_bounded hb1
  have h2 : CELL_BASE ^ l1.length * (a + 1) ≤ CELL_BASE ^ l2.length * b := by
    rw [← hlen]
    exact Nat.mul_le_mul_left _ hab
  have h3 := Nat.le_add_left (CELL_BASE ^ l2.length * b) (magVal l2)
  calc magVal l1 + CELL_BASE ^ l1.length * a
      < CELL_BASE ^ l1.length + CELL_BASE ^ l1.length * a := by omega
    _ = CELL_BASE ^ l1.length * (a + 1) := by ring
    _ ≤ CELL_BASE ^ l2.length * b := h2
    _ ≤ magVal l2 + CELL_BASE ^ l2.length * b := h3

theorem lexLt_correct : ∀ (as bs : List ℕ) (neg : Bool), as.length = bs.length →
    (∀ d ∈ as, d < CELL_BASE) → (∀ d ∈ bs, d < CELL_BASE) →
    lexLt as bs neg = (if neg then decide (magVal bs.reverse < magVal as.reverse)
      else decide (magVal as.reverse < magVal bs.reverse)) := by
  intro as
  induction as with
  | nil =>
    intro bs neg hlen _ _
    have : bs = [] := List.length_eq_zero.mp hlen.symm
    subst this
    rcases neg with - | - <;> decide
  | cons a as ih =>
    intro bs neg hlen hba hbb
    rcases bs with - | ⟨b, bs⟩
    · simp at hlen
    have hlen' : as.length = bs.length := by
      simp only [List.length_cons] at hlen
      omega
    have hba' : ∀ d ∈ as, d < CELL_BASE := fun d hd => hba d (by simp [hd])
    have hbb' : ∀ d ∈ bs, d < CELL_BASE := fun d hd => hbb d (by simp [hd])
    have hrev : ∀ (c : ℕ) (cs : List ℕ), magVal ((c :: cs).reverse) =
        magVal cs.reverse + CELL_BASE ^ cs.length * c := by
      intro c cs
      rw [List.reverse_cons, magVal_append, magVal_singleton, List.length_reverse]
    by_cases hab : a = b
    · subst hab
      have hstep : lexLt (a :: as) (a :: bs) neg = lexLt as bs neg := by
        simp [lexLt]
      rw [hstep, ih bs neg hlen' hba' hbb', hrev, hrev, hlen']
      rcases neg with - | -
      · simp only [Bool.false_eq_true, if_false, decide_eq_decide]
        omega
      · simp only [if_true, decide_eq_decide]
        omega
    · have hstep : lexLt (a :: as) (b :: bs) neg = ((decide (a < b)) != neg) := by
        simp [lexLt, hab]
      rw [hstep, hrev, hrev]
      have hrb1 : ∀ d ∈ as.reverse, d < CELL_BASE := fun d hd =>
        hba' d (List.mem_reverse.mp hd)
      have hrb2 : ∀ d ∈ bs.reverse, d < CELL_BASE := fun d hd =>
        hbb' d (List.mem_reverse.mp hd)
      have hrlen : as.reverse.length = bs.reverse.length := by simpa using hlen'
      rcases Nat.lt_or_ge a b with hl | hge
      · have hv : magVal (as.reverse ++ [a]) < magVal (bs.reverse ++ [b]) :=
          magVal_append_lt hrlen hrb1 hl
        rw [magVal_append, magVal_append, magVal_singleton, magVal_singleton] at hv
        simp only [List.length_reverse] at hv
        rcases neg with - | -
        · simp only [Bool.false_eq_true, if_false]
          simp [hl, hv]
        · simp only [if_true]
          have hnv : ¬ (magVal bs.reverse + CELL_BASE ^ bs.length * b <
              magVal as.reverse + CELL_BASE ^ as.length * a) := by omega
          simp [hl, hnv]
      · have hl : b < a := by omega
        have hv : magVal (bs.reverse ++ [b]) < magVal (as.reverse ++ [a]) :=
          magVal_append_lt hrlen.symm hrb2 hl
        rw [magVal_append, magVal_append, magVal_singleton, magVal_singleton] at hv
        simp only [List.length_reverse] at hv
        have hnab : ¬ (a < b) := by omega
        rcases neg with - | -
        · simp only [Bool.false_eq_true, if_false]
          have hnv : ¬ (magVal as.reverse + CELL_BASE ^ as.length * a <
              magVal bs.reverse + CELL_BASE ^ bs.length * b) := by omega
          simp [hnab, hnv]
        · simp only [if_true]
          simp [hnab, hv]

theorem mag_lt_of_len_lt {ds es : List ℕ} (hnd : Norm ds) (hne : Norm es)
    (hbd : Bounded ds) (h : ds.length < es.length) : magVal ds < magVal es := by
  have h1 : magVal ds < CELL_BASE ^ ds.length := magVal_lt_of_bounded hbd
  have hes0 : es ≠ [0] := by
    intro hc
    rw [hc] at h
    simp only [List.length_singleton] at h
    have : ds = [] := List.length_eq_zero.mp (by omega)
    exact hnd.1 this
  have h2 : CELL_BASE ^ (es.length - 1) ≤ magVal es := base_pow_le_magVal_of_norm hne hes0
  have h3 : CELL_BASE ^ ds.length ≤ CELL_BASE ^ (es.length - 1) :=
    Nat.pow_le_pow_right cellBase_pos (by omega)
  omega

/-- Correctness of `operator<` on valid values. -/
theorem lt_correct {x y : BigInteger} (hx : Valid x) (hy : Valid y) :
    lt x y = decide (toInt x < toInt y) := by
  unfold lt
  rcases hbx : x.m_negative with - | - <;> rcases hby : y.m_negative with - | -
  · -- both nonnegative
    rw [if_neg (by decide)]
    have htx := toInt_of_neg_false hbx
    have hty := toInt_of_neg_false hby
    by_cases hlen : x.m_digits.length = y.m_digits.length
    · rw [if_neg (by simp [hlen])]
      rw [lexLt_correct _ _ _ (by simp [hlen])
        (fun d hd => hx.1 d (List.mem_reverse.mp hd))
        (fun d hd => hy.1 d (List.mem_reverse.mp hd))]
      rw [List.reverse_reverse, List.reverse_reverse]
      rw [if_neg (by decide), htx, hty, decide_eq_decide]
      unfold magNat
      omega
    · rw [if_pos hlen]
      rcases Nat.lt_or_ge x.m_digits.length y.m_digits.length with hl | hge
      · have hmag := mag_lt_of_len_lt hx.2.1 hy.2.1 hx.1 hl
        have hti : toInt x < toInt y := by
          rw [htx, hty]
          unfold magNat
          omega
        simp [hl, hti]
      · have hl2 : y.m_digits.length < x.m_digits.length := by omega
        have hmag := mag_lt_of_len_lt hy.2.1 hx.2.1 hy.1 hl2
        have hnl : ¬ (x.m_digits.length < y.m_digits.length) := by omega
        have hti : ¬ (toInt x < toInt y) := by
          rw [htx, hty]
          unfold magNat
          omega
        simp [hnl, hti]
  · -- x nonnegative, y negative: the operator answers false
    rw [if_pos (by decide)]
    have h1 : (0 : ℤ) ≤ toInt x := by
      rw [toInt_of_neg_false hbx]
      positivity
    have h2 : toInt y < 0 := (toInt_neg_flag hy).mpr hby
    have hti : ¬ (toInt x < toInt y) := by omega
    simp [hti]
  · -- x negative, y nonnegative: the operator answers true
    rw [if_pos (by decide)]
    have h1 : toInt x < 0 := (toInt_neg_flag hx).mpr hbx
    have h2 : (0 : ℤ) ≤ toInt y := by
      rw [toInt_of_neg_false hby]
      positivity
    have hti : toInt x < toInt y := by omega
    simp [hti]
  · -- both negative: flipped magnitude comparison
    rw [if_neg (by decide)]
    have htx := toInt_of_neg_true hbx
    have hty := toInt_of_neg_true hby
    by_cases hlen : x.m_digits.length = y.m_digits.length
    · rw [if_neg (by simp [hlen])]
      rw [lexLt_correct _ _ _ (by simp [hlen])
        (fun d hd => hx.1 d (List.mem_reverse.mp hd))
        (fun d hd => hy.1 d (List.mem_reverse.mp hd))]
      rw [List.reverse_reverse, List.reverse_reverse]
      rw [if_pos (by decide), htx, hty, decide_eq_decide]
      unfold magNat
      omega
    · rw [if_pos hlen]
      rcases Nat.lt_or_ge x.m_digits.length y.m_digits.length with hl | hge
      · have hmag := mag_lt_of_len_lt hx.2.1 hy.2.1 hx.1 hl
        have hti : ¬ (toInt x < toInt y) := by
          rw [htx, hty]
          unfold magNat
          omega
        simp [hl, hti]
      · have hl2 : y.m_digits.length < x.m_digits.length := by omega
        have hmag := mag_lt_of_len_lt hy.2.1 hx.2.1 hy.1 hl2
        have hnl : ¬ (x.m_digits.length < y.m_digits.length) := by omega
        have hti : toInt x < toInt y := by
          rw [htx, hty]
          unfold magNat
          omega
        simp [hnl, hti]

theorem toInt_inj {x y : BigInteger} (hx : Valid x) (hy : Valid y)
    (h : toInt x = toInt y) : x = y := by
  have hmag : magNat x = magNat y := by
    rw [← natAbs_toInt, ← natAbs_toInt, h]
  have hdig : x.m_digits = y.m_digits :=
    magVal_inj hx.1 hy.1 hx.2.1 hy.2.1 hmag
  have hneg : x.m_negative = y.m_negative := by
    rcases hbx : x.m_negative with - | - <;> rcases hby : y.m_negative with - | -
    · rfl
    · exfalso
      have h2 := (toInt_neg_flag hy).mpr hby
      have h1 : ¬ (toInt x < 0) := by
        rw [toInt_neg_flag hx, hbx]
        simp
      omega
    · exfalso
      have h1 := (toInt_neg_flag hx).mpr hbx
      have h2 : ¬ (toInt y < 0) := by
        rw [toInt_neg_flag hy, hby]
        simp
      omega
    · rfl
  rcases x with ⟨dx, nx⟩
  rcases y with ⟨dy, ny⟩
  simp only at hdig hneg
  rw [hdig, hneg]

theorem beq_iff_eq' {x y : BigInteger} : beq x y = true ↔ x = y := by
  unfold beq
  rw [Bool.and_eq_true, beq_iff_eq, beq_iff_eq]
  constructor
  · rintro ⟨h1, h2⟩
    rcases x with ⟨dx, nx⟩
    rcases y with ⟨dy, ny⟩
    simp only at h1 h2
    simp [h1, h2]
  · rintro rfl
    exact ⟨rfl, rfl⟩

theorem beq_correct {x y : BigInteger} (hx : Valid x) (hy : Valid y) :
    beq x y = decide (toInt x = toInt y) := by
  by_cases h : toInt x = toInt y
  · have := toInt_inj hx hy h
    subst this
    simp [beq_iff_eq'.mpr rfl]
  · have hd : decide (toInt x = toInt y) = false := by simp [h]
    rw [hd]
    rcases hb : beq x y with - | -
    · rfl
    · exact absurd (by rw [beq_iff_eq'.mp hb]) h

theorem le_correct {x y : BigInteger} (hx : Valid x) (hy : Valid y) :
    le x y = decide (toInt x ≤ toInt y) := by
  unfold le
  rw [lt_correct hy hx]
  rcases Int.lt_or_le (toInt y) (toInt x) with h | h
  · have h2 : ¬ (toInt x ≤ toInt y) := by omega
    simp [h, h2]
  · have h2 : ¬ (toInt y < toInt x) := by omega
    simp [h, h2]
/-! ### Addition and subtraction of magnitudes -/

/-- Validity minus the canonical-zero condition: what the magnitude
routines need about their inputs (a transient negative zero is allowed). -/
def NiceD (x : BigInteger) : Prop := Bounded x.m_digits ∧ Norm x.m_digits

theorem valid_nice {x : BigInteger} (h : Valid x) : NiceD x := ⟨h.1, h.2.1⟩

theorem magVal_headD_tail (ys : List ℕ) :
    magVal ys = ys.headD 0 + CELL_BASE * magVal ys.tail := by
  rcases ys with - | ⟨y, ys⟩
  · simp [magVal_nil]
  · simp [magVal_cons]

theorem toInt_zero_of_mag {x : BigInteger} (h : magNat x = 0) : toInt x = 0 := by
  unfold toInt
  rw [h]
  rcases x.m_negative with - | - <;> simp

theorem toInt_abs (x : BigInteger) : toInt (abs x) = (magNat x : ℤ) := by
  unfold toInt abs magNat
  simp

theorem valid_abs {x : BigInteger} (h : NiceD x) : Valid (abs x) :=
  ⟨h.1, h.2, fun _ => rfl⟩

theorem magNat_abs (x : BigInteger) : magNat (abs x) = magNat x := rfl

theorem carryRunGo_val : ∀ f c, c ≤ f → magVal (carryRunGo f c) = c := by
  intro f
  induction f with
  | zero => intro c h; interval_cases c; rfl
  | succ f ih =>
    intro c h
    unfold carryRunGo
    by_cases hc : c = 0
    · simp [hc, magVal_nil]
    · rw [if_neg hc, magVal_cons]
      have hlt : c / CELL_BASE < c := Nat.div_lt_self (by omega) (by decide)
      rw [ih (c / CELL_BASE) (by omega)]
      have := Nat.div_add_mod c CELL_BASE
      omega

theorem carryRunGo_bounded : ∀ f c, ∀ d ∈ carryRunGo f c, d < CELL_BASE := by
  intro f
  induction f with
  | zero => intro c d hd; simp [carryRunGo] at hd
  | succ f ih =>
    intro c d hd
    unfold carryRunGo at hd
    by_cases hc : c = 0
    · simp [hc] at hd
    · rw [if_neg hc] at hd
      rcases List.mem_cons.mp hd with hd | hd
      · subst hd
        exact Nat.mod_lt _ cellBase_pos
      · exact ih _ _ hd

theorem carryRun_val (c : ℕ) : magVal (carryRun c) = c := carryRunGo_val c c le_rfl

theorem addTail_val : ∀ (ys : List ℕ) (c : ℕ), magVal (addTail ys c) = magVal ys + c := by
  intro ys
  induction ys with
  | nil => intro c; simp [addTail, carryRun_val, magVal_nil]
  | cons y ys ih =>
    intro c
    unfold addTail
    rw [magVal_cons, ih, magVal_cons]
    have := Nat.div_add_mod (y + c) CELL_BASE
    ring_nf
    omega

theorem addTail_bounded : ∀ (ys : List ℕ) (c : ℕ), ∀ d ∈ addTail ys c, d < CELL_BASE := by
  intro ys
  induction ys with
  | nil => intro c d hd; exact carryRunGo_bounded _ _ _ hd
  | cons y ys ih =>
    intro c d hd
    unfold addTail at hd
    rcases List.mem_cons.mp hd with hd | hd
    · subst hd; exact Nat.mod_lt _ cellBase_pos
    · exact ih _ _ hd

theorem addLoop_val : ∀ (xs ys : List ℕ) (c : ℕ),
    magVal (addLoop xs ys c) = magVal xs + magVal ys + c := by
  intro xs
  induction xs with
  | nil => intro ys c; simp [addLoop, addTail_val, magVal_nil]
  | cons x xs ih =>
    intro ys c
    unfold addLoop
    rw [magVal_cons, ih, magVal_cons]
    have h1 := Nat.div_add_mod (x + ys.headD 0 + c) CELL_BASE
    have h2 := magVal_headD_tail ys
    ring_nf
    omega

theorem addLoop_bounded : ∀ (xs ys : List ℕ) (c : ℕ), ∀ d ∈ addLoop xs ys c, d < CELL_BASE := by
  intro xs
  induction xs with
  | nil => intro ys c d hd; exact addTail_bounded _ _ _ hd
  | cons x xs ih =>
    intro ys c d hd
    unfold addLoop at hd
    rcases List.mem_cons.mp hd with hd | hd
    · subst hd; exact Nat.mod_lt _ cellBase_pos
    · exact ih _ _ _ hd

theorem addLoop_ne_nil {xs : List ℕ} (h : xs ≠ []) (ys : List ℕ) (c : ℕ) :
    addLoop xs ys c ≠ [] := by
  rcases xs with - | ⟨x, xs⟩
  · exact absurd rfl h
  · simp [addLoop]

theorem add_abs_spec (x other : BigInteger) (hne : x.m_digits ≠ []) :
    Valid (add_abs x other) ∧
      magNat (add_abs x other) = magNat x + magNat other ∧
      (magNat x + magNat other ≠ 0 → (add_abs x other).m_negative = x.m_negative) := by
  unfold add_abs
  have hmag : magVal (addLoop x.m_digits other.m_digits 0) = magNat x + magNat other := by
    rw [addLoop_val]; unfold magNat; omega
  refine ⟨rlz_valid (addLoop_ne_nil hne _ _) (fun d hd => addLoop_bounded _ _ _ d hd) _,
    ?_, ?_⟩
  · show magVal _ = _
    rw [rlz_magVal, hmag]
  · intro h
    exact rlz_sign_of_ne_zero (by rw [hmag]; exact h) _

/-- The simple borrow-propagating subtraction that `sub_abs`'s loop
computes (proof-side reformulation; `sub_absGo_eq` relates the two). -/
def subRun : List ℕ → List ℕ → ℕ → List ℕ
  | [], _, _ => []
  | d :: ds, os, b =>
      let cell := os.headD 0
      let diff : ℤ := (d : ℤ) - (b : ℤ) - (cell : ℤ)
      if diff < 0 then (diff + (CELL_BASE : ℤ)).toNat :: subRun ds os.tail 1
      else diff.toNat :: subRun ds os.tail 0

theorem getD_eq_headD_drop (os : List ℕ) (n : ℕ) :
    (if n < os.length then os.getD n 0 else 0) = (os.drop n).headD 0 := by
  by_cases h : n < os.length
  · rw [if_pos h]
    rw [List.getD_eq_getElem?_getD, ← List.head?_drop]
    rcases hd : (os.drop n).head? with - | ⟨v⟩
    · rw [List.head?_eq_none_iff] at hd
      have := List.drop_eq_nil_iff.mp hd
      omega
    · simp [hd]
  · rw [if_neg h]
    have : os.drop n = [] := List.drop_eq_nil_iff.mpr (by omega)
    simp [this]

theorem getD_append_len (p : List ℕ) (d : ℕ) (t : List ℕ) :
    (p ++ d :: t).getD p.length 0 = d := by
  rw [List.getD_eq_getElem?_getD, List.getElem?_append_right le_rfl]
  simp

theorem set_append_len (p : List ℕ) (d v : ℕ) (t : List ℕ) :
    (p ++ d :: t).set p.length v = p ++ v :: t := by
  induction p with
  | nil => simp
  | cons a p ih => simp [List.set_cons_succ, ih]

theorem sub_absGo_eq : ∀ (u : List ℕ), u ≠ [] →
    ∀ (p : List ℕ) (neg : Bool) (os : List ℕ) (b f : ℕ), u.length ≤ f →
    (u.getLast? ≠ some 0 ∨ (p = [] ∧ u = [0])) →
    sub_absGo f (p ++ u) neg os p.length b =
      remove_leading_zeroes (p ++ subRun u (os.drop p.length) b) neg := by
  intro u
  induction u with
  | nil => intro h; exact absurd rfl h
  | cons d u ih =>
    intro _ p neg os b f hf hlast
    rcases f with - | f
    · simp at hf
    rcases u with - | ⟨e, u'⟩
    · -- final limb of the vector
      set diff : ℤ := (d : ℤ) - (b : ℤ) - ((os.drop p.length).headD 0 : ℤ) with hdiff
      set d' : ℕ := if diff < 0 then (diff + (CELL_BASE : ℤ)).toNat else diff.toNat with hd'
      set b' : ℕ := if diff < 0 then 1 else 0 with hb'
      have hrun : subRun [d] (os.drop p.length) b = [d'] := by
        simp only [subRun]
        rw [← hdiff]
        by_cases hc : diff < 0
        · rw [if_pos hc, hd', if_pos hc]
        · rw [if_neg hc, hd', if_neg hc]
      have hstep : sub_absGo (f + 1) (p ++ [d]) neg os p.length b =
          sub_absGo f (remove_leading_zeroes (p ++ [d']) neg).1
            (remove_leading_zeroes (p ++ [d']) neg).2 os (p.length + 1) b' := by
        conv_lhs => unfold sub_absGo
        rw [if_pos (by simp)]
        simp only [getD_eq_headD_drop, getD_append_len, set_append_len]
      rw [hstep, hrun]
      set q := remove_leading_zeroes (p ++ [d']) neg with hq
      have hqlen : q.1.length ≤ p.length + 1 := by
        rw [hq]
        unfold remove_leading_zeroes
        by_cases h0 : p ++ [d'] = []
        · simp [h0]
        · rw [if_neg h0]
          by_cases hs : stripLead (p ++ [d']) = []
          · simp only [hs, if_true]
            simp only [List.length_singleton]
            omega
          · simp only [if_neg hs]
            unfold stripLead
            calc ((p ++ [d']).reverse.dropWhile (fun x => x == 0)).reverse.length
                = ((p ++ [d']).reverse.dropWhile (fun x => x == 0)).length :=
                  List.length_reverse _
              _ ≤ (p ++ [d']).reverse.length := (List.dropWhile_sublist _).length_le
              _ = (p ++ [d']).length := List.length_reverse _
              _ = p.length + 1 := by simp
      rcases f with - | f
      · rfl
      · show sub_absGo (f + 1) q.1 q.2 os (p.length + 1) b' = q
        unfold sub_absGo
        rw [if_neg (by omega)]
    · -- more limbs remain: the mid-loop `remove_leading_zeroes` is the identity
      set diff : ℤ := (d : ℤ) - (b : ℤ) - ((os.drop p.length).headD 0 : ℤ) with hdiff
      set d' : ℕ := if diff < 0 then (diff + (CELL_BASE : ℤ)).toNat else diff.toNat with hd'
      set b' : ℕ := if diff < 0 then 1 else 0 with hb'
      have hlast' : (e :: u').getLast? ≠ some 0 := by
        rcases hlast with hl | ⟨-, hl⟩
        · rwa [List.getLast?_cons_cons] at hl
        · simp at hl
      have hnorm : Norm (p ++ d' :: e :: u') := by
        refine ⟨by simp, Or.inr ?_⟩
        rw [List.getLast?_append_of_ne_nil _ (by simp), List.getLast?_cons_cons]
        exact hlast'
      have hid : remove_leading_zeroes (p ++ d' :: e :: u') neg = (p ++ d' :: e :: u', neg) := by
        apply rlz_id hnorm
        intro hc
        exfalso
        have := congrArg List.length hc
        simp only [List.length_append, List.length_cons, List.length_singleton,
          List.length_nil] at this
        omega
      have hstep : sub_absGo (f + 1) (p ++ d :: e :: u') neg os p.length b =
          sub_absGo f (p ++ d' :: e :: u') neg os (p.length + 1) b' := by
        conv_lhs => unfold sub_absGo
        rw [if_pos (by simp)]
        simp only [getD_eq_headD_drop, getD_append_len, set_append_len]
        rw [← hdiff, ← hd', ← hb', hid]
      have hrun : subRun (d :: e :: u') (os.drop p.length) b =
          d' :: subRun (e :: u') (os.drop (p.length + 1)) b' := by
        simp only [subRun]
        rw [List.tail_drop, ← hdiff]
        by_cases hc : diff < 0
        · rw [if_pos hc, hd', hb', if_pos hc, if_pos hc]
        · rw [if_neg hc, hd', hb', if_neg hc, if_neg hc]
      have hih := ih (by simp) (p ++ [d']) neg os b' f
        (by simp only [List.length_cons] at hf ⊢; omega)
        (Or.inl hlast')
      have hA : (p ++ [d']) ++ (e :: u') = p ++ d' :: e :: u' := by simp
      have hB : (p ++ [d']).length = p.length + 1 := by simp
      rw [hA, hB] at hih
      rw [hstep, hih, hrun]
      have hC : (p ++ [d']) ++ subRun (e :: u') (os.drop (p.length + 1)) b' =
          p ++ d' :: subRun (e :: u') (os.drop (p.length + 1)) b' := by simp
      rw [hC]

theorem sub_abs_eq {x other : BigInteger} (hn : Norm x.m_digits) :
    sub_abs x other =
      ⟨(remove_leading_zeroes (subRun x.m_digits other.m_digits 0) x.m_negative).1,
       (remove_leading_zeroes (subRun x.m_digits other.m_digits 0) x.m_negative).2⟩ := by
  unfold sub_abs
  have h := sub_absGo_eq x.m_digits hn.1 [] x.m_negative other.m_digits 0
    x.m_digits.length le_rfl ?_
  · simp only [List.nil_append, List.length_nil, List.drop_zero] at h
    rw [h]
  · rcases hn.2 with h2 | h2
    · exact Or.inr ⟨rfl, h2⟩
    · exact Or.inl h2

theorem subRun_spec : ∀ (u os : List ℕ) (b : ℕ), Bounded u → Bounded os → b ≤ 1 →
    magVal os + b ≤ magVal u →
    magVal (subRun u os b) = magVal u - magVal os - b ∧
      Bounded (subRun u os b) ∧ (subRun u os b).length = u.length := by
  intro u
  induction u with
  | nil =>
    intro os b _ _ _ hle
    simp only [magVal_nil] at hle
    refine ⟨?_, by intro d hd; simp [subRun] at hd, rfl⟩
    simp only [subRun, magVal_nil]
    omega
  | cons d ds ih =>
    intro os b hbu hbo hb hle
    have hd : d < CELL_BASE := hbu d (by simp)
    have hbu' : Bounded ds := fun z hz => hbu z (by simp [hz])
    have hbo' : Bounded os.tail := fun z hz => hbo z (List.mem_of_mem_tail hz)
    have hcell : os.headD 0 < CELL_BASE := by
      rcases os with - | ⟨o, os⟩
      · simpa using cellBase_pos
      · exact hbo o (by simp)
    have hos := magVal_headD_tail os
    rw [magVal_cons] at hle
    unfold subRun
    by_cases hc : ((d : ℤ) - (b : ℤ) - (os.headD 0 : ℤ)) < 0
    · rw [if_pos hc]
      have hdlt : d < b + os.headD 0 := by omega
      have hd' : ((d : ℤ) - (b : ℤ) - (os.headD 0 : ℤ) + (CELL_BASE : ℤ)).toNat =
          d + CELL_BASE - b - os.headD 0 := by omega
      rw [hos] at hle
      have hpre : magVal os.tail + 1 ≤ magVal ds := by
        by_contra hcon
        push_neg at hcon
        have h2 : CELL_BASE * magVal ds ≤ CELL_BASE * magVal os.tail :=
          Nat.mul_le_mul_left _ (by omega)
        omega
      obtain ⟨hv, hbr, hlr⟩ := ih os.tail 1 hbu' hbo' le_rfl hpre
      refine ⟨?_, ?_, by simp [hlr]⟩
      · have hX : magVal (d :: ds) = d + CELL_BASE * magVal ds := magVal_cons d ds
        have hsub : CELL_BASE * (magVal ds - magVal os.tail - 1) =
            CELL_BASE * magVal ds - CELL_BASE * magVal os.tail - CELL_BASE := by
          rw [Nat.mul_sub, Nat.mul_sub, Nat.mul_one]
        have hscale : CELL_BASE * magVal os.tail + CELL_BASE ≤ CELL_BASE * magVal ds := by
          have := Nat.mul_le_mul_left CELL_BASE hpre
          rw [Nat.mul_add, Nat.mul_one] at this
          omega
        rw [magVal_cons, hv, hd', hX, hos]
        omega
      · intro z hz
        rcases List.mem_cons.mp hz with hz | hz
        · subst hz
          rw [hd']
          omega
        · exact hbr z hz
    · rw [if_neg hc]
      have hdge : b + os.headD 0 ≤ d := by omega
      have hd' : ((d : ℤ) - (b : ℤ) - (os.headD 0 : ℤ)).toNat = d - b - os.headD 0 := by
        omega
      rw [hos] at hle
      have hpre : magVal os.tail + 0 ≤ magVal ds := by
        by_contra hcon
        push_neg at hcon
        have h4 : CELL_BASE * (magVal ds + 1) ≤ CELL_BASE * magVal os.tail :=
          Nat.mul_le_mul_left _ (by omega)
        have h5 : CELL_BASE * (magVal ds + 1) = CELL_BASE * magVal ds + CELL_BASE := by
          rw [Nat.mul_add, Nat.mul_one]
        omega
      obtain ⟨hv, hbr, hlr⟩ := ih os.tail 0 hbu' hbo' (by omega) hpre
      refine ⟨?_, ?_, by simp [hlr]⟩
      · have hX : magVal (d :: ds) = d + CELL_BASE * magVal ds := magVal_cons d ds
        have hsub : CELL_BASE * (magVal ds - magVal os.tail - 0) =
            CELL_BASE * magVal ds - CELL_BASE * magVal os.tail := by
          rw [Nat.sub_zero, Nat.mul_sub]
        have hscale : CELL_BASE * magVal os.tail ≤ CELL_BASE * magVal ds :=
          Nat.mul_le_mul_left _ (by omega)
        rw [magVal_cons, hv, hd', hX, hos]
        omega
      · intro z hz
        rcases List.mem_cons.mp hz with hz | hz
        · subst hz
          rw [hd']
          omega
        · exact hbr z hz

theorem sub_abs_spec {x other : BigInteger} (hx : NiceD x)
    (hbo : Bounded other.m_digits) (hle : magNat other ≤ magNat x) :
    Valid (sub_abs x other) ∧
      magNat (sub_abs x other) = magNat x - magNat other ∧
      (magNat x - magNat other ≠ 0 → (sub_abs x other).m_negative = x.m_negative) := by
  rw [sub_abs_eq hx.2]
  obtain ⟨hv, hbr, hlr⟩ := subRun_spec x.m_digits other.m_digits 0 hx.1 hbo (by omega)
    (by unfold magNat at hle; omega)
  have hne : subRun x.m_digits other.m_digits 0 ≠ [] := by
    intro hc
    have := congrArg List.length hc
    rw [hlr] at this
    exact hx.2.1 (List.length_eq_zero.mp this)
  refine ⟨rlz_valid hne hbr _, ?_, ?_⟩
  · show magVal _ = _
    rw [rlz_magVal, hv]
    unfold magNat
    omega
  · intro h
    apply rlz_sign_of_ne_zero
    rw [hv]
    unfold magNat at h
    omega

/-! ### Semantic correctness of `operator+=`, unary minus, `operator-=` -/

theorem ofInt_zero_eq : ofInt 0 = ⟨[0], false⟩ := by decide

theorem mk_m_negative (ds : List ℕ) (n : Bool) :
    (⟨ds, n⟩ : BigInteger).m_negative = n := rfl

theorem mk_magNat (ds : List ℕ) (n : Bool) :
    magNat (⟨ds, n⟩ : BigInteger) = magVal ds := rfl

theorem add_correct {x y : BigInteger} (hx : NiceD x) (hy : NiceD y) :
    Valid (add x y) ∧ toInt (add x y) = toInt x + toInt y := by
  unfold add
  by_cases hs : x.m_negative = y.m_negative
  · rw [if_pos (by simp [hs])]
    obtain ⟨hv, hm, hsgn⟩ := add_abs_spec x y hx.2.1
    refine ⟨hv, ?_⟩
    by_cases hz : magNat x + magNat y = 0
    · have h0 : magNat (add_abs x y) = 0 := by rw [hm, hz]
      rw [toInt_zero_of_mag h0, toInt_zero_of_mag (show magNat x = 0 by omega),
        toInt_zero_of_mag (show magNat y = 0 by omega)]
      simp
    · have hsg := hsgn hz
      rcases hbx : x.m_negative with - | -
      · rw [toInt_of_neg_false (by rw [hsg, hbx]), hm,
          toInt_of_neg_false hbx, toInt_of_neg_false (by rw [← hs, hbx])]
        push_cast
        ring
      · rw [toInt_of_neg_true (by rw [hsg, hbx]), hm,
          toInt_of_neg_true hbx, toInt_of_neg_true (by rw [← hs, hbx])]
        push_cast
        ring
  · rw [if_neg (by simp [hs])]
    have hflags : (x.m_negative = false ∧ y.m_negative = true) ∨
        (x.m_negative = true ∧ y.m_negative = false) := by
      rcases hbx : x.m_negative with - | - <;> rcases hby : y.m_negative with - | -
      · exact absurd (hbx.trans hby.symm) hs
      · exact Or.inl ⟨rfl, rfl⟩
      · exact Or.inr ⟨rfl, rfl⟩
      · exact absurd (hbx.trans hby.symm) hs
    have hltc : lt (abs x) (abs y) = decide (magNat x < magNat y) := by
      rw [lt_correct (valid_abs hx) (valid_abs hy), toInt_abs, toInt_abs, decide_eq_decide]
      omega
    by_cases hlt : magNat x < magNat y
    · rw [hltc, if_pos (by simp [hlt])]
      obtain ⟨hv, hm, -⟩ := sub_abs_spec hy hx.1 (le_of_lt hlt)
      have hmagr : magNat ⟨(sub_abs y x).m_digits, y.m_negative⟩ = magNat y - magNat x := hm
      constructor
      · refine ⟨hv.1, hv.2.1, ?_⟩
        intro hc
        exfalso
        have h0 : magNat ⟨(sub_abs y x).m_digits, y.m_negative⟩ = 0 := by
          rw [mk_magNat, hc, magVal_singleton]
        omega
      · rcases hflags with ⟨hbx, hby⟩ | ⟨hbx, hby⟩
        · rw [@toInt_of_neg_true ⟨(sub_abs y x).m_digits, y.m_negative⟩
            (by rw [mk_m_negative, hby]), hmagr,
            toInt_of_neg_false hbx, toInt_of_neg_true hby]
          omega
        · rw [@toInt_of_neg_false ⟨(sub_abs y x).m_digits, y.m_negative⟩
            (by rw [mk_m_negative, hby]), hmagr,
            toInt_of_neg_true hbx, toInt_of_neg_false hby]
          omega
    · rw [hltc, if_neg (by simp [hlt])]
      obtain ⟨hv, hm, hsgn⟩ := sub_abs_spec hx hy.1 (by omega)
      refine ⟨hv, ?_⟩
      by_cases hz : magNat x - magNat y = 0
      · rw [toInt_zero_of_mag (by rw [hm, hz])]
        have hxy : magNat x = magNat y := by omega
        rcases hflags with ⟨hbx, hby⟩ | ⟨hbx, hby⟩
        · rw [toInt_of_neg_false hbx, toInt_of_neg_true hby, hxy]
          ring
        · rw [toInt_of_neg_true hbx, toInt_of_neg_false hby, hxy]
          ring
      · have hsg := hsgn hz
        rcases hflags with ⟨hbx, hby⟩ | ⟨hbx, hby⟩
        · rw [toInt_of_neg_false (by rw [hsg, hbx]), hm,
            toInt_of_neg_false hbx, toInt_of_neg_true hby]
          omega
        · rw [toInt_of_neg_true (by rw [hsg, hbx]), hm,
            toInt_of_neg_true hbx, toInt_of_neg_false hby]
          omega

theorem flip_toInt (x : BigInteger) :
    toInt ⟨x.m_digits, !x.m_negative⟩ = -(toInt x) := by
  unfold toInt
  rcases x.m_negative with - | - <;> simp [magNat]

theorem negate_correct {x : BigInteger} (hx : Valid x) :
    Valid (negate x) ∧ toInt (negate x) = -(toInt x) := by
  unfold negate
  by_cases hb : beq x (ofInt 0) = true
  · rw [if_pos hb]
    have hx0 : x = ⟨[0], false⟩ := by rw [beq_iff_eq'.mp hb, ofInt_zero_eq]
    subst hx0
    exact ⟨hx, by decide⟩
  · rw [if_neg hb]
    have hne : x ≠ ⟨[0], false⟩ := by
      intro hc
      exact hb (by rw [hc, ofInt_zero_eq, beq_iff_eq'])
    have hd0 : x.m_digits ≠ [0] := by
      intro hc
      apply hne
      have hflag := hx.2.2 hc
      rcases x with ⟨dx, nx⟩
      simp only at hc hflag
      rw [hc, hflag]
    exact ⟨⟨hx.1, hx.2.1, fun hc => absurd hc hd0⟩, flip_toInt x⟩

theorem sub_correct {x y : BigInteger} (hx : NiceD x) (hy : NiceD y) :
    Valid (sub x y) ∧ toInt (sub x y) = toInt x - toInt y := by
  unfold sub
  by_cases hb : beq y x = true
  · rw [if_pos hb]
    have hxy : y = x := beq_iff_eq'.mp hb
    subst hxy
    have hzz : is_zero (⟨[0], y.m_negative⟩ : BigInteger) = true := by
      unfold is_zero
      simp
    rw [if_pos hzz]
    refine ⟨by refine ⟨?_, ?_, fun _ => rfl⟩ <;> first
      | exact fun d hd => by
          rcases List.mem_singleton.mp hd with rfl
          exact cellBase_pos
      | exact ⟨by simp, Or.inl rfl⟩, ?_⟩
    rw [toInt_zero_of_mag (by rw [mk_magNat, magVal_singleton])]
    ring
  · rw [if_neg hb]
    obtain ⟨hvs, hms⟩ := @add_correct ⟨x.m_digits, !x.m_negative⟩ y ⟨hx.1, hx.2⟩ hy
    set s := add ⟨x.m_digits, !x.m_negative⟩ y with hsdef
    have htos : toInt s = -(toInt x) + toInt y := by rw [hms, flip_toInt]
    have htor : toInt ⟨s.m_digits, !s.m_negative⟩ = toInt x - toInt y := by
      rw [flip_toInt, htos]
      ring
    by_cases hzf : is_zero (⟨s.m_digits, !s.m_negative⟩ : BigInteger) = true
    · rw [if_pos hzf]
      have hsd : s.m_digits = [0] := by
        unfold is_zero at hzf
        simpa using hzf
      have hmag0 : magNat s = 0 := by
        unfold magNat
        rw [hsd, magVal_singleton]
      refine ⟨⟨?_, ?_, fun _ => rfl⟩, ?_⟩
      · intro d hd
        simp only [hsd] at hd
        rcases List.mem_singleton.mp hd with rfl
        exact cellBase_pos
      · refine ⟨by simp [hsd], Or.inl (by simp [hsd])⟩
      · have h1 : toInt (⟨s.m_digits, !s.m_negative⟩ : BigInteger) = 0 :=
          toInt_zero_of_mag (by rw [mk_magNat, ← magNat, hmag0])
        have h2 : toInt (⟨s.m_digits, false⟩ : BigInteger) = 0 :=
          toInt_zero_of_mag (by rw [mk_magNat, ← magNat, hmag0])
        rw [h2, ← h1, htor]
    · rw [if_neg hzf]
      have hsd : s.m_digits ≠ [0] := by
        intro hc
        apply hzf
        unfold is_zero
        simp [hc]
      exact ⟨⟨hvs.1, hvs.2.1, fun hc => absurd hc hsd⟩, htor⟩

/-! ### Semantic correctness of `operator*=` -/

theorem innerB_val : ∀ (acc : List ℕ) (c : ℕ), magVal (innerB acc c) = magVal acc + c := by
  intro acc
  induction acc with
  | nil => intro c; simp [innerB, carryRun_val, magVal_nil]
  | cons a acc ih =>
    intro c
    unfold innerB
    by_cases hc : c = 0
    · simp [hc]
    · rw [if_neg hc, magVal_cons, ih, magVal_cons]
      have := Nat.div_add_mod (a + c) CELL_BASE
      ring_nf
      omega

theorem innerB_bounded : ∀ (acc : List ℕ) (c : ℕ), Bounded acc → Bounded (innerB acc c) := by
  intro acc
  induction acc with
  | nil => intro c _ d hd; exact carryRunGo_bounded _ _ _ hd
  | cons a acc ih =>
    intro c hb d hd
    unfold innerB at hd
    by_cases hc : c = 0
    · rw [if_pos hc] at hd
      exact hb d hd
    · rw [if_neg hc] at hd
      rcases List.mem_cons.mp hd with hd | hd
      · subst hd; exact Nat.mod_lt _ cellBase_pos
      · exact ih _ (fun z hz => hb z (by simp [hz])) d hd

theorem innerB_len : ∀ (acc : List ℕ) (c : ℕ), acc.length ≤ (innerB acc c).length := by
  intro acc
  induction acc with
  | nil => intro c; simp
  | cons a acc ih =>
    intro c
    unfold innerB
    by_cases hc : c = 0
    · simp [hc]
    · rw [if_neg hc]
      simp only [List.length_cons]
      exact Nat.succ_le_succ (ih _)

theorem innerA_val : ∀ (ys acc : List ℕ) (xi c : ℕ),
    magVal (innerA acc xi ys c) = magVal acc + c + xi * magVal ys := by
  intro ys
  induction ys with
  | nil => intro acc xi c; simp [innerA, innerB_val, magVal_nil]
  | cons y ys ih =>
    intro acc xi c
    unfold innerA
    rw [magVal_cons, ih, magVal_cons]
    have h1 := Nat.div_add_mod (acc.headD 0 + c + xi * y) CELL_BASE
    have h2 := magVal_headD_tail acc
    ring_nf
    ring_nf at h1 h2
    omega

theorem innerA_bounded : ∀ (ys acc : List ℕ) (xi c : ℕ), Bounded acc →
    Bounded (innerA acc xi ys c) := by
  intro ys
  induction ys with
  | nil => intro acc xi c hb; exact innerB_bounded acc c hb
  | cons y ys ih =>
    intro acc xi c hb d hd
    unfold innerA at hd
    rcases List.mem_cons.mp hd with hd | hd
    · subst hd; exact Nat.mod_lt _ cellBase_pos
    · exact ih _ _ _ (fun z hz => hb z (List.mem_of_mem_tail hz)) d hd

theorem innerA_len : ∀ (ys acc : List ℕ) (xi c : ℕ),
    acc.length ≤ (innerA acc xi ys c).length := by
  intro ys
  induction ys with
  | nil => intro acc xi c; exact innerB_len acc c
  | cons y ys ih =>
    intro acc xi c
    unfold innerA
    simp only [List.length_cons]
    calc acc.length ≤ acc.tail.length + 1 := by
          rcases acc with - | ⟨a, acc⟩ <;> simp
      _ ≤ (innerA acc.tail xi ys ((acc.headD 0 + c + xi * y) / CELL_BASE)).length + 1 :=
          Nat.succ_le_succ (ih _ _ _)

theorem outer_val : ∀ (xs acc ys : List ℕ) (i : ℕ), i + xs.length ≤ acc.length →
    magVal (outer acc xs ys i) = magVal acc + CELL_BASE ^ i * magVal xs * magVal ys := by
  intro xs
  induction xs with
  | nil => intro acc ys i _; simp [outer, magVal_nil]
  | cons xi xs ih =>
    intro acc ys i hlen
    simp only [List.length_cons] at hlen
    have hi : i ≤ acc.length := by omega
    have htk : (acc.take i).length = i := by
      rw [List.length_take]
      omega
    unfold outer
    have hval : magVal (acc.take i ++ innerA (acc.drop i) xi ys 0) =
        magVal acc + CELL_BASE ^ i * (xi * magVal ys) := by
      rw [magVal_append, htk, innerA_val]
      conv_rhs => rw [← List.take_append_drop i acc]
      rw [magVal_append, htk]
      ring
    have hlen2 : (acc.take i ++ innerA (acc.drop i) xi ys 0).length ≥ acc.length := by
      rw [List.length_append, htk]
      have := innerA_len ys (acc.drop i) xi 0
      rw [List.length_drop] at this
      omega
    rw [ih _ ys (i + 1) (by omega), hval, magVal_cons]
    ring

theorem outer_bounded : ∀ (xs acc ys : List ℕ) (i : ℕ), Bounded acc →
    Bounded (outer acc xs ys i) := by
  intro xs
  induction xs with
  | nil => intro acc ys i hb; exact hb
  | cons xi xs ih =>
    intro acc ys i hb
    unfold outer
    apply ih
    intro d hd
    rcases List.mem_append.mp hd with hd | hd
    · exact hb d (List.mem_of_mem_take hd)
    · exact innerA_bounded _ _ _ _ (fun z hz => hb z (List.mem_of_mem_drop hz)) d hd

theorem outer_len : ∀ (xs acc ys : List ℕ) (i : ℕ), i + xs.length ≤ acc.length →
    acc.length ≤ (outer acc xs ys i).length := by
  intro xs
  induction xs with
  | nil => intro acc ys i _; exact le_rfl
  | cons xi xs ih =>
    intro acc ys i hi
    simp only [List.length_cons] at hi
    unfold outer
    have htk : (acc.take i).length = i := by
      rw [List.length_take]
      omega
    have hlen2 : acc.length ≤ (acc.take i ++ innerA (acc.drop i) xi ys 0).length := by
      rw [List.length_append, htk]
      have := innerA_len ys (acc.drop i) xi 0
      rw [List.length_drop] at this
      omega
    calc acc.length ≤ (acc.take i ++ innerA (acc.drop i) xi ys 0).length := hlen2
      _ ≤ _ := ih _ ys (i + 1) (by
          have h1 := innerA_len ys (acc.drop i) xi 0
          rw [List.length_drop] at h1
          have h2 : (acc.take i ++ innerA (acc.drop i) xi ys 0).length =
              i + (innerA (acc.drop i) xi ys 0).length := by
            rw [List.length_append, htk]
          omega)

theorem magVal_replicate_zero (n : ℕ) : magVal (List.replicate n 0) = 0 := by
  induction n with
  | zero => rfl
  | succ n ih => simp [List.replicate_succ, magVal_cons, ih]

theorem mul_correct {x y : BigInteger} (hx : NiceD x) (hy : NiceD y) :
    Valid (mul x y) ∧ toInt (mul x y) = toInt x * toInt y := by
  unfold mul
  have hb0 : Bounded (List.replicate (x.m_digits.length + y.m_digits.length + 1) 0) := by
    intro d hd
    rw [List.eq_of_mem_replicate hd]
    exact cellBase_pos
  have hval : magVal (outer (List.replicate (x.m_digits.length + y.m_digits.length + 1) 0)
      x.m_digits y.m_digits 0) = magNat x * magNat y := by
    rw [outer_val _ _ _ 0 (by simp only [List.length_replicate, Nat.zero_add]; omega),
      magVal_replicate_zero]
    unfold magNat
    ring
  have hlen : 1 ≤ (outer (List.replicate (x.m_digits.length + y.m_digits.length + 1) 0)
      x.m_digits y.m_digits 0).length := by
    have := outer_len x.m_digits
      (List.replicate (x.m_digits.length + y.m_digits.length + 1) 0) y.m_digits 0
      (by simp only [List.length_replicate, Nat.zero_add]; omega)
    simp only [List.length_replicate] at this
    omega
  have hne : outer (List.replicate (x.m_digits.length + y.m_digits.length + 1) 0)
      x.m_digits y.m_digits 0 ≠ [] := by
    intro hc
    rw [hc] at hlen
    simp at hlen
  have hbo := outer_bounded x.m_digits
    (List.replicate (x.m_digits.length + y.m_digits.length + 1) 0) y.m_digits 0 hb0
  refine ⟨rlz_valid hne hbo _, ?_⟩
  have hmag : magNat ⟨(remove_leading_zeroes (outer (List.replicate
      (x.m_digits.length + y.m_digits.length + 1) 0)
      x.m_digits y.m_digits 0) (x.m_negative != y.m_negative)).1,
      (remove_leading_zeroes (outer (List.replicate
        (x.m_digits.length + y.m_digits.length + 1) 0) x.m_digits y.m_digits 0)
        (x.m_negative != y.m_negative)).2⟩ = magNat x * magNat y := by
    rw [mk_magNat, rlz_magVal, hval]
  by_cases hz : magNat x * magNat y = 0
  · rw [toInt_zero_of_mag (by rw [hmag, hz])]
    rcases Nat.mul_eq_zero.mp hz with h0 | h0
    · rw [toInt_zero_of_mag h0]
      ring
    · rw [toInt_zero_of_mag h0]
      ring
  · have hsg := @rlz_sign_of_ne_zero (outer (List.replicate
        (x.m_digits.length + y.m_digits.length + 1) 0) x.m_digits
        y.m_digits 0) (by rw [hval]; exact hz) (x.m_negative != y.m_negative)
    rcases Bool.eq_false_or_eq_true x.m_negative with hbx | hbx <;>
      rcases Bool.eq_false_or_eq_true y.m_negative with hby | hby
    · rw [toInt_of_neg_false (by rw [mk_m_negative, hsg, hbx, hby]; rfl),
        toInt_of_neg_true hbx, toInt_of_neg_true hby, hmag]
      push_cast
      ring
    · rw [toInt_of_neg_true (by rw [mk_m_negative, hsg, hbx, hby]; rfl),
        toInt_of_neg_true hbx, toInt_of_neg_false hby, hmag]
      push_cast
      ring
    · rw [toInt_of_neg_true (by rw [mk_m_negative, hsg, hbx, hby]; rfl),
        toInt_of_neg_false hbx, toInt_of_neg_true hby, hmag]
      push_cast
      ring
    · rw [toInt_of_neg_false (by rw [mk_m_negative, hsg, hbx, hby]; rfl),
        toInt_of_neg_false hbx, toInt_of_neg_false hby, hmag]
      push_cast
      ring

/-! ### The `BigInteger(int)` constructor and the quotient-limb search -/

theorem natDigitsGo_zero : ∀ f, natDigitsGo f 0 = [] := by
  intro f
  rcases f with - | f <;> simp [natDigitsGo]

theorem natDigitsGo_val : ∀ f n, n ≤ f → magVal (natDigitsGo f n) = n := by
  intro f
  induction f with
  | zero => intro n h; interval_cases n; rfl
  | succ f ih =>
    intro n h
    unfold natDigitsGo
    by_cases hn : n = 0
    · simp [hn, magVal_nil]
    · rw [if_neg hn, magVal_cons]
      have hlt : n / CELL_BASE < n := Nat.div_lt_self (by omega) (by decide)
      rw [ih (n / CELL_BASE) (by omega)]
      have := Nat.div_add_mod n CELL_BASE
      omega

theorem natDigitsGo_bounded : ∀ f n, ∀ d ∈ natDigitsGo f n, d < CELL_BASE := by
  intro f
  induction f with
  | zero => intro n d hd; simp [natDigitsGo] at hd
  | succ f ih =>
    intro n d hd
    unfold natDigitsGo at hd
    by_cases hn : n = 0
    · simp [hn] at hd
    · rw [if_neg hn] at hd
      rcases List.mem_cons.mp hd with hd | hd
      · subst hd; exact Nat.mod_lt _ cellBase_pos
      · exact ih _ _ hd

theorem natDigitsGo_norm : ∀ f n, n ≠ 0 → n ≤ f →
    natDigitsGo f n ≠ [] ∧ (natDigitsGo f n).getLast? ≠ some 0 := by
  intro f
  induction f with
  | zero => intro n h hle; omega
  | succ f ih =>
    intro n hn hle
    unfold natDigitsGo
    rw [if_neg hn]
    by_cases hq : n / CELL_BASE = 0
    · rw [hq, natDigitsGo_zero]
      have hlt : n < CELL_BASE := by
        rcases Nat.lt_or_ge n CELL_BASE with h | h
        · exact h
        · exfalso
          have := @Nat.div_le_div_right _ _ CELL_BASE h
          rw [Nat.div_self cellBase_pos] at this
          omega
      refine ⟨by simp, ?_⟩
      rw [Nat.mod_eq_of_lt hlt]
      simp only [List.getLast?_singleton, ne_eq, Option.some.injEq]
      exact hn
    · have hqle : n / CELL_BASE ≤ f := by
        have : n / CELL_BASE < n := Nat.div_lt_self (by omega) (by decide)
        omega
      obtain ⟨h1, h2⟩ := ih (n / CELL_BASE) hq hqle
      refine ⟨by simp, ?_⟩
      rcases ht : natDigitsGo f (n / CELL_BASE) with - | ⟨a, t⟩
      · exact absurd ht h1
      · rw [List.getLast?_cons_cons]
        rw [ht] at h2
        exact h2

theorem ofInt_correct (z : ℤ) : Valid (ofInt z) ∧ toInt (ofInt z) = z := by
  unfold ofInt
  by_cases hz : z.natAbs = 0
  · rw [if_pos hz]
    have hz0 : z = 0 := Int.natAbs_eq_zero.mp hz
    subst hz0
    refine ⟨⟨?_, ⟨by simp, Or.inl rfl⟩, fun _ => rfl⟩, ?_⟩
    · intro d hd
      rcases List.mem_singleton.mp hd with rfl
      exact cellBase_pos
    · rw [toInt_zero_of_mag (by rw [mk_magNat, magVal_singleton])]
  · rw [if_neg hz]
    obtain ⟨h1, h2⟩ := natDigitsGo_norm z.natAbs z.natAbs hz le_rfl
    have hmag : magNat ⟨natDigits z.natAbs, decide (z < 0)⟩ = z.natAbs := by
      rw [mk_magNat]
      exact natDigitsGo_val z.natAbs z.natAbs le_rfl
    refine ⟨⟨fun d hd => natDigitsGo_bounded _ _ d hd, ⟨h1, Or.inr h2⟩, ?_⟩, ?_⟩
    · intro hc
      exfalso
      apply h2
      show (natDigits z.natAbs).getLast? = some 0
      rw [show natDigits z.natAbs = [0] from hc]
      rfl
    · unfold toInt
      rw [hmag]
      rcases Int.lt_or_le z 0 with hzs | hzs
      · rw [if_pos (by simpa using hzs)]
        omega
      · rw [if_neg (by simpa using hzs)]
        omega

theorem valid_nonneg_of_toInt {z : BigInteger} (hv : Valid z) {m : ℕ}
    (h : toInt z = (m : ℤ)) : z.m_negative = false ∧ magNat z = m := by
  constructor
  · rcases hb : z.m_negative with - | -
    · rfl
    · have := (toInt_neg_flag hv).mpr hb
      omega
  · have := natAbs_toInt z
    rw [h] at this
    simpa using this.symm

/-! ### Binary search of the quotient limb -/

theorem bsearchGo_spec : ∀ (f : ℕ) (P : ℤ → Bool) (left right val hi : ℤ),
    (right + 1 - left).toNat < f → 0 ≤ left → left ≤ right + 1 → -1 ≤ right →
    right ≤ hi → 0 ≤ hi →
    P val = true → 0 ≤ val → val ≤ hi →
    (val = left - 1 ∨ (val = 0 ∧ left = 0)) →
    (right = hi ∨ P (right + 1) = false) →
    P (bsearchGo f P left right val) = true ∧
      (bsearchGo f P left right val = hi ∨ P (bsearchGo f P left right val + 1) = false) ∧
      0 ≤ bsearchGo f P left right val ∧ bsearchGo f P left right val ≤ hi := by
  intro f
  induction f with
  | zero => intro P left right val hi hf; omega
  | succ f ih =>
    intro P left right val hi hf h0l hlr1 hm1 hrh h0h hPv h0v hvh hval hright
    unfold bsearchGo
    by_cases hlr : left ≤ right
    · rw [if_pos hlr]
      have hmid : left ≤ (left + right) / 2 ∧ (left + right) / 2 ≤ right := by omega
      by_cases hP : P ((left + right) / 2) = true
      · rw [if_pos hP]
        exact ih P ((left + right) / 2 + 1) right ((left + right) / 2) hi
          (by omega) (by omega) (by omega) (by omega) hrh h0h hP (by omega) (by omega)
          (Or.inl (by ring)) hright
      · rw [if_neg hP]
        exact ih P left ((left + right) / 2 - 1) val hi
          (by omega) h0l (by omega) (by omega) (by omega) h0h hPv h0v hvh hval
          (Or.inr (by
            have : (left + right) / 2 - 1 + 1 = (left + right) / 2 := by ring
            rw [this]
            simpa using hP))
    · rw [if_neg hlr]
      refine ⟨hPv, ?_, h0v, hvh⟩
      rcases hval with hval | ⟨hval, hleft⟩
      · rcases hright with hright | hright
        · left
          omega
        · right
          have : val + 1 = right + 1 := by omega
          rw [this]
          exact hright
      · rcases hright with hright | hright
        · exfalso
          omega
        · exfalso
          have hr : right + 1 = 0 := by omega
          rw [hr] at hright
          rw [hval] at hPv
          simp [hPv] at hright

theorem bsearchGo_range : ∀ (f : ℕ) (P : ℤ → Bool) (left right val hi : ℤ),
    0 ≤ left → 0 ≤ val → val ≤ hi → right ≤ hi →
    0 ≤ bsearchGo f P left right val ∧ bsearchGo f P left right val ≤ hi := by
  intro f
  induction f with
  | zero => intro P left right val hi _ h1 h2 _; exact ⟨h1, h2⟩
  | succ f ih =>
    intro P left right val hi h0l h0v hvh hrh
    unfold bsearchGo
    by_cases hlr : left ≤ right
    · rw [if_pos hlr]
      have hmid : left ≤ (left + right) / 2 ∧ (left + right) / 2 ≤ right := by omega
      by_cases hP : P ((left + right) / 2) = true
      · rw [if_pos hP]
        exact ih P _ right _ hi (by omega) (by omega) (by omega) hrh
      · rw [if_neg hP]
        exact ih P left _ val hi h0l h0v hvh (by omega)
    · rw [if_neg hlr]
      exact ⟨h0v, hvh⟩

theorem qdigit_range (b cur : BigInteger) : qdigit b cur ≤ CELL_BASE - 1 := by
  unfold qdigit
  have h := bsearchGo_range (CELL_BASE + 1) (fun m => le (mul b (ofInt m)) cur)
    0 ((CELL_BASE : ℤ) - 1) 0 ((CELL_BASE : ℤ) - 1)
    le_rfl le_rfl (by norm_num [CELL_BASE]) le_rfl
  omega

theorem qdigit_spec {b cur : BigInteger} (hb : Valid b) (hbn : b.m_negative = false)
    (hcur : Valid cur) (hcn : cur.m_negative = false) (hbpos : 0 < magNat b) :
    qdigit b cur = min (magNat cur / magNat b) (CELL_BASE - 1) := by
  have hPm : ∀ m : ℤ, (fun m => le (mul b (ofInt m)) cur) m =
      decide ((magNat b : ℤ) * m ≤ (magNat cur : ℤ)) := by
    intro m
    obtain ⟨hov, hoi⟩ := ofInt_correct m
    obtain ⟨hmv, hmi⟩ := mul_correct (valid_nice hb) (valid_nice hov)
    simp only
    rw [le_correct hmv hcur, hmi, hoi, toInt_of_neg_false hbn, toInt_of_neg_false hcn]
  unfold qdigit
  have hspec := bsearchGo_spec (CELL_BASE + 1) (fun m => le (mul b (ofInt m)) cur)
    0 ((CELL_BASE : ℤ) - 1) 0 ((CELL_BASE : ℤ) - 1)
    (by norm_num [CELL_BASE]) le_rfl (by norm_num [CELL_BASE]) (by norm_num [CELL_BASE])
    le_rfl (by norm_num [CELL_BASE])
    (by rw [hPm 0]; simp) le_rfl (by norm_num [CELL_BASE])
    (Or.inr ⟨rfl, rfl⟩) (Or.inl rfl)
  obtain ⟨hp1, hp2, hp3, hp4⟩ := hspec
  set r := bsearchGo (CELL_BASE + 1) (fun m => le (mul b (ofInt m)) cur)
    0 ((CELL_BASE : ℤ) - 1) 0 with hrdef
  rw [hPm r] at hp1
  have h1 : (magNat b : ℤ) * r ≤ (magNat cur : ℤ) := of_decide_eq_true hp1
  have hr : r = (r.toNat : ℤ) := by omega
  have h1n : magNat b * r.toNat ≤ magNat cur := by
    rw [hr] at h1
    exact_mod_cast h1
  have hle1 : r.toNat ≤ magNat cur / magNat b :=
    (Nat.le_div_iff_mul_le hbpos).mpr (by rw [Nat.mul_comm]; exact h1n)
  rcases hp2 with hp2 | hp2
  · -- the search hit the top of the range
    have hrt : r.toNat = CELL_BASE - 1 := by rw [hp2]; rfl
    rw [hrt]
    have : CELL_BASE - 1 ≤ magNat cur / magNat b := by rw [← hrt]; exact hle1
    omega
  · rw [hPm (r + 1)] at hp2
    have h2 : ¬ ((magNat b : ℤ) * (r + 1) ≤ (magNat cur : ℤ)) := by
      intro hc
      rw [decide_eq_true hc] at hp2
      exact absurd hp2 (by simp)
    have h2n : magNat cur < magNat b * (r.toNat + 1) := by
      push_neg at h2
      rw [hr] at h2
      exact_mod_cast h2
    have hle2 : magNat cur / magNat b < r.toNat + 1 :=
      (Nat.div_lt_iff_lt_mul hbpos).mpr (by rw [Nat.mul_comm] at h2n; exact h2n)
    have hrhi : r.toNat ≤ CELL_BASE - 1 := by omega
    omega

theorem rlz_sign_false (ds : List ℕ) : (remove_leading_zeroes ds false).2 = false := by
  unfold remove_leading_zeroes
  by_cases h : ds = []
  · simp [h]
  · rw [if_neg h]
    by_cases hs : stripLead ds = [] <;> simp [hs]

/-- Value of a big-endian digit list. -/
def valBE : List ℕ → ℕ
  | [] => 0
  | d :: rest => d * CELL_BASE ^ rest.length + valBE rest

theorem valBE_append (l1 l2 : List ℕ) :
    valBE (l1 ++ l2) = valBE l1 * CELL_BASE ^ l2.length + valBE l2 := by
  induction l1 with
  | nil => simp [valBE]
  | cons d l1 ih =>
    show d * CELL_BASE ^ (l1 ++ l2).length + valBE (l1 ++ l2) = _
    rw [ih, List.length_append, pow_add, valBE]
    ring

theorem valBE_reverse (ds : List ℕ) : valBE ds.reverse = magVal ds := by
  induction ds with
  | nil => rfl
  | cons d t ih =>
    rw [List.reverse_cons, valBE_append, ih, magVal_cons]
    simp only [valBE, List.length_nil, pow_zero, List.length_singleton, pow_one]
    ring

theorem divStepRes_eq_set {n : ℕ} {Q : List ℕ} (q : ℕ) :
    divStepRes (List.replicate (n + 1) 0 ++ Q) n q = List.replicate n 0 ++ q :: Q := by
  unfold divStepRes
  rw [if_pos (by rw [List.length_append, List.length_replicate]; omega)]
  have h := set_append_len (List.replicate n 0) 0 q Q
  rw [List.length_replicate] at h
  rw [List.replicate_succ', List.append_assoc]
  simpa using h

/-- Main invariant of the long-division loop: processing the remaining
big-endian dividend limbs `aBE` after a prefix of value `A`, with the
running remainder holding `A % magNat b` and the result vector in one of
two shapes (untouched zeros below the current position with the quotient
digits so far above, or — during the first `size(b) - 1` iterations — an
all-zero vector that is still growing by `push_back`), the loop ends with
the result vector encoding the full quotient. -/
theorem divLoop_spec {b : BigInteger} (hbv : Valid b) (hbn : b.m_negative = false)
    (hbpos : 0 < magNat b) :
    ∀ (aBE : List ℕ) (cur : BigInteger) (res : List ℕ) (A : ℕ),
    (∀ z ∈ aBE, z < CELL_BASE) →
    Valid cur → cur.m_negative = false → magNat cur = A % magNat b →
    ((∃ Q, res = List.replicate aBE.length 0 ++ Q ∧ magVal Q = A / magNat b ∧ Bounded Q) ∨
     (res = List.replicate res.length 0 ∧ A / magNat b = 0 ∧ res.length + 1 ≤ aBE.length ∧
       (A + 1) * CELL_BASE ^ (aBE.length - res.length) ≤ magNat b)) →
    magVal (divLoop b aBE cur res).2 = (A * CELL_BASE ^ aBE.length + valBE aBE) / magNat b ∧
      Bounded (divLoop b aBE cur res).2 := by
  intro aBE
  induction aBE with
  | nil =>
    intro cur res A hbd hcv hcn hcm hreg
    rcases hreg with ⟨Q, hQ, hQv, hQb⟩ | ⟨-, -, hlen, -⟩
    · constructor
      · show magVal res = _
        rw [hQ, List.length_nil, List.replicate_zero, List.nil_append, hQv]
        simp [valBE]
      · show Bounded res
        rw [hQ]
        simpa using hQb
    · simp at hlen
  | cons d rest ih =>
    intro cur res A hbd hcv hcn hcm hreg
    have hd : d < CELL_BASE := hbd d (by simp)
    have hbd' : ∀ z ∈ rest, z < CELL_BASE := fun z hz => hbd z (by simp [hz])
    set p := remove_leading_zeroes (d :: cur.m_digits) cur.m_negative with hpdef
    set cur2 : BigInteger := ⟨p.1, p.2⟩ with hcur2def
    set q := qdigit b cur2 with hqdef
    set cur3 := sub cur2 (mul b (ofInt (q : ℤ))) with hcur3def
    have hunfold : divLoop b (d :: rest) cur res =
        divLoop b rest cur3 (divStepRes res rest.length q) := rfl
    have hcur2v : Valid cur2 := by
      rw [hcur2def, hpdef]
      apply rlz_valid (by simp)
      intro z hz
      rcases List.mem_cons.mp hz with rfl | hz
      · exact hd
      · exact hcv.1 z hz
    have hcur2m : magNat cur2 = d + CELL_BASE * (A % magNat b) := by
      rw [hcur2def, mk_magNat, hpdef, rlz_magVal, magVal_cons]
      rw [show magVal cur.m_digits = A % magNat b from hcm]
    have hcur2n : cur2.m_negative = false := by
      rw [hcur2def, mk_m_negative, hpdef, hcn]
      exact rlz_sign_false _
    set C : ℕ := d + CELL_BASE * (A % magNat b) with hCdef
    have hCltBB : C < magNat b * CELL_BASE := by
      have hmod : A % magNat b < magNat b := Nat.mod_lt _ hbpos
      have h1 : CELL_BASE * (A % magNat b) ≤ CELL_BASE * (magNat b - 1) :=
        Nat.mul_le_mul_left _ (by omega)
      have h2 : CELL_BASE * (magNat b - 1) = CELL_BASE * magNat b - CELL_BASE := by
        rw [Nat.mul_sub, Nat.mul_one]
      have h3 : CELL_BASE ≤ CELL_BASE * magNat b := by
        calc CELL_BASE = CELL_BASE * 1 := by ring
          _ ≤ CELL_BASE * magNat b := Nat.mul_le_mul_left _ hbpos
      have h4 : magNat b * CELL_BASE = CELL_BASE * magNat b := Nat.mul_comm _ _
      omega
    have hq : q = C / magNat b := by
      rw [hqdef, qdigit_spec hbv hbn hcur2v hcur2n hbpos, hcur2m]
      have hlt : C / magNat b < CELL_BASE :=
        (Nat.div_lt_iff_lt_mul hbpos).mpr (by rw [Nat.mul_comm]; exact hCltBB)
      omega
    have hqlt : q < CELL_BASE := by
      rw [hq]
      exact (Nat.div_lt_iff_lt_mul hbpos).mpr (by rw [Nat.mul_comm]; exact hCltBB)
    obtain ⟨hov, hoi⟩ := ofInt_correct (q : ℤ)
    obtain ⟨hmv, hmi⟩ := mul_correct (valid_nice hbv) (valid_nice hov)
    obtain ⟨hsv, hsi⟩ := sub_correct (valid_nice hcur2v) (valid_nice hmv)
    have hcur3i : toInt cur3 = ((C % magNat b : ℕ) : ℤ) := by
      rw [hcur3def, hsi, hmi, hoi, toInt_of_neg_false hbn, toInt_of_neg_false hcur2n,
        hcur2m, hq]
      have hdm := Nat.div_add_mod C (magNat b)
      omega
    have hcur3v : Valid cur3 := by rw [hcur3def]; exact hsv
    obtain ⟨hcur3n, hcur3m⟩ := valid_nonneg_of_toInt hcur3v hcur3i
    have hkey : A * CELL_BASE + d = magNat b * (A / magNat b * CELL_BASE) + C := by
      have hdm := Nat.div_add_mod A (magNat b)
      rw [hCdef]
      calc A * CELL_BASE + d
          = (magNat b * (A / magNat b) + A % magNat b) * CELL_BASE + d := by rw [hdm]
        _ = magNat b * (A / magNat b * CELL_BASE) + (d + CELL_BASE * (A % magNat b)) := by
            ring
    have hAdiv : (A * CELL_BASE + d) / magNat b = A / magNat b * CELL_BASE + C / magNat b := by
      rw [hkey, Nat.mul_add_div hbpos]
    have hAmod : (A * CELL_BASE + d) % magNat b = C % magNat b := by
      rw [hkey, Nat.mul_add_mod]
    have hcm' : magNat cur3 = (A * CELL_BASE + d) % magNat b := by rw [hcur3m, hAmod]
    have hgoal_arg : (A * CELL_BASE + d) * CELL_BASE ^ rest.length + valBE rest =
        A * CELL_BASE ^ (d :: rest).length + valBE (d :: rest) := by
      show _ = A * CELL_BASE ^ (rest.length + 1) + (d * CELL_BASE ^ rest.length + valBE rest)
      rw [pow_succ]
      ring
    rw [hunfold, ← hgoal_arg]
    rcases hreg with ⟨Q, hQ, hQv, hQb⟩ | ⟨hz, hq0, hlen, hI6⟩
    · -- regime A: the slots below the current position are untouched zeros
      have hres' : divStepRes res rest.length q = List.replicate rest.length 0 ++ q :: Q := by
        rw [hQ, show (d :: rest).length = rest.length + 1 from rfl]
        exact divStepRes_eq_set q
      rw [hres']
      apply ih cur3 _ (A * CELL_BASE + d) hbd' hcur3v hcur3n hcm'
      left
      refine ⟨q :: Q, rfl, ?_, ?_⟩
      · rw [magVal_cons, hQv, hAdiv, hq]
        ring
      · intro z hz
        rcases List.mem_cons.mp hz with rfl | hz
        · exact hqlt
        · exact hQb z hz
    · -- regime B: still inside the first `size(b) - 1` iterations
      have hlen' : res.length ≤ rest.length := by
        simp only [List.length_cons] at hlen
        omega
      have hexp : (d :: rest).length - res.length = rest.length + 1 - res.length := by
        simp only [List.length_cons]
      rw [hexp] at hI6
      have hexp1 : 1 ≤ rest.length + 1 - res.length := by omega
      have hpow1 : (A + 1) * CELL_BASE ≤ (A + 1) * CELL_BASE ^ (rest.length + 1 - res.length) := by
        calc (A + 1) * CELL_BASE = (A + 1) * CELL_BASE ^ 1 := by rw [pow_one]
          _ ≤ (A + 1) * CELL_BASE ^ (rest.length + 1 - res.length) :=
            Nat.mul_le_mul_left _ (Nat.pow_le_pow_right cellBase_pos hexp1)
      have hApos : A + 1 ≤ magNat b := by
        have h1 : A + 1 ≤ (A + 1) * CELL_BASE := by
          calc A + 1 = (A + 1) * 1 := by ring
            _ ≤ (A + 1) * CELL_BASE := Nat.mul_le_mul_left _ cellBase_pos
        omega
      have hAmodid : A % magNat b = A := Nat.mod_eq_of_lt (by omega)
      have hCA : C = A * CELL_BASE + d := by
        rw [hCdef, hAmodid]
        ring
      have hCltB : C < magNat b := by
        rw [hCA]
        have h1 : A * CELL_BASE + d + 1 ≤ (A + 1) * CELL_BASE := by
          have h2 : (A + 1) * CELL_BASE = A * CELL_BASE + CELL_BASE := by ring
          omega
        omega
      have hqz : q = 0 := by
        rw [hq]
        exact Nat.div_eq_of_lt hCltB
      have hpush : divStepRes res rest.length q = res ++ [q] := by
        unfold divStepRes
        rw [if_neg (by omega)]
      have hres0 : res ++ [q] = List.replicate (res.length + 1) 0 := by
        conv_lhs => rw [hz, hqz]
        rw [← List.replicate_succ']
      rw [hpush, hres0]
      have hA'div : (A * CELL_BASE + d) / magNat b = 0 :=
        Nat.div_eq_of_lt (by rw [← hCA]; exact hCltB)
      apply ih cur3 _ (A * CELL_BASE + d) hbd' hcur3v hcur3n hcm'
      by_cases hcase : rest.length ≤ res.length + 1
      · -- the zero vector has caught up: switch to regime A
        left
        refine ⟨List.replicate (res.length + 1 - rest.length) 0, ?_, ?_, ?_⟩
        · rw [← List.replicate_add]
          congr 1
          omega
        · rw [magVal_replicate_zero, hA'div]
        · intro z hz
          rw [List.eq_of_mem_replicate hz]
          exact cellBase_pos
      · -- still growing: stay in regime B
        right
        refine ⟨by rw [List.length_replicate], hA'div, ?_, ?_⟩
        · rw [List.length_replicate]
          omega
        · rw [List.length_replicate]
          have hstep : A * CELL_BASE + d + 1 ≤ (A + 1) * CELL_BASE := by
            have h2 : (A + 1) * CELL_BASE = A * CELL_BASE + CELL_BASE := by ring
            omega
          have e1 : CELL_BASE * CELL_BASE ^ (rest.length - (res.length + 1)) =
              CELL_BASE ^ (rest.length - res.length) := by
            rw [← pow_succ']
            congr 1
            omega
          have e2 : CELL_BASE ^ (rest.length - res.length) ≤
              CELL_BASE ^ (rest.length + 1 - res.length) :=
            Nat.pow_le_pow_right cellBase_pos (by omega)
          calc (A * CELL_BASE + d + 1) * CELL_BASE ^ (rest.length - (res.length + 1))
              ≤ ((A + 1) * CELL_BASE) * CELL_BASE ^ (rest.length - (res.length + 1)) :=
                Nat.mul_le_mul_right _ hstep
            _ = (A + 1) * (CELL_BASE * CELL_BASE ^ (rest.length - (res.length + 1))) := by
                ring
            _ = (A + 1) * CELL_BASE ^ (rest.length - res.length) := by rw [e1]
            _ ≤ (A + 1) * CELL_BASE ^ (rest.length + 1 - res.length) :=
                Nat.mul_le_mul_left _ e2
            _ ≤ magNat b := hI6

/-- Full correctness of `operator/=` on a nonzero divisor: the result is
canonical, its magnitude is the floor quotient of the magnitudes, and its
sign is the XOR of the operand signs unless the quotient is zero. -/
theorem div_correct {x y : BigInteger} (hx : Valid x) (hy : Valid y)
    (hpos : 0 < magNat y) :
    Valid (div x y) ∧ magNat (div x y) = magNat x / magNat y ∧
      (div x y).m_negative =
        (if magNat x / magNat y = 0 then false else (x.m_negative != y.m_negative)) := by
  have hsplit : div x y =
      if beq (abs x) (abs y) then ⟨[1], x.m_negative != y.m_negative⟩
      else if lt (abs x) (abs y) then ofInt 0
      else
        ⟨(remove_leading_zeroes (divLoop (abs y) x.m_digits.reverse ⟨[0], false⟩
            (List.replicate (x.m_digits.length - y.m_digits.length + 1) 0)).2
            (x.m_negative != y.m_negative)).1,
          (remove_leading_zeroes (divLoop (abs y) x.m_digits.reverse ⟨[0], false⟩
            (List.replicate (x.m_digits.length - y.m_digits.length + 1) 0)).2
            (x.m_negative != y.m_negative)).2⟩ := rfl
  rw [hsplit]
  have hyd0 : y.m_digits ≠ [0] := by
    intro hc
    rw [show magNat y = magVal y.m_digits from rfl, hc, magVal_singleton] at hpos
    omega
  by_cases hbeq : beq (abs x) (abs y) = true
  · rw [if_pos hbeq]
    have heq : abs x = abs y := beq_iff_eq'.mp hbeq
    have hmag : magNat x = magNat y := by
      rw [← magNat_abs x, ← magNat_abs y, heq]
    have hdiv1 : magNat x / magNat y = 1 := by
      rw [hmag, Nat.div_self hpos]
    refine ⟨⟨?_, ⟨by simp, Or.inr (by simp)⟩, ?_⟩, ?_, ?_⟩
    · intro d hd
      rcases List.mem_singleton.mp hd with rfl
      decide
    · intro hc
      simp at hc
    · rw [mk_magNat, magVal_singleton, hdiv1]
    · rw [mk_m_negative, hdiv1, if_neg (by omega)]
  · rw [if_neg hbeq]
    have hltc : lt (abs x) (abs y) = decide (magNat x < magNat y) := by
      rw [lt_correct (valid_abs (valid_nice hx)) (valid_abs (valid_nice hy)),
        toInt_abs, toInt_abs, decide_eq_decide]
      omega
    by_cases hlt : magNat x < magNat y
    · rw [hltc, if_pos (by simp [hlt])]
      have hdiv0 : magNat x / magNat y = 0 := Nat.div_eq_of_lt hlt
      obtain ⟨hov, hoi⟩ := ofInt_correct 0
      obtain ⟨hon, hom⟩ := valid_nonneg_of_toInt hov
        (show toInt (ofInt 0) = ((0 : ℕ) : ℤ) from by rw [hoi]; rfl)
      exact ⟨hov, by rw [hom, hdiv0], by rw [hon, hdiv0, if_pos rfl]⟩
    · rw [hltc, if_neg (by simp [hlt])]
      have hyx : magNat y ≤ magNat x := by omega
      have hq1 : 1 ≤ magNat x / magNat y := (Nat.one_le_div_iff hpos).mpr hyx
      set D := (divLoop (abs y) x.m_digits.reverse ⟨[0], false⟩
        (List.replicate (x.m_digits.length - y.m_digits.length + 1) 0)).2 with hDdef
      have h0v : Valid (⟨[0], false⟩ : BigInteger) := by
        refine ⟨?_, ⟨by simp, Or.inl rfl⟩, fun _ => rfl⟩
        intro d hd
        rcases List.mem_singleton.mp hd with rfl
        exact cellBase_pos
      have hbd : ∀ z ∈ x.m_digits.reverse, z < CELL_BASE := by
        intro z hz
        exact hx.1 z (List.mem_reverse.mp hz)
      have hbpos' : 0 < magNat (abs y) := by rw [magNat_abs]; exact hpos
      have hblen1 : 1 ≤ y.m_digits.length := by
        have h1 := hy.2.1.1
        rcases h : y.m_digits with - | ⟨a, t⟩
        · exact absurd h h1
        · simp
      have hlenxy : y.m_digits.length ≤ x.m_digits.length := by
        by_contra hc
        push_neg at hc
        have h1 : CELL_BASE ^ (y.m_digits.length - 1) ≤ magNat y :=
          base_pow_le_magVal_of_norm hy.2.1 hyd0
        have h2 : magNat x < CELL_BASE ^ x.m_digits.length := magVal_lt_of_bounded hx.1
        have h3 : CELL_BASE ^ x.m_digits.length ≤ CELL_BASE ^ (y.m_digits.length - 1) :=
          Nat.pow_le_pow_right cellBase_pos (by omega)
        omega
      have hreg : (∃ Q, List.replicate (x.m_digits.length - y.m_digits.length + 1) 0 =
            List.replicate x.m_digits.reverse.length 0 ++ Q ∧
            magVal Q = 0 / magNat (abs y) ∧ Bounded Q) ∨
          (List.replicate (x.m_digits.length - y.m_digits.length + 1) 0 =
            List.replicate (List.replicate (x.m_digits.length - y.m_digits.length + 1)
              0).length 0 ∧
           0 / magNat (abs y) = 0 ∧
           (List.replicate (x.m_digits.length - y.m_digits.length + 1) 0).length + 1 ≤
             x.m_digits.reverse.length ∧
           (0 + 1) * CELL_BASE ^ (x.m_digits.reverse.length -
             (List.replicate (x.m_digits.length - y.m_digits.length + 1) 0).length) ≤
             magNat (abs y)) := by
        by_cases hy1 : y.m_digits.length = 1
        · left
          refine ⟨[], ?_, by rw [magVal_nil, Nat.zero_div], by intro z hz; simp at hz⟩
          rw [List.append_nil, List.length_reverse]
          congr 1
          omega
        · right
          refine ⟨by rw [List.length_replicate], Nat.zero_div _, ?_, ?_⟩
          · rw [List.length_replicate, List.length_reverse]
            omega
          · have hexp : x.m_digits.reverse.length -
                (List.replicate (x.m_digits.length - y.m_digits.length + 1) 0).length =
                y.m_digits.length - 1 := by
              rw [List.length_reverse, List.length_replicate]
              omega
            rw [hexp, Nat.one_mul, magNat_abs]
            exact base_pow_le_magVal_of_norm hy.2.1 hyd0
      obtain ⟨hval, hbddd⟩ := divLoop_spec (valid_abs (valid_nice hy)) rfl hbpos'
        x.m_digits.reverse ⟨[0], false⟩
        (List.replicate (x.m_digits.length - y.m_digits.length + 1) 0) 0
        hbd h0v rfl (by rw [mk_magNat, magVal_singleton, Nat.zero_mod]) hreg
      rw [← hDdef] at hval hbddd
      rw [valBE_reverse] at hval
      have hval' : magVal D = magNat x / magNat y := by
        rw [hval, Nat.zero_mul, Nat.zero_add, magNat_abs]
        rfl
      have hDmag : magVal D ≠ 0 := by omega
      have hDne : D ≠ [] := by
        intro hc
        rw [hc, magVal_nil] at hval'
        omega
      refine ⟨rlz_valid hDne hbddd _, ?_, ?_⟩
      · rw [mk_magNat, rlz_magVal, hval']
      · rw [mk_m_negative, rlz_sign_of_ne_zero hDmag, if_neg (by omega)]

/-- Signed value of the quotient: magnitude `|x| / |y|`, sign the XOR of
the flags (the zero quotient is canonical so the formula needs no side
condition). -/
theorem div_toInt {x y : BigInteger} (hx : Valid x) (hy : Valid y)
    (hpos : 0 < magNat y) :
    toInt (div x y) = (if x.m_negative != y.m_negative then
      -((magNat x / magNat y : ℕ) : ℤ) else ((magNat x / magNat y : ℕ) : ℤ)) := by
  obtain ⟨hqv, hqm, hqs⟩ := div_correct hx hy hpos
  by_cases h0 : magNat x / magNat y = 0
  · rw [if_pos h0] at hqs
    rw [toInt_of_neg_false hqs, hqm, h0]
    rcases x.m_negative != y.m_negative with - | - <;> simp
  · rw [if_neg h0] at hqs
    rcases Bool.eq_false_or_eq_true (x.m_negative != y.m_negative) with hf | hf
    · rw [toInt_of_neg_true (by rw [hqs, hf]), hqm, hf]
      simp
    · rw [toInt_of_neg_false (by rw [hqs, hf]), hqm, hf]
      simp

/-- Correctness of `operator%=` on a nonzero divisor: the result is
canonical, satisfies the defining identity `x - (x/y)*y`, and carries the
magnitude `|x| % |y|` with the sign of the dividend. -/
theorem mod_correct {x y : BigInteger} (hx : Valid x) (hy : Valid y)
    (hpos : 0 < magNat y) :
    Valid (mod x y) ∧
      toInt (mod x y) = toInt x - toInt (div x y) * toInt y ∧
      toInt (mod x y) = (if x.m_negative then
        -((magNat x % magNat y : ℕ) : ℤ) else ((magNat x % magNat y : ℕ) : ℤ)) ∧
      magNat (mod x y) = magNat x % magNat y := by
  obtain ⟨hqv, hqm, hqs⟩ := div_correct hx hy hpos
  obtain ⟨hmv, hmi⟩ := mul_correct (valid_nice hqv) (valid_nice hy)
  obtain ⟨hsv, hsi⟩ := sub_correct (valid_nice hx) (valid_nice hmv)
  have hid : toInt (mod x y) = toInt x - toInt (div x y) * toInt y := by
    rw [show mod x y = sub x (mul (div x y) y) from rfl, hsi, hmi]
  have hqi := div_toInt hx hy hpos
  have hdm := Nat.div_add_mod (magNat x) (magNat y)
  have hdm' := Nat.div_add_mod' (magNat x) (magNat y)
  have hsgn : toInt (mod x y) = (if x.m_negative then
      -((magNat x % magNat y : ℕ) : ℤ) else ((magNat x % magNat y : ℕ) : ℤ)) := by
    rw [hid, hqi]
    rcases Bool.eq_false_or_eq_true x.m_negative with hbx | hbx <;>
      rcases Bool.eq_false_or_eq_true y.m_negative with hby | hby
    · have hxor : (x.m_negative != y.m_negative) = false := by rw [hbx, hby]; rfl
      rw [hxor, toInt_of_neg_true hbx, toInt_of_neg_true hby, hbx]
      simp only [Bool.false_eq_true, if_false, if_true]
      rw [mul_neg]
      omega
    · have hxor : (x.m_negative != y.m_negative) = true := by rw [hbx, hby]; rfl
      rw [hxor, toInt_of_neg_true hbx, toInt_of_neg_false hby, hbx]
      simp only [if_true]
      rw [neg_mul]
      omega
    · have hxor : (x.m_negative != y.m_negative) = true := by rw [hbx, hby]; rfl
      rw [hxor, toInt_of_neg_false hbx, toInt_of_neg_true hby, hbx]
      simp only [Bool.false_eq_true, if_false, if_true]
      rw [neg_mul_neg]
      omega
    · have hxor : (x.m_negative != y.m_negative) = false := by rw [hbx, hby]; rfl
      rw [hxor, toInt_of_neg_false hbx, toInt_of_neg_false hby, hbx]
      simp only [Bool.false_eq_true, if_false]
      omega
  refine ⟨hsv, hid, hsgn, ?_⟩
  have hna := natAbs_toInt (mod x y)
  rw [hsgn] at hna
  rcases Bool.eq_false_or_eq_true x.m_negative with hbx | hbx <;> rw [hbx] at hna <;>
    simp at hna <;> omega

/-- Storing a quotient limb keeps all limbs bounded. -/
theorem divStepRes_bounded {res : List ℕ} {iter q : ℕ} (hb : Bounded res)
    (hq : q < CELL_BASE) : Bounded (divStepRes res iter q) := by
  unfold divStepRes
  by_cases h : iter < res.length
  · rw [if_pos h]
    intro d hd
    rcases List.mem_or_eq_of_mem_set hd with hd | rfl
    · exact hb d hd
    · exact hq
  · rw [if_neg h]
    intro d hd
    rcases List.mem_append.mp hd with hd | hd
    · exact hb d hd
    · rcases List.mem_singleton.mp hd with rfl
      exact hq

/-- Storing a quotient limb never shrinks the result vector. -/
theorem divStepRes_len (res : List ℕ) (iter q : ℕ) :
    res.length ≤ (divStepRes res iter q).length := by
  unfold divStepRes
  by_cases h : iter < res.length
  · rw [if_pos h, List.length_set]
  · rw [if_neg h, List.length_append]
    simp

/-- The long-division loop keeps the result vector bounded and never
shrinks it — with no hypothesis on the divisor, so this holds in
particular when the divisor is zero. -/
theorem divLoop_res_facts (b : BigInteger) : ∀ (aBE : List ℕ) (cur : BigInteger)
    (res : List ℕ), Bounded res →
    Bounded (divLoop b aBE cur res).2 ∧ res.length ≤ (divLoop b aBE cur res).2.length := by
  intro aBE
  induction aBE with
  | nil => intro cur res hb; exact ⟨hb, le_rfl⟩
  | cons d rest ih =>
    intro cur res hb
    set p := remove_leading_zeroes (d :: cur.m_digits) cur.m_negative with hp
    set cur2 : BigInteger := ⟨p.1, p.2⟩ with hcur2
    set q := qdigit b cur2 with hqdef
    set cur3 := sub cur2 (mul b (ofInt (q : ℤ))) with hcur3
    have hstep : divLoop b (d :: rest) cur res =
        divLoop b rest cur3 (divStepRes res rest.length q) := rfl
    rw [hstep]
    have hq : q < CELL_BASE := by
      have h1 := qdigit_range b cur2
      have h2 := cellBase_pos
      omega
    obtain ⟨h1, h2⟩ := ih cur3 (divStepRes res rest.length q) (divStepRes_bounded hb hq)
    exact ⟨h1, le_trans (divStepRes_len res rest.length q) h2⟩

/-- `operator/=` always produces a canonical value — no hypothesis at all:
even a zero divisor yields a structurally well-formed (if numerically
meaningless) result. -/
theorem div_valid (x y : BigInteger) : Valid (div x y) := by
  have hsplit : div x y =
      if beq (abs x) (abs y) then ⟨[1], x.m_negative != y.m_negative⟩
      else if lt (abs x) (abs y) then ofInt 0
      else
        ⟨(remove_leading_zeroes (divLoop (abs y) x.m_digits.reverse ⟨[0], false⟩
            (List.replicate (x.m_digits.length - y.m_digits.length + 1) 0)).2
            (x.m_negative != y.m_negative)).1,
          (remove_leading_zeroes (divLoop (abs y) x.m_digits.reverse ⟨[0], false⟩
            (List.replicate (x.m_digits.length - y.m_digits.length + 1) 0)).2
            (x.m_negative != y.m_negative)).2⟩ := rfl
  rw [hsplit]
  by_cases hbeq : beq (abs x) (abs y) = true
  · rw [if_pos hbeq]
    refine ⟨?_, ⟨by simp, Or.inr (by simp)⟩, ?_⟩
    · intro d hd
      rcases List.mem_singleton.mp hd with rfl
      decide
    · intro hc
      simp at hc
  · rw [if_neg hbeq]
    by_cases hlt : lt (abs x) (abs y) = true
    · rw [if_pos hlt]
      exact (ofInt_correct 0).1
    · rw [if_neg hlt]
      obtain ⟨hb, hl⟩ := divLoop_res_facts (abs y) x.m_digits.reverse ⟨[0], false⟩
        (List.replicate (x.m_digits.length - y.m_digits.length + 1) 0)
        (by intro d hd; rw [List.eq_of_mem_replicate hd]; exact cellBase_pos)
      apply rlz_valid ?_ hb
      intro hc
      rw [hc] at hl
      simp at hl

/-- `operator%=` always produces a canonical value on canonical operands,
zero divisor included. -/
theorem mod_valid {x y : BigInteger} (hx : Valid x) (hy : Valid y) :
    Valid (mod x y) :=
  (sub_correct (valid_nice hx)
    (valid_nice (mul_correct (valid_nice (div_valid x y)) (valid_nice hy)).1)).1

/-! ### Decimal digit lists -/

/-- Value of a big-endian decimal digit list. -/
def val10 : List ℕ → ℕ
  | [] => 0
  | d :: rest => d * 10 ^ rest.length + val10 rest

/-- Zero-padding of a decimal digit list to `k` digits. -/
def padDec (k : ℕ) (D : List ℕ) : List ℕ := List.replicate (k - D.length) 0 ++ D

theorem val10_append (l1 l2 : List ℕ) :
    val10 (l1 ++ l2) = val10 l1 * 10 ^ l2.length + val10 l2 := by
  induction l1 with
  | nil => simp [val10]
  | cons d l1 ih =>
    show d * 10 ^ (l1 ++ l2).length + val10 (l1 ++ l2) = _
    rw [ih, List.length_append, pow_add,
      show val10 (d :: l1) = d * 10 ^ l1.length + val10 l1 from rfl]
    ring

theorem val10_lt {D : List ℕ} (h : ∀ d ∈ D, d < 10) : val10 D < 10 ^ D.length := by
  induction D with
  | nil => simp [val10]
  | cons d rest ih =>
    have hd : d < 10 := h d (List.mem_cons_self d rest)
    have hr := ih (fun z hz => h z (List.mem_cons_of_mem d hz))
    simp only [val10, List.length_cons, pow_succ]
    have h1 : d * 10 ^ rest.length ≤ 9 * 10 ^ rest.length :=
      Nat.mul_le_mul_right _ (by omega)
    have h2 : 10 ^ rest.length * 10 = 10 * 10 ^ rest.length := by ring
    omega

theorem val10_ge {d : ℕ} (rest : List ℕ) (hd : d ≠ 0) :
    10 ^ rest.length ≤ val10 (d :: rest) := by
  simp only [val10]
  have h1 : 1 * 10 ^ rest.length ≤ d * 10 ^ rest.length :=
    Nat.mul_le_mul_right _ (by omega)
  omega

theorem val10_replicate_zero (n : ℕ) : val10 (List.replicate n 0) = 0 := by
  induction n with
  | zero => rfl
  | succ n ih => simp [List.replicate_succ, val10, ih]

theorem val10_pad (k : ℕ) (D : List ℕ) : val10 (padDec k D) = val10 D := by
  unfold padDec
  rw [val10_append, val10_replicate_zero]
  ring

theorem padDec_len {k : ℕ} {D : List ℕ} (h : D.length ≤ k) :
    (padDec k D).length = k := by
  unfold padDec
  rw [List.length_append, List.length_replicate]
  omega

theorem val10_inj_len : ∀ (D1 D2 : List ℕ), D1.length = D2.length →
    (∀ d ∈ D1, d < 10) → (∀ d ∈ D2, d < 10) → val10 D1 = val10 D2 → D1 = D2 := by
  intro D1
  induction D1 with
  | nil =>
    intro D2 hlen _ _ _
    symm
    exact List.length_eq_zero.mp hlen.symm
  | cons d1 r1 ih =>
    intro D2 hlen h1 h2 hv
    rcases D2 with - | ⟨d2, r2⟩
    · simp at hlen
    · simp only [List.length_cons] at hlen
      have hr : r1.length = r2.length := by omega
      have hb1 := val10_lt (fun z hz => h1 z (List.mem_cons_of_mem d1 hz))
      have hb2 := val10_lt (fun z hz => h2 z (List.mem_cons_of_mem d2 hz))
      simp only [val10] at hv
      rw [hr] at hv hb1
      have hd : d1 = d2 := by
        rcases Nat.lt_trichotomy d1 d2 with h | h | h
        · exfalso
          have hm : (d1 + 1) * 10 ^ r2.length ≤ d2 * 10 ^ r2.length :=
            Nat.mul_le_mul_right _ (by omega)
          have he : (d1 + 1) * 10 ^ r2.length = d1 * 10 ^ r2.length + 10 ^ r2.length := by
            ring
          omega
        · exact h
        · exfalso
          have hm : (d2 + 1) * 10 ^ r2.length ≤ d1 * 10 ^ r2.length :=
            Nat.mul_le_mul_right _ (by omega)
          have he : (d2 + 1) * 10 ^ r2.length = d2 * 10 ^ r2.length + 10 ^ r2.length := by
            ring
          omega
      subst hd
      have hveq : val10 r1 = val10 r2 := by omega
      rw [ih r2 hr (fun z hz => h1 z (List.mem_cons_of_mem d1 hz))
        (fun z hz => h2 z (List.mem_cons_of_mem d1 hz)) hveq]

theorem val10_inj {D1 D2 : List ℕ} (h1 : ∀ d ∈ D1, d < 10) (h2 : ∀ d ∈ D2, d < 10)
    (hh1 : D1.headD 0 ≠ 0) (hh2 : D2.headD 0 ≠ 0) (hne1 : D1 ≠ []) (hne2 : D2 ≠ [])
    (hv : val10 D1 = val10 D2) : D1 = D2 := by
  rcases D1 with - | ⟨d1, r1⟩
  · exact absurd rfl hne1
  rcases D2 with - | ⟨d2, r2⟩
  · exact absurd rfl hne2
  have hg1 := val10_ge r1 (by simpa using hh1)
  have hg2 := val10_ge r2 (by simpa using hh2)
  have hl1 := val10_lt h1
  have hl2 := val10_lt h2
  simp only [List.length_cons] at hl1 hl2
  have hlen : r1.length = r2.length := by
    by_contra hc
    rcases Nat.lt_or_ge r1.length r2.length with h | h
    · have hp : (10:ℕ) ^ (r1.length + 1) ≤ 10 ^ r2.length :=
        Nat.pow_le_pow_right (by omega) (by omega)
      omega
    · have h' : r2.length < r1.length := by omega
      have hp : (10:ℕ) ^ (r2.length + 1) ≤ 10 ^ r1.length :=
        Nat.pow_le_pow_right (by omega) (by omega)
      omega
  exact val10_inj_len _ _ (by simp [hlen]) h1 h2 hv

theorem decDigitsGo_spec : ∀ f n, n < f →
    decDigitsGo f n ≠ [] ∧ (∀ d ∈ decDigitsGo f n, d < 10) ∧
    val10 (decDigitsGo f n) = n ∧ ((decDigitsGo f n).headD 0 = 0 → n = 0) := by
  intro f
  induction f with
  | zero => intro n h; omega
  | succ f ih =>
    intro n h
    unfold decDigitsGo
    by_cases hn : n < 10
    · rw [if_pos hn]
      refine ⟨by simp, ?_, ?_, ?_⟩
      · intro d hd
        rcases List.mem_singleton.mp hd with rfl
        exact hn
      · simp [val10]
      · intro h0
        simpa using h0
    · rw [if_neg hn]
      have hq : n / 10 < f := by
        have := Nat.div_lt_self (show 0 < n by omega) (show 1 < 10 by omega)
        omega
      obtain ⟨hne, hb, hv, hh⟩ := ih (n / 10) hq
      refine ⟨by simp, ?_, ?_, ?_⟩
      · intro d hd
        rcases List.mem_append.mp hd with hd | hd
        · exact hb d hd
        · rcases List.mem_singleton.mp hd with rfl
          exact Nat.mod_lt _ (by omega)
      · rw [val10_append, hv]
        simp only [List.length_singleton, pow_one, val10, List.length_nil, pow_zero,
          Nat.mul_one]
        have := Nat.div_add_mod n 10
        omega
      · intro h0
        exfalso
        rcases hD : decDigitsGo f (n / 10) with - | ⟨a, t⟩
        · exact hne hD
        · rw [hD] at h0
          simp only [List.cons_append, List.headD_cons] at h0
          have : n / 10 = 0 := hh (by rw [hD]; simpa using h0)
          omega

theorem decDigits_spec (n : ℕ) : decDigits n ≠ [] ∧ (∀ d ∈ decDigits n, d < 10) ∧
    val10 (decDigits n) = n ∧ ((decDigits n).headD 0 = 0 → n = 0) :=
  decDigitsGo_spec (n + 1) n (by omega)

theorem decDigits_len_le {n k : ℕ} (h : n < 10 ^ k) (hk : 1 ≤ k) :
    (decDigits n).length ≤ k := by
  obtain ⟨hne, hb, hv, hh⟩ := decDigits_spec n
  by_contra hc
  push_neg at hc
  rcases hD : decDigits n with - | ⟨d, rest⟩
  · exact hne hD
  rw [hD] at hv hc hh
  by_cases hd0 : d = 0
  · have hn0 : n = 0 := hh (by simp [hd0])
    subst hn0
    rw [show decDigits 0 = [0] from rfl] at hD
    simp only [List.cons.injEq] at hD
    obtain ⟨-, h2⟩ := hD
    rw [← h2] at hc
    simp at hc
    omega
  · have hge := val10_ge rest hd0
    simp only [List.length_cons] at hc
    have hp : (10:ℕ) ^ k ≤ 10 ^ rest.length :=
      Nat.pow_le_pow_right (by omega) (by omega)
    omega

theorem cellBase_eq_pow : CELL_BASE = 10 ^ CELL_LEN := by norm_num [CELL_BASE, CELL_LEN]

theorem cellBase_pow (k : ℕ) : CELL_BASE ^ k = 10 ^ (CELL_LEN * k) := by
  rw [cellBase_eq_pow, ← pow_mul]

theorem valBE_eq_magVal_reverse (D : List ℕ) : valBE D = magVal D.reverse := by
  conv_lhs => rw [← List.reverse_reverse D]
  rw [valBE_reverse]

theorem valBE_lt {D : List ℕ} (h : ∀ d ∈ D, d < CELL_BASE) :
    valBE D < CELL_BASE ^ D.length := by
  rw [valBE_eq_magVal_reverse, ← List.length_reverse]
  exact magVal_lt_of_bounded (fun z hz => h z (List.mem_reverse.mp hz))

theorem flatten_pad_spec : ∀ (rest : List ℕ), (∀ d ∈ rest, d < CELL_BASE) →
    ((rest.map (fun d => padDec CELL_LEN (decDigits d))).flatten.length =
      CELL_LEN * rest.length) ∧
    (∀ z ∈ (rest.map (fun d => padDec CELL_LEN (decDigits d))).flatten, z < 10) ∧
    val10 (rest.map (fun d => padDec CELL_LEN (decDigits d))).flatten = valBE rest := by
  intro rest
  induction rest with
  | nil =>
    intro _
    refine ⟨by simp, by simp, by simp [valBE, val10]⟩
  | cons d rest ih =>
    intro hb
    obtain ⟨ih1, ih2, ih3⟩ := ih (fun z hz => hb z (List.mem_cons_of_mem d hz))
    have hd : d < CELL_BASE := hb d (List.mem_cons_self d rest)
    obtain ⟨hne, hdb, hdv, -⟩ := decDigits_spec d
    have hdlen : (decDigits d).length ≤ CELL_LEN := by
      apply decDigits_len_le
      · rw [← cellBase_eq_pow]
        exact hd
      · norm_num [CELL_LEN]
    have hplen : (padDec CELL_LEN (decDigits d)).length = CELL_LEN := padDec_len hdlen
    simp only [List.map_cons, List.flatten_cons]
    refine ⟨?_, ?_, ?_⟩
    · rw [List.length_append, hplen, ih1]
      simp only [List.length_cons]
      ring
    · intro z hz
      rcases List.mem_append.mp hz with hz | hz
      · unfold padDec at hz
        rcases List.mem_append.mp hz with hz | hz
        · rw [List.eq_of_mem_replicate hz]
          omega
        · exact hdb z hz
      · exact ih2 z hz
    · rw [val10_append, ih1, val10_pad, hdv, ih3,
        show valBE (d :: rest) = d * CELL_BASE ^ rest.length + valBE rest from rfl,
        cellBase_pow]

/-- `BigInteger::toString` renders the sign (for a canonical value, only a
nonzero one can be negative) followed by the plain decimal digits of the
magnitude. -/
theorem toChars_eq {x : BigInteger} (hx : Valid x) :
    toChars x = (if x.m_negative then ['-'] else []) ++ natRepr (magNat x) := by
  by_cases hz : is_zero x = true
  · have hd : x.m_digits = [0] := by
      unfold is_zero at hz
      simpa using hz
    have hflag : x.m_negative = false := hx.2.2 hd
    have hmag : magNat x = 0 := by
      rw [show magNat x = magVal x.m_digits from rfl, hd, magVal_singleton]
    unfold toChars
    rw [if_pos hz, hflag, hmag]
    decide
  · have hne : x.m_digits ≠ [] := hx.2.1.1
    have hd0 : x.m_digits ≠ [0] := by
      intro hc
      apply hz
      unfold is_zero
      simp [hc]
    rcases hbe : x.m_digits.reverse with - | ⟨top, restBE⟩
    · exact absurd (List.reverse_eq_nil_iff.mp hbe) hne
    have htop : top ≠ 0 := by
      have hl : x.m_digits.getLast? = some top := by
        rw [List.getLast?_eq_head?_reverse, hbe]
        rfl
      rcases hx.2.1.2 with h | h
      · exact absurd h hd0
      · intro hc
        rw [hc] at hl
        exact h hl
    have hbb : ∀ d ∈ restBE, d < CELL_BASE := by
      intro d hd
      apply hx.1
      apply List.mem_reverse.mp
      rw [hbe]
      exact List.mem_cons_of_mem _ hd
    obtain ⟨hFlen, hFb, hFv⟩ := flatten_pad_spec restBE hbb
    have hmagval : magNat x = valBE (top :: restBE) := by
      rw [show magNat x = magVal x.m_digits from rfl, ← valBE_reverse, hbe]
    obtain ⟨hne1, hb1, hv1, hh1⟩ := decDigits_spec (magNat x)
    obtain ⟨hne2, hb2, hv2, hh2⟩ := decDigits_spec top
    have hDeq : decDigits (magNat x) =
        decDigits top ++ (restBE.map (fun d => padDec CELL_LEN (decDigits d))).flatten := by
      apply val10_inj hb1 ?_ ?_ ?_ hne1 ?_ ?_
      · intro z hzm
        rcases List.mem_append.mp hzm with hzm | hzm
        · exact hb2 z hzm
        · exact hFb z hzm
      · intro hh
        have h0 := hh1 hh
        exact hd0 (valid_digits_eq_zero hx h0)
      · rcases hD2 : decDigits top with - | ⟨a, t⟩
        · exact absurd hD2 hne2
        · intro hh
          simp only [hD2, List.cons_append, List.headD_cons] at hh
          exact htop (hh2 (by rw [hD2]; simpa using hh))
      · intro hc
        rw [List.append_eq_nil] at hc
        exact hne2 hc.1
      · rw [hv1, val10_append, hv2, hFlen, hFv, hmagval,
          show valBE (top :: restBE) = top * CELL_BASE ^ restBE.length + valBE restBE
            from rfl, cellBase_pow]
    unfold toChars
    rw [if_neg (by simpa using hz)]
    simp only [hbe, List.headD_cons, List.tail_cons]
    rw [show natRepr (magNat x) = (decDigits (magNat x)).map digitChar from rfl, hDeq,
      List.map_append, List.map_flatten, List.map_map]
    have hpt : ∀ d ∈ restBE,
        (List.map digitChar ∘ fun d => padDec CELL_LEN (decDigits d)) d =
        padLimb (natRepr d) := by
      intro d _
      show List.map digitChar (padDec CELL_LEN (decDigits d)) = padLimb (natRepr d)
      unfold padDec padLimb
      rw [List.map_append, List.map_replicate,
        show natRepr d = (decDigits d).map digitChar from rfl, List.length_map,
        show digitChar 0 = '0' from by decide]
    rw [List.map_congr_left hpt, List.append_assoc]
    rfl

/-! ### The string constructor -/

theorem isDigit_bounds {c : Char} (h : c.isDigit = true) :
    48 ≤ c.toNat ∧ c.toNat ≤ 57 := by
  unfold Char.isDigit at h
  simp only [ge_iff_le, Bool.and_eq_true, decide_eq_true_eq] at h
  obtain ⟨h1, h2⟩ := h
  unfold Char.toNat
  exact ⟨h1, h2⟩

theorem isDigit_sub_lt {c : Char} (h : c.isDigit = true) : c.toNat - 48 < 10 := by
  have := isDigit_bounds h
  omega

theorem isDigit_ne_sign {c : Char} (h : c.isDigit = true) : c ≠ '-' ∧ c ≠ '+' := by
  constructor
  · intro hc
    rw [hc] at h
    exact absurd h (by decide)
  · intro hc
    rw [hc] at h
    exact absurd h (by decide)

theorem digitChar_toNat {d : ℕ} (h : d < 10) : (digitChar d).toNat = 48 + d := by
  unfold digitChar Char.ofNat Char.toNat
  rw [dif_pos (by constructor <;> omega)]
  rfl

theorem digitChar_isDigit {d : ℕ} (h : d < 10) : (digitChar d).isDigit = true := by
  interval_cases d <;> decide

theorem digitChar_roundtrip {c : Char} (h : c.isDigit = true) :
    digitChar (c.toNat - 48) = c := by
  unfold digitChar
  have h48 := (isDigit_bounds h).1
  rw [show 48 + (c.toNat - 48) = c.toNat by omega]
  exact Char.ofNat_toNat c

theorem charsToNat_foldl : ∀ (cs : List Char) (a : ℕ),
    List.foldl (fun a c => a * 10 + (c.toNat - 48)) a cs =
      a * 10 ^ cs.length + val10 (cs.map (fun c => c.toNat - 48)) := by
  intro cs
  induction cs with
  | nil => intro a; simp [val10]
  | cons c cs ih =>
    intro a
    show List.foldl _ (a * 10 + (c.toNat - 48)) cs = _
    rw [ih, List.map_cons,
      show val10 ((c.toNat - 48) :: cs.map (fun c => c.toNat - 48)) =
        (c.toNat - 48) * 10 ^ (cs.map (fun c => c.toNat - 48)).length +
          val10 (cs.map (fun c => c.toNat - 48)) from rfl,
      List.length_map, List.length_cons, pow_succ]
    ring

theorem charsToNat_val (cs : List Char) :
    charsToNat cs = val10 (cs.map (fun c => c.toNat - 48)) := by
  unfold charsToNat
  rw [charsToNat_foldl]
  simp

theorem chunksGo_spec : ∀ (f : ℕ) (rl : List Char), rl.length ≤ f →
    (∀ c ∈ rl, c.toNat - 48 < 10) →
    magVal ((chunksGo f rl).map charsToNat) =
      val10 (rl.reverse.map (fun c => c.toNat - 48)) ∧
    Bounded ((chunksGo f rl).map charsToNat) ∧
    (chunksGo f rl = [] ↔ rl = []) := by
  intro f
  induction f with
  | zero =>
    intro rl h _
    have h0 : rl = [] := List.length_eq_zero.mp (by omega)
    subst h0
    refine ⟨by simp [chunksGo, magVal_nil, val10], ?_, by simp [chunksGo]⟩
    intro z hz
    simp [chunksGo] at hz
  | succ f ih =>
    intro rl h hbchars
    unfold chunksGo
    by_cases hrl : rl = []
    · subst hrl
      refine ⟨by simp [magVal_nil, val10], ?_, by simp⟩
      intro z hz
      simp at hz
    · rw [if_neg hrl]
      have hlen : (rl.drop CELL_LEN).length ≤ f := by
        rw [List.length_drop]
        have h1 : 1 ≤ rl.length := by
          rcases rl with - | ⟨a, t⟩
          · exact absurd rfl hrl
          · simp
        have h9 : 1 ≤ CELL_LEN := by norm_num [CELL_LEN]
        omega
      obtain ⟨ihv, ihb, -⟩ := ih (rl.drop CELL_LEN) hlen
        (fun c hc => hbchars c (List.mem_of_mem_drop hc))
      have hchunkval : charsToNat (rl.take CELL_LEN).reverse =
          val10 ((rl.take CELL_LEN).reverse.map (fun c => c.toNat - 48)) :=
        charsToNat_val _
      have hchunkb : ∀ z ∈ (rl.take CELL_LEN).reverse.map (fun c => c.toNat - 48),
          z < 10 := by
        intro z hz
        rcases List.mem_map.mp hz with ⟨c, hc, rfl⟩
        exact hbchars c (List.mem_of_mem_take (List.mem_reverse.mp hc))
      have hchunklt : charsToNat (rl.take CELL_LEN).reverse < CELL_BASE := by
        rw [hchunkval]
        have hlt := val10_lt hchunkb
        have hlen9 : ((rl.take CELL_LEN).reverse.map
            (fun c => c.toNat - 48)).length ≤ CELL_LEN := by
          rw [List.length_map, List.length_reverse, List.length_take]
          omega
        have hmono : (10:ℕ) ^ ((rl.take CELL_LEN).reverse.map
            (fun c => c.toNat - 48)).length ≤ 10 ^ CELL_LEN :=
          Nat.pow_le_pow_right (by omega) hlen9
        rw [cellBase_eq_pow]
        omega
      refine ⟨?_, ?_, ?_⟩
      · rw [List.map_cons, magVal_cons, ihv, hchunkval]
        have hsplitrl : rl.reverse = (rl.drop CELL_LEN).reverse ++
            (rl.take CELL_LEN).reverse := by
          rw [← List.reverse_append, List.take_append_drop]
        rw [hsplitrl, List.map_append, val10_append]
        by_cases hge : CELL_LEN ≤ rl.length
        · have hlen9 : ((rl.take CELL_LEN).reverse.map
              (fun c => c.toNat - 48)).length = CELL_LEN := by
            rw [List.length_map, List.length_reverse, List.length_take]
            omega
          rw [hlen9, ← cellBase_eq_pow]
          ring
        · have hdrop : rl.drop CELL_LEN = [] := List.drop_eq_nil_of_le (by omega)
          rw [hdrop]
          simp [val10]
      · intro z hz
        rw [List.map_cons] at hz
        rcases List.mem_cons.mp hz with rfl | hz
        · exact hchunklt
        · exact ihb z hz
      · exact ⟨fun hc => absurd hc (by simp), fun hc => absurd hc hrl⟩

theorem limbs_spec {cs : List Char} (hb : ∀ c ∈ cs, c.toNat - 48 < 10) :
    magVal (limbsOfChars cs) = val10 (cs.map (fun c => c.toNat - 48)) ∧
    Bounded (limbsOfChars cs) ∧ (limbsOfChars cs = [] ↔ cs = []) := by
  unfold limbsOfChars
  obtain ⟨h1, h2, h3⟩ := chunksGo_spec cs.reverse.length cs.reverse le_rfl
    (fun c hc => hb c (List.mem_reverse.mp hc))
  rw [List.reverse_reverse] at h1
  refine ⟨h1, h2, ?_⟩
  rw [List.map_eq_nil_iff, h3, List.reverse_eq_nil_iff]

theorem rlz_ne_nil {ds : List ℕ} (h : ds ≠ []) (n : Bool) :
    (remove_leading_zeroes ds n).1 ≠ [] := by
  unfold remove_leading_zeroes
  rw [if_neg h]
  by_cases hs : stripLead ds = []
  · simp [hs]
  · simp [hs]

/-- The string constructor on a bare (unsigned) digit string: canonical
result, non-negative, magnitude the decimal value of the digits. -/
theorem ofChars_digits {ds : List Char} (hne : ds ≠ [])
    (hdig : ds.all Char.isDigit = true)
    (hns : ds.headD ' ' ≠ '-' ∧ ds.headD ' ' ≠ '+') :
    Valid (ofChars ds) ∧ (ofChars ds).m_negative = false ∧
      magNat (ofChars ds) = val10 (ds.map (fun c => c.toNat - 48)) := by
  have hdig' : ∀ c ∈ ds, c.isDigit = true := List.all_eq_true.mp hdig
  have hdb : ∀ c ∈ ds, c.toNat - 48 < 10 := fun c hc => isDigit_sub_lt (hdig' c hc)
  have hcs : is_correct_str ds = true := by
    rcases ds with - | ⟨c, rest⟩
    · exact absurd rfl hne
    · show (if c = '-' ∨ c = '+' then rest.all Char.isDigit
        else (c :: rest).all Char.isDigit) = true
      rw [if_neg (by
        simp only [List.headD_cons] at hns
        rintro (h | h)
        exacts [hns.1 h, hns.2 h])]
      exact hdig
  have hsplit : ofChars ds =
      if ds = [] ∨ is_correct_str ds = false then ⟨[0], false⟩
      else
        ⟨if (remove_leading_zeroes (limbsOfChars (if ds.headD ' ' = '-' ∨
              ds.headD ' ' = '+' then ds.tail else ds))
              (decide (ds.headD ' ' = '-'))).1 = [] then [0]
          else (remove_leading_zeroes (limbsOfChars (if ds.headD ' ' = '-' ∨
              ds.headD ' ' = '+' then ds.tail else ds))
              (decide (ds.headD ' ' = '-'))).1,
          (remove_leading_zeroes (limbsOfChars (if ds.headD ' ' = '-' ∨
              ds.headD ' ' = '+' then ds.tail else ds))
              (decide (ds.headD ' ' = '-'))).2⟩ := rfl
  obtain ⟨hlv, hlb, hlne⟩ := limbs_spec hdb
  have hlimbne : limbsOfChars ds ≠ [] := fun hc => hne (hlne.mp hc)
  have hdec : (decide (ds.headD ' ' = '-')) = false := by
    rw [decide_eq_false_iff_not]
    exact hns.1
  have hbody : ¬(ds.headD ' ' = '-' ∨ ds.headD ' ' = '+') := by
    rintro (h | h)
    exacts [hns.1 h, hns.2 h]
  rw [hsplit, if_neg (by rw [hcs]; simp [hne]), if_neg hbody, hdec,
    if_neg (rlz_ne_nil hlimbne false)]
  refine ⟨rlz_valid hlimbne hlb false, rlz_sign_false _, ?_⟩
  rw [mk_magNat, rlz_magVal, hlv]

/-- The string constructor on a minus sign followed by digits: canonical
result, magnitude the decimal value, negative exactly when that value is
nonzero. -/
theorem ofChars_minus {ds : List Char} (hne : ds ≠ [])
    (hdig : ds.all Char.isDigit = true) :
    Valid (ofChars ('-' :: ds)) ∧
      magNat (ofChars ('-' :: ds)) = val10 (ds.map (fun c => c.toNat - 48)) ∧
      (ofChars ('-' :: ds)).m_negative =
        decide (val10 (ds.map (fun c => c.toNat - 48)) ≠ 0) := by
  have hdig' : ∀ c ∈ ds, c.isDigit = true := List.all_eq_true.mp hdig
  have hdb : ∀ c ∈ ds, c.toNat - 48 < 10 := fun c hc => isDigit_sub_lt (hdig' c hc)
  have hcs : is_correct_str ('-' :: ds) = true := by
    show (if '-' = '-' ∨ '-' = '+' then ds.all Char.isDigit
      else ('-' :: ds).all Char.isDigit) = true
    rw [if_pos (Or.inl rfl)]
    exact hdig
  have hsplit : ofChars ('-' :: ds) =
      if ('-' :: ds) = ([] : List Char) ∨ is_correct_str ('-' :: ds) = false
      then ⟨[0], false⟩
      else
        ⟨if (remove_leading_zeroes (limbsOfChars (if ('-' :: ds).headD ' ' = '-' ∨
              ('-' :: ds).headD ' ' = '+' then ('-' :: ds).tail else '-' :: ds))
              (decide (('-' :: ds).headD ' ' = '-'))).1 = [] then [0]
          else (remove_leading_zeroes (limbsOfChars (if ('-' :: ds).headD ' ' = '-' ∨
              ('-' :: ds).headD ' ' = '+' then ('-' :: ds).tail else '-' :: ds))
              (decide (('-' :: ds).headD ' ' = '-'))).1,
          (remove_leading_zeroes (limbsOfChars (if ('-' :: ds).headD ' ' = '-' ∨
              ('-' :: ds).headD ' ' = '+' then ('-' :: ds).tail else '-' :: ds))
              (decide (('-' :: ds).headD ' ' = '-'))).2⟩ := rfl
  obtain ⟨hlv, hlb, hlne⟩ := limbs_spec hdb
  have hlimbne : limbsOfChars ds ≠ [] := fun hc => hne (hlne.mp hc)
  have hdec : (decide (('-' :: ds).headD ' ' = '-')) = true := by simp
  have hbody : ('-' :: ds).headD ' ' = '-' ∨ ('-' :: ds).headD ' ' = '+' :=
    Or.inl rfl
  rw [hsplit, if_neg (by rw [hcs]; simp), if_pos hbody, hdec, List.tail_cons,
    if_neg (rlz_ne_nil hlimbne true)]
  refine ⟨rlz_valid hlimbne hlb true, ?_, ?_⟩
  · rw [mk_magNat, rlz_magVal, hlv]
  · rw [mk_m_negative]
    by_cases hz : val10 (ds.map (fun c => c.toNat - 48)) = 0
    · have hdz : decide (val10 (ds.map (fun c => c.toNat - 48)) ≠ 0) = false := by
        simp [hz]
      rw [hdz]
      apply rlz_canon
      have hmz : magVal (remove_leading_zeroes (limbsOfChars ds) true).1 = 0 := by
        rw [rlz_magVal, hlv, hz]
      have hvn := rlz_valid hlimbne hlb true
      exact valid_digits_eq_zero hvn (by rw [mk_magNat]; exact hmz)
    · rw [rlz_sign_of_ne_zero (by rw [hlv]; exact hz)]
      simp [hz]

theorem char_toNat_48 {c : Char} (h : c.toNat = 48) : c = '0' := by
  have hh := Char.ofNat_toNat c
  rw [h] at hh
  rw [← hh]

/-- A nonempty digit string with no leading zero is the canonical decimal
representation of its (nonzero) value. -/
theorem charsDigits_canonical {ds : List Char} (hne : ds ≠ [])
    (hdig : ds.all Char.isDigit = true) (hhd : ds.headD ' ' ≠ '0') :
    val10 (ds.map (fun c => c.toNat - 48)) ≠ 0 ∧
      natRepr (val10 (ds.map (fun c => c.toNat - 48))) = ds := by
  have hdig' := List.all_eq_true.mp hdig
  have hDb : ∀ d ∈ ds.map (fun c => c.toNat - 48), d < 10 := by
    intro d hd
    rcases List.mem_map.mp hd with ⟨c, hcm, rfl⟩
    exact isDigit_sub_lt (hdig' c hcm)
  have hDne : ds.map (fun c => c.toNat - 48) ≠ [] := by
    intro hc
    exact hne (List.map_eq_nil_iff.mp hc)
  have hDhd : (ds.map (fun c => c.toNat - 48)).headD 0 ≠ 0 := by
    rcases hd : ds with - | ⟨c, t⟩
    · exact absurd hd hne
    · simp only [List.map_cons, List.headD_cons]
      have hcdig : c.isDigit = true := hdig' c (by rw [hd]; exact List.mem_cons_self _ _)
      have hb := isDigit_bounds hcdig
      have hc0 : c ≠ '0' := by
        rw [hd] at hhd
        simpa using hhd
      have h48 : c.toNat ≠ 48 := fun hx => hc0 (char_toNat_48 hx)
      omega
  have hpos : val10 (ds.map (fun c => c.toNat - 48)) ≠ 0 := by
    rcases hD : ds.map (fun c => c.toNat - 48) with - | ⟨d, t⟩
    · exact absurd hD hDne
    · have hge := val10_ge t (by rw [hD] at hDhd; simpa using hDhd)
      have hp : 0 < (10:ℕ) ^ t.length := Nat.pos_pow_of_pos _ (by omega)
      rw [hD]
      omega
  obtain ⟨hne1, hb1, hv1, hh1⟩ := decDigits_spec (val10 (ds.map (fun c => c.toNat - 48)))
  have hDeq : decDigits (val10 (ds.map (fun c => c.toNat - 48))) =
      ds.map (fun c => c.toNat - 48) := by
    apply val10_inj hb1 hDb ?_ hDhd hne1 hDne hv1
    intro hh
    exact hpos (hh1 hh)
  refine ⟨hpos, ?_⟩
  rw [show natRepr (val10 (ds.map (fun c => c.toNat - 48))) =
      (decDigits (val10 (ds.map (fun c => c.toNat - 48)))).map digitChar from rfl, hDeq,
    List.map_map]
  have hpt : ∀ c ∈ ds, (digitChar ∘ fun c => c.toNat - 48) c = id c := by
    intro c hcm
    show digitChar (c.toNat - 48) = c
    exact digitChar_roundtrip (hdig' c hcm)
  rw [List.map_congr_left hpt, List.map_id]

/-- Parse after render is the identity on canonical values. -/
theorem parse_render {x : BigInteger} (hx : Valid x) : fromString (toString x) = x := by
  show ofChars (toChars x) = x
  rw [toChars_eq hx]
  obtain ⟨hne1, hb1, hv1, hh1⟩ := decDigits_spec (magNat x)
  have hmapb : ∀ c ∈ natRepr (magNat x), c.isDigit = true := by
    intro c hc
    rcases List.mem_map.mp hc with ⟨d, hd, rfl⟩
    exact digitChar_isDigit (hb1 d hd)
  have hrne : natRepr (magNat x) ≠ [] := by
    intro hc
    rw [show natRepr (magNat x) = (decDigits (magNat x)).map digitChar from rfl,
      List.map_eq_nil_iff] at hc
    exact hne1 hc
  have hvalmap : val10 ((natRepr (magNat x)).map (fun c => c.toNat - 48)) = magNat x := by
    rw [show natRepr (magNat x) = (decDigits (magNat x)).map digitChar from rfl,
      List.map_map]
    have hswap : ∀ d ∈ decDigits (magNat x),
        ((fun c => c.toNat - 48) ∘ digitChar) d = id d := by
      intro d hd
      show (digitChar d).toNat - 48 = d
      rw [digitChar_toNat (hb1 d hd)]
      omega
    rw [List.map_congr_left hswap, List.map_id, hv1]
  rcases Bool.eq_false_or_eq_true x.m_negative with hflag | hflag
  · rw [hflag]
    simp only [if_true, List.singleton_append]
    have hmagpos : magNat x ≠ 0 := by
      intro hz
      have h2 := hx.2.2 (valid_digits_eq_zero hx hz)
      rw [hflag] at h2
      exact absurd h2 (by decide)
    obtain ⟨hov, hom, hos⟩ := ofChars_minus hrne (List.all_eq_true.mpr hmapb)
    have host : (ofChars ('-' :: natRepr (magNat x))).m_negative = true := by
      rw [hos, hvalmap]
      simp [hmagpos]
    apply toInt_inj hov hx
    rw [toInt_of_neg_true host, toInt_of_neg_true hflag, hom, hvalmap]
  · rw [hflag]
    simp only [Bool.false_eq_true, if_false, List.nil_append]
    have hhead : (natRepr (magNat x)).headD ' ' ≠ '-' ∧
        (natRepr (magNat x)).headD ' ' ≠ '+' := by
      rcases hD : natRepr (magNat x) with - | ⟨c, t⟩
      · exact absurd hD hrne
      · simp only [List.headD_cons]
        exact isDigit_ne_sign (hmapb c (by rw [hD]; exact List.mem_cons_self _ _))
    obtain ⟨hov, hon, hom⟩ := ofChars_digits hrne (List.all_eq_true.mpr hmapb) hhead
    apply toInt_inj hov hx
    rw [toInt_of_neg_false hon, toInt_of_neg_false hflag, hom, hvalmap]

/-- Canonical decimal strings, following the specification text: the
canonical zero `"0"`, a digit string with no leading zero, or a minus sign
followed by a digit string with no leading zero. -/
def CanonicalChars (cs : List Char) : Prop :=
  cs = ['0'] ∨
  (cs ≠ [] ∧ cs.all Char.isDigit = true ∧ cs.headD ' ' ≠ '0') ∨
  (∃ ds, cs = '-' :: ds ∧ ds ≠ [] ∧ ds.all Char.isDigit = true ∧ ds.headD ' ' ≠ '0')

/-- Render after parse reproduces any canonical string. -/
theorem render_parse {cs : List Char} (hc : CanonicalChars cs) :
    toChars (ofChars cs) = cs := by
  rcases hc with rfl | ⟨hne, hdig, hhd⟩ | ⟨ds, rfl, hne, hdig, hhd⟩
  · decide
  · have hdig' := List.all_eq_true.mp hdig
    have hns : cs.headD ' ' ≠ '-' ∧ cs.headD ' ' ≠ '+' := by
      rcases hd : cs with - | ⟨c, t⟩
      · exact absurd hd hne
      · simp only [List.headD_cons]
        exact isDigit_ne_sign (hdig' c (by rw [hd]; exact List.mem_cons_self _ _))
    obtain ⟨hov, hon, hom⟩ := ofChars_digits hne hdig hns
    obtain ⟨-, hrepr⟩ := charsDigits_canonical hne hdig hhd
    rw [toChars_eq hov, hon]
    simp only [Bool.false_eq_true, if_false, List.nil_append]
    rw [hom, hrepr]
  · have hdig' := List.all_eq_true.mp hdig
    obtain ⟨hov, hom, hos⟩ := ofChars_minus hne hdig
    obtain ⟨hpos, hrepr⟩ := charsDigits_canonical hne hdig hhd
    have host : (ofChars ('-' :: ds)).m_negative = true := by
      rw [hos]
      simp [hpos]
    rw [toChars_eq hov, host]
    simp only [if_true]
    rw [hom, hrepr, List.singleton_append]

/-- Well-formed parse strings per the specification: an optional leading
sign followed by one or more ASCII digits. -/
def WellFormedStr (cs : List Char) : Prop :=
  (cs ≠ [] ∧ cs.all Char.isDigit = true) ∨
  (∃ c ds, cs = c :: ds ∧ (c = '-' ∨ c = '+') ∧ ds ≠ [] ∧ ds.all Char.isDigit = true)

/-- Any string that is not of the sign-digits form parses to the value
zero: the constructor silently falls back instead of signaling an error. -/
theorem malformed_zero {cs : List Char} (h : ¬ WellFormedStr cs) :
    toInt (ofChars cs) = 0 := by
  by_cases hrej : cs = [] ∨ is_correct_str cs = false
  · have hz : ofChars cs = ⟨[0], false⟩ := by
      unfold ofChars
      rw [if_pos hrej]
    rw [hz]
    exact toInt_zero_of_mag (by rw [mk_magNat, magVal_singleton])
  · push_neg at hrej
    obtain ⟨hne, hcs⟩ := hrej
    rcases cs with - | ⟨c, rest⟩
    · exact absurd rfl hne
    have hcs' : is_correct_str (c :: rest) = true := by
      rcases hb : is_correct_str (c :: rest) with - | -
      · exact absurd hb hcs
      · rfl
    have hshape : (c = '-' ∨ c = '+') ∧ rest = [] := by
      by_cases hsign : c = '-' ∨ c = '+'
      · refine ⟨hsign, ?_⟩
        have hall : rest.all Char.isDigit = true := by
          have he : is_correct_str (c :: rest) = rest.all Char.isDigit := by
            show (if c = '-' ∨ c = '+' then rest.all Char.isDigit
              else (c :: rest).all Char.isDigit) = _
            rw [if_pos hsign]
          rw [he] at hcs'
          exact hcs'
        by_contra hrne
        exact h (Or.inr ⟨c, rest, rfl, hsign, hrne, hall⟩)
      · exfalso
        have hall : (c :: rest).all Char.isDigit = true := by
          have he : is_correct_str (c :: rest) = (c :: rest).all Char.isDigit := by
            show (if c = '-' ∨ c = '+' then rest.all Char.isDigit
              else (c :: rest).all Char.isDigit) = _
            rw [if_neg hsign]
          rw [he] at hcs'
          exact hcs'
        exact h (Or.inl ⟨by simp, hall⟩)
    obtain ⟨hsign, rfl⟩ := hshape
    have hbody : (([c] : List Char).headD ' ' = '-' ∨ ([c] : List Char).headD ' ' = '+') := by
      simpa using hsign
    have hsplit : ofChars [c] =
        if ([c] : List Char) = [] ∨ is_correct_str [c] = false then ⟨[0], false⟩
        else
          ⟨if (remove_leading_zeroes (limbsOfChars (if ([c] : List Char).headD ' ' = '-' ∨
                ([c] : List Char).headD ' ' = '+' then ([c] : List Char).tail else [c]))
                (decide (([c] : List Char).headD ' ' = '-'))).1 = [] then [0]
            else (remove_leading_zeroes (limbsOfChars (if ([c] : List Char).headD ' ' = '-' ∨
                ([c] : List Char).headD ' ' = '+' then ([c] : List Char).tail else [c]))
                (decide (([c] : List Char).headD ' ' = '-'))).1,
            (remove_leading_zeroes (limbsOfChars (if ([c] : List Char).headD ' ' = '-' ∨
                ([c] : List Char).headD ' ' = '+' then ([c] : List Char).tail else [c]))
                (decide (([c] : List Char).headD ' ' = '-'))).2⟩ := rfl
    rw [hsplit, if_neg (by rw [hcs']; simp), if_pos hbody,
      show ([c] : List Char).tail = ([] : List Char) from rfl,
      show limbsOfChars ([] : List Char) = ([] : List ℕ) from rfl,
      show remove_leading_zeroes ([] : List ℕ)
          (decide (([c] : List Char).headD ' ' = '-')) =
        (([] : List ℕ), decide (([c] : List Char).headD ' ' = '-')) from rfl,
      if_pos rfl]
    exact toInt_zero_of_mag (by rw [mk_magNat, magVal_singleton])

/-- Magnitude of a product (from the signed-value homomorphism). -/
theorem magNat_mul {x y : BigInteger} (hx : NiceD x) (hy : NiceD y) :
    magNat (mul x y) = magNat x * magNat y := by
  have h := (mul_correct hx hy).2
  have hna := natAbs_toInt (mul x y)
  rw [h] at hna
  rw [← hna, Int.natAbs_mul, natAbs_toInt, natAbs_toInt]

/-- A single decimal digit renders as itself. -/
theorem decDigits_small {d : ℕ} (h : d < 10) : decDigits d = [d] := by
  unfold decDigits decDigitsGo
  rw [if_pos h]

/-- The string constructor on a plus sign followed by digits: like the
unsigned case, with the sign flag left clear. -/
theorem ofChars_plus {ds : List Char} (hne : ds ≠ [])
    (hdig : ds.all Char.isDigit = true) :
    Valid (ofChars ('+' :: ds)) ∧ (ofChars ('+' :: ds)).m_negative = false ∧
      magNat (ofChars ('+' :: ds)) = val10 (ds.map (fun c => c.toNat - 48)) := by
  have hdig' : ∀ c ∈ ds, c.isDigit = true := List.all_eq_true.mp hdig
  have hdb : ∀ c ∈ ds, c.toNat - 48 < 10 := fun c hc => isDigit_sub_lt (hdig' c hc)
  have hcs : is_correct_str ('+' :: ds) = true := by
    show (if '+' = '-' ∨ '+' = '+' then ds.all Char.isDigit
      else ('+' :: ds).all Char.isDigit) = true
    rw [if_pos (Or.inr rfl)]
    exact hdig
  have hsplit : ofChars ('+' :: ds) =
      if ('+' :: ds) = ([] : List Char) ∨ is_correct_str ('+' :: ds) = false
      then ⟨[0], false⟩
      else
        ⟨if (remove_leading_zeroes (limbsOfChars (if ('+' :: ds).headD ' ' = '-' ∨
              ('+' :: ds).headD ' ' = '+' then ('+' :: ds).tail else '+' :: ds))
              (decide (('+' :: ds).headD ' ' = '-'))).1 = [] then [0]
          else (remove_leading_zeroes (limbsOfChars (if ('+' :: ds).headD ' ' = '-' ∨
              ('+' :: ds).headD ' ' = '+' then ('+' :: ds).tail else '+' :: ds))
              (decide (('+' :: ds).headD ' ' = '-'))).1,
          (remove_leading_zeroes (limbsOfChars (if ('+' :: ds).headD ' ' = '-' ∨
              ('+' :: ds).headD ' ' = '+' then ('+' :: ds).tail else '+' :: ds))
              (decide (('+' :: ds).headD ' ' = '-'))).2⟩ := rfl
  obtain ⟨hlv, hlb, hlne⟩ := limbs_spec hdb
  have hlimbne : limbsOfChars ds ≠ [] := fun hc => hne (hlne.mp hc)
  have hdec : (decide (('+' :: ds).headD ' ' = '-')) = false := by
    rw [decide_eq_false_iff_not]
    simp
  have hbody : ('+' :: ds).headD ' ' = '-' ∨ ('+' :: ds).headD ' ' = '+' :=
    Or.inr rfl
  rw [hsplit, if_neg (by rw [hcs]; simp), if_pos hbody, hdec, List.tail_cons,
    if_neg (rlz_ne_nil hlimbne false)]
  refine ⟨rlz_valid hlimbne hlb false, rlz_sign_false _, ?_⟩
  rw [mk_magNat, rlz_magVal, hlv]

/-- Canonical zero after string construction, for every input except the
bare minus sign. -/
theorem ofChars_magZero {cs : List Char} (h : cs ≠ ['-']) :
    MagZeroInv (ofChars cs) := by
  by_cases hrej : cs = [] ∨ is_correct_str cs = false
  · intro _
    have he : ofChars cs = ⟨[0], false⟩ := by
      unfold ofChars
      rw [if_pos hrej]
    rw [he]
  · push_neg at hrej
    obtain ⟨hne, hcsne⟩ := hrej
    have hcs : is_correct_str cs = true := by
      rcases Bool.eq_false_or_eq_true (is_correct_str cs) with h2 | h2
      · exact h2
      · exact absurd h2 hcsne
    rcases cs with - | ⟨c, rest⟩
    · exact absurd rfl hne
    by_cases hsign : c = '-' ∨ c = '+'
    · have hall : rest.all Char.isDigit = true := by
        have he : is_correct_str (c :: rest) = rest.all Char.isDigit := by
          show (if c = '-' ∨ c = '+' then rest.all Char.isDigit
            else (c :: rest).all Char.isDigit) = _
          rw [if_pos hsign]
        rw [he] at hcs
        exact hcs
      rcases hrest : rest with - | ⟨r0, rs⟩
      · rcases hsign with rfl | rfl
        · exact absurd (by rw [hrest]) h
        · intro _
          rw [show ofChars ['+'] = (⟨[0], false⟩ : BigInteger) from by decide]
      · rw [← hrest]
        have hrne : rest ≠ [] := by rw [hrest]; simp
        rcases hsign with rfl | rfl
        · obtain ⟨hv, hm, hs⟩ := ofChars_minus hrne hall
          intro hmag
          rw [hs]
          rw [hm] at hmag
          simp [hmag]
        · obtain ⟨-, hsflag, -⟩ := ofChars_plus hrne hall
          intro _
          exact hsflag
    · push_neg at hsign
      have hall : (c :: rest).all Char.isDigit = true := by
        have he : is_correct_str (c :: rest) = (c :: rest).all Char.isDigit := by
          show (if c = '-' ∨ c = '+' then rest.all Char.isDigit
            else (c :: rest).all Char.isDigit) = _
          rw [if_neg (by rintro (h1 | h1); exacts [hsign.1 h1, hsign.2 h1])]
        rw [he] at hcs
        exact hcs
      have hns : (c :: rest).headD ' ' ≠ '-' ∧ (c :: rest).headD ' ' ≠ '+' := by
        simp only [List.headD_cons]
        exact hsign
      obtain ⟨-, hflag, -⟩ := ofChars_digits (by simp) hall hns
      intro _
      exact hflag

/-! ### Commutativity and associativity -/

theorem add_comm' {x y : BigInteger} (hx : Valid x) (hy : Valid y) :
    add x y = add y x := by
  obtain ⟨h1, h2⟩ := add_correct (valid_nice hx) (valid_nice hy)
  obtain ⟨h3, h4⟩ := add_correct (valid_nice hy) (valid_nice hx)
  exact toInt_inj h1 h3 (by rw [h2, h4]; ring)

theorem add_assoc' {x y z : BigInteger} (hx : Valid x) (hy : Valid y) (hz : Valid z) :
    add (add x y) z = add x (add y z) := by
  obtain ⟨h1, h2⟩ := add_correct (valid_nice hx) (valid_nice hy)
  obtain ⟨h3, h4⟩ := add_correct (valid_nice hy) (valid_nice hz)
  obtain ⟨h5, h6⟩ := add_correct (valid_nice h1) (valid_nice hz)
  obtain ⟨h7, h8⟩ := add_correct (valid_nice hx) (valid_nice h3)
  exact toInt_inj h5 h7 (by rw [h6, h8, h2, h4]; ring)

theorem mul_comm' {x y : BigInteger} (hx : Valid x) (hy : Valid y) :
    mul x y = mul y x := by
  obtain ⟨h1, h2⟩ := mul_correct (valid_nice hx) (valid_nice hy)
  obtain ⟨h3, h4⟩ := mul_correct (valid_nice hy) (valid_nice hx)
  exact toInt_inj h1 h3 (by rw [h2, h4]; ring)

end BigInteger

namespace Rational

/-! ### The Euclidean gcd and `normalize` -/

theorem gcdGo_spec : ∀ (f : ℕ) (a b : BigInteger), BigInteger.Valid a →
    BigInteger.Valid b → a.m_negative = false → b.m_negative = false →
    BigInteger.magNat b < f →
    BigInteger.Valid (gcdGo f a b) ∧ (gcdGo f a b).m_negative = false ∧
      BigInteger.magNat (gcdGo f a b) =
        Nat.gcd (BigInteger.magNat a) (BigInteger.magNat b) := by
  intro f
  induction f with
  | zero => intro a b _ _ _ _ h; omega
  | succ f ih =>
    intro a b hav hbv han hbn hfuel
    unfold gcdGo
    by_cases hb0 : BigInteger.beq b (BigInteger.ofInt 0) = true
    · rw [if_pos hb0]
      have hb0' : b = ⟨[0], false⟩ := by
        rw [BigInteger.beq_iff_eq'.mp hb0, BigInteger.ofInt_zero_eq]
      have hmb : BigInteger.magNat b = 0 := by
        rw [hb0', BigInteger.mk_magNat, BigInteger.magVal_singleton]
      rw [hmb, Nat.gcd_zero_right]
      exact ⟨hav, han, rfl⟩
    · rw [if_neg hb0]
      have hbd : b.m_digits ≠ [0] := by
        intro hc
        apply hb0
        rw [BigInteger.beq_iff_eq', BigInteger.ofInt_zero_eq]
        rcases b with ⟨db, nb⟩
        simp only at hc hbn
        rw [hc, hbn]
      have hbpos : 0 < BigInteger.magNat b := BigInteger.magVal_pos_of_norm hbv.2.1 hbd
      obtain ⟨hmv, -, hmsgn, hmm⟩ := BigInteger.mod_correct hav hbv hbpos
      have hmn : (BigInteger.mod a b).m_negative = false := by
        obtain ⟨h1, -⟩ := BigInteger.valid_nonneg_of_toInt hmv
          (show BigInteger.toInt (BigInteger.mod a b) =
            ((BigInteger.magNat a % BigInteger.magNat b : ℕ) : ℤ)
            from by rw [hmsgn, han]; simp)
        exact h1
      have hfuel' : BigInteger.magNat (BigInteger.mod a b) < f := by
        rw [hmm]
        have := Nat.mod_lt (BigInteger.magNat a) hbpos
        omega
      obtain ⟨h1, h2, h3⟩ := ih b (BigInteger.mod a b) hbv hmv hbn hmn hfuel'
      refine ⟨h1, h2, ?_⟩
      rw [h3, hmm, Nat.gcd_comm (BigInteger.magNat b), ← Nat.gcd_rec, Nat.gcd_comm]

theorem gcd_spec {a b : BigInteger} (ha : BigInteger.NiceD a) (hb : BigInteger.NiceD b) :
    BigInteger.Valid (gcd a b) ∧ (gcd a b).m_negative = false ∧
      BigInteger.magNat (gcd a b) =
        Nat.gcd (BigInteger.magNat a) (BigInteger.magNat b) := by
  unfold gcd
  obtain ⟨h1, h2, h3⟩ := gcdGo_spec (BigInteger.magNat (BigInteger.abs b) + 1)
    (BigInteger.abs a) (BigInteger.abs b) (BigInteger.valid_abs ha)
    (BigInteger.valid_abs hb) rfl rfl (by omega)
  exact ⟨h1, h2, by rw [h3, BigInteger.magNat_abs, BigInteger.magNat_abs]⟩

/-- `Rational::normalize` establishes the class invariant whenever the
incoming parts are canonical and the denominator is nonzero. -/
theorem normalize_spec {r : Rational} (hn : BigInteger.Valid r.numerator)
    (hd : BigInteger.Valid r.denominator)
    (hpos : 0 < BigInteger.magNat r.denominator) : RatInv (normalize r) := by
  set r1 : Rational := if BigInteger.lt r.denominator (BigInteger.ofInt 0) then
      ⟨BigInteger.negate r.numerator, BigInteger.negate r.denominator⟩ else r with hr1
  have hstep : normalize r =
      (if BigInteger.beq (gcd r1.numerator r1.denominator) (BigInteger.ofInt 0) = false
        then ⟨BigInteger.div r1.numerator (gcd r1.numerator r1.denominator),
          BigInteger.div r1.denominator (gcd r1.numerator r1.denominator)⟩
        else r1) := rfl
  have hr1n : BigInteger.Valid r1.numerator ∧ BigInteger.Valid r1.denominator ∧
      r1.denominator.m_negative = false ∧
      BigInteger.magNat r1.numerator = BigInteger.magNat r.numerator ∧
      BigInteger.magNat r1.denominator = BigInteger.magNat r.denominator := by
    rw [hr1]
    have hltc : BigInteger.lt r.denominator (BigInteger.ofInt 0) =
        decide (BigInteger.toInt r.denominator < 0) := by
      rw [BigInteger.lt_correct hd (BigInteger.ofInt_correct 0).1,
        (BigInteger.ofInt_correct 0).2]
    by_cases hneg : BigInteger.toInt r.denominator < 0
    · rw [hltc, if_pos (by simpa using hneg)]
      obtain ⟨hv1, hi1⟩ := BigInteger.negate_correct hn
      obtain ⟨hv2, hi2⟩ := BigInteger.negate_correct hd
      refine ⟨hv1, hv2, ?_, ?_, ?_⟩
      · obtain ⟨hf, -⟩ := BigInteger.valid_nonneg_of_toInt hv2
          (show BigInteger.toInt (BigInteger.negate r.denominator) =
            (((BigInteger.toInt (BigInteger.negate r.denominator)).natAbs : ℕ) : ℤ)
            from by rw [hi2]; omega)
        exact hf
      · have hna := BigInteger.natAbs_toInt (BigInteger.negate r.numerator)
        rw [hi1] at hna
        have hnb := BigInteger.natAbs_toInt r.numerator
        rw [← hna, ← hnb, Int.natAbs_neg]
      · have hna := BigInteger.natAbs_toInt (BigInteger.negate r.denominator)
        rw [hi2] at hna
        have hnb := BigInteger.natAbs_toInt r.denominator
        rw [← hna, ← hnb, Int.natAbs_neg]
    · rw [hltc, if_neg (by simpa using hneg)]
      refine ⟨hn, hd, ?_, rfl, rfl⟩
      obtain ⟨hf, -⟩ := BigInteger.valid_nonneg_of_toInt hd
        (show BigInteger.toInt r.denominator =
          (((BigInteger.toInt r.denominator).natAbs : ℕ) : ℤ) from by omega)
      exact hf
  obtain ⟨hv1, hv2, hfd, hm1, hm2⟩ := hr1n
  obtain ⟨hgv, hgn, hgm⟩ := gcd_spec (BigInteger.valid_nice hv1) (BigInteger.valid_nice hv2)
  have hgpos : 0 < BigInteger.magNat (gcd r1.numerator r1.denominator) := by
    rw [hgm]
    have hne0 : BigInteger.magNat r1.denominator ≠ 0 := by omega
    rcases Nat.eq_zero_or_pos (Nat.gcd (BigInteger.magNat r1.numerator)
      (BigInteger.magNat r1.denominator)) with h | h
    · rw [Nat.gcd_eq_zero_iff] at h
      exact absurd h.2 hne0
    · exact h
  have hbne : BigInteger.beq (gcd r1.numerator r1.denominator)
      (BigInteger.ofInt 0) = false := by
    rcases Bool.eq_false_or_eq_true (BigInteger.beq (gcd r1.numerator r1.denominator)
      (BigInteger.ofInt 0)) with h | h
    · exfalso
      have he := BigInteger.beq_iff_eq'.mp h
      rw [he, BigInteger.ofInt_zero_eq, BigInteger.mk_magNat,
        BigInteger.magVal_singleton] at hgpos
      omega
    · exact h
  rw [hstep, if_pos hbne]
  obtain ⟨hq1v, hq1m, -⟩ := BigInteger.div_correct hv1 hgv hgpos
  obtain ⟨hq2v, hq2m, hq2s⟩ := BigInteger.div_correct hv2 hgv hgpos
  have hGle : BigInteger.magNat (gcd r1.numerator r1.denominator) ≤
      BigInteger.magNat r1.denominator := by
    rw [hgm]
    exact Nat.le_of_dvd (by omega) (Nat.gcd_dvd_right _ _)
  have hqpos : 0 < BigInteger.magNat r1.denominator /
      BigInteger.magNat (gcd r1.numerator r1.denominator) :=
    (Nat.one_le_div_iff hgpos).mpr hGle
  have hgpos' := hgpos
  rw [hgm] at hgpos'
  refine ⟨hq1v, hq2v, ?_, ?_, ?_⟩
  · show (BigInteger.div r1.denominator (gcd r1.numerator r1.denominator)).m_negative
      = false
    rw [hq2s, hfd, hgn]
    rw [if_neg (by omega)]
    rfl
  · show 0 < BigInteger.magNat
      (BigInteger.div r1.denominator (gcd r1.numerator r1.denominator))
    rw [hq2m]
    exact hqpos
  · show Nat.gcd
      (BigInteger.magNat (BigInteger.div r1.numerator (gcd r1.numerator r1.denominator)))
      (BigInteger.magNat (BigInteger.div r1.denominator (gcd r1.numerator r1.denominator)))
      = 1
    rw [hq1m, hq2m, hgm]
    exact Nat.coprime_div_gcd_div_gcd hgpos'

/-! ### The class invariant across constructors and operators -/

theorem ratInv_ofInt (n : ℤ) : RatInv (ofInt n) := by
  refine ⟨(BigInteger.ofInt_correct n).1, (BigInteger.ofInt_correct 1).1,
    show (BigInteger.ofInt 1).m_negative = false from by decide,
    show 0 < BigInteger.magNat (BigInteger.ofInt 1) from by decide, ?_⟩
  show Nat.gcd (BigInteger.magNat (BigInteger.ofInt n))
    (BigInteger.magNat (BigInteger.ofInt 1)) = 1
  rw [show BigInteger.magNat (BigInteger.ofInt 1) = 1 from by decide]
  exact Nat.gcd_one_right _

theorem ratInv_ofBigInt {n : BigInteger} (h : BigInteger.Valid n) :
    RatInv (ofBigInt n) := by
  refine ⟨h, (BigInteger.ofInt_correct 1).1,
    show (BigInteger.ofInt 1).m_negative = false from by decide,
    show 0 < BigInteger.magNat (BigInteger.ofInt 1) from by decide, ?_⟩
  show Nat.gcd (BigInteger.magNat n) (BigInteger.magNat (BigInteger.ofInt 1)) = 1
  rw [show BigInteger.magNat (BigInteger.ofInt 1) = 1 from by decide]
  exact Nat.gcd_one_right _

theorem ratInv_mk {num den : BigInteger} (h1 : BigInteger.Valid num)
    (h2 : BigInteger.Valid den) (hpos : 0 < BigInteger.magNat den) :
    RatInv (mk' num den) :=
  @normalize_spec ⟨num, den⟩ h1 h2 hpos

theorem ratInv_add {a b : Rational} (ha : RatInv a) (hb : RatInv b) :
    RatInv (add a b) := by
  obtain ⟨han, had, -, hap, -⟩ := ha
  obtain ⟨hbn, hbd, -, hbp, -⟩ := hb
  apply normalize_spec
  · exact (BigInteger.add_correct
      (BigInteger.valid_nice (BigInteger.mul_correct (BigInteger.valid_nice han)
        (BigInteger.valid_nice hbd)).1)
      (BigInteger.valid_nice (BigInteger.mul_correct (BigInteger.valid_nice hbn)
        (BigInteger.valid_nice had)).1)).1
  · exact (BigInteger.mul_correct (BigInteger.valid_nice had)
      (BigInteger.valid_nice hbd)).1
  · show 0 < BigInteger.magNat (BigInteger.mul a.denominator b.denominator)
    rw [BigInteger.magNat_mul (BigInteger.valid_nice had) (BigInteger.valid_nice hbd)]
    exact Nat.mul_pos hap hbp

theorem ratInv_sub {a b : Rational} (ha : RatInv a) (hb : RatInv b) :
    RatInv (sub a b) := by
  obtain ⟨han, had, -, hap, -⟩ := ha
  obtain ⟨hbn, hbd, -, hbp, -⟩ := hb
  apply normalize_spec
  · exact (BigInteger.sub_correct
      (BigInteger.valid_nice (BigInteger.mul_correct (BigInteger.valid_nice han)
        (BigInteger.valid_nice hbd)).1)
      (BigInteger.valid_nice (BigInteger.mul_correct (BigInteger.valid_nice hbn)
        (BigInteger.valid_nice had)).1)).1
  · exact (BigInteger.mul_correct (BigInteger.valid_nice had)
      (BigInteger.valid_nice hbd)).1
  · show 0 < BigInteger.magNat (BigInteger.mul a.denominator b.denominator)
    rw [BigInteger.magNat_mul (BigInteger.valid_nice had) (BigInteger.valid_nice hbd)]
    exact Nat.mul_pos hap hbp

theorem ratInv_mul {a b : Rational} (ha : RatInv a) (hb : RatInv b) :
    RatInv (mul a b) := by
  obtain ⟨han, had, -, hap, -⟩ := ha
  obtain ⟨hbn, hbd, -, hbp, -⟩ := hb
  apply normalize_spec
  · exact (BigInteger.mul_correct (BigInteger.valid_nice han)
      (BigInteger.valid_nice hbn)).1
  · exact (BigInteger.mul_correct (BigInteger.valid_nice had)
      (BigInteger.valid_nice hbd)).1
  · show 0 < BigInteger.magNat (BigInteger.mul a.denominator b.denominator)
    rw [BigInteger.magNat_mul (BigInteger.valid_nice had) (BigInteger.valid_nice hbd)]
    exact Nat.mul_pos hap hbp

theorem ratInv_divR {a b : Rational} (ha : RatInv a) (hb : RatInv b)
    (hbn0 : 0 < BigInteger.magNat b.numerator) : RatInv (divR a b) := by
  obtain ⟨han, had, -, hap, -⟩ := ha
  obtain ⟨hbn, hbd, -, hbp, -⟩ := hb
  apply normalize_spec
  · exact (BigInteger.mul_correct (BigInteger.valid_nice han)
      (BigInteger.valid_nice hbd)).1
  · exact (BigInteger.mul_correct (BigInteger.valid_nice had)
      (BigInteger.valid_nice hbn)).1
  · show 0 < BigInteger.magNat (BigInteger.mul a.denominator b.numerator)
    rw [BigInteger.magNat_mul (BigInteger.valid_nice had) (BigInteger.valid_nice hbn)]
    exact Nat.mul_pos hap hbn0

end Rational

namespace Rational

/-! ### `asDecimal` -/

/-- Specification-side fractional-digit recurrence: each digit is the
remainder-so-far times ten divided by the denominator, truncating. -/
def fracSpec (md : ℕ) : ℕ → ℕ → List ℕ
  | 0, _ => []
  | k + 1, r => (r / md) :: fracSpec md k ((r % md) * 10)

theorem fracSpec_len (md : ℕ) : ∀ (k r : ℕ), (fracSpec md k r).length = k := by
  intro k
  induction k with
  | zero => intro r; rfl
  | succ k ih =>
    intro r
    show ((r / md) :: fracSpec md k ((r % md) * 10)).length = k + 1
    rw [List.length_cons, ih]

theorem fracGo_spec {den : BigInteger} (hdv : BigInteger.Valid den)
    (hdn : den.m_negative = false) (hdpos : 0 < BigInteger.magNat den) :
    ∀ (k : ℕ) (num : BigInteger), BigInteger.Valid num → num.m_negative = false →
    BigInteger.magNat num < 10 * BigInteger.magNat den →
    fracGo den k num =
      (fracSpec (BigInteger.magNat den) k (BigInteger.magNat num)).map
        BigInteger.digitChar := by
  intro k
  induction k with
  | zero => intro num _ _ _; rfl
  | succ k ih =>
    intro num hv hn hlt
    show BigInteger.toChars (BigInteger.div num den) ++
        fracGo den k (BigInteger.mul (BigInteger.mod num den) (BigInteger.ofInt 10)) = _
    obtain ⟨hqv, hqm, hqs⟩ := BigInteger.div_correct hv hdv hdpos
    have hqn : (BigInteger.div num den).m_negative = false := by
      rw [hqs, hn, hdn]
      simp
    have hdig : BigInteger.magNat (BigInteger.div num den) < 10 := by
      rw [hqm]
      exact (Nat.div_lt_iff_lt_mul hdpos).mpr hlt
    have hchars : BigInteger.toChars (BigInteger.div num den) =
        [BigInteger.digitChar (BigInteger.magNat num / BigInteger.magNat den)] := by
      rw [BigInteger.toChars_eq hqv, hqn]
      simp only [Bool.false_eq_true, if_false, List.nil_append]
      rw [show BigInteger.natRepr (BigInteger.magNat (BigInteger.div num den)) =
          (BigInteger.decDigits (BigInteger.magNat (BigInteger.div num den))).map
            BigInteger.digitChar from rfl,
        BigInteger.decDigits_small hdig, hqm]
      rfl
    obtain ⟨hmv, -, hmsgn, hmm⟩ := BigInteger.mod_correct hv hdv hdpos
    obtain ⟨hmn, -⟩ := BigInteger.valid_nonneg_of_toInt hmv
      (show BigInteger.toInt (BigInteger.mod num den) =
        ((BigInteger.magNat num % BigInteger.magNat den : ℕ) : ℤ)
        from by rw [hmsgn, hn]; simp)
    obtain ⟨hpv, hpi⟩ := BigInteger.mul_correct (BigInteger.valid_nice hmv)
      (BigInteger.valid_nice (BigInteger.ofInt_correct 10).1)
    have hpim : BigInteger.toInt (BigInteger.mul (BigInteger.mod num den)
        (BigInteger.ofInt 10)) =
        (((BigInteger.magNat num % BigInteger.magNat den) * 10 : ℕ) : ℤ) := by
      rw [hpi, (BigInteger.ofInt_correct 10).2, BigInteger.toInt_of_neg_false hmn, hmm]
      push_cast
      ring
    obtain ⟨hpn, hpm⟩ := BigInteger.valid_nonneg_of_toInt hpv hpim
    have hplt : (BigInteger.magNat num % BigInteger.magNat den) * 10 <
        10 * BigInteger.magNat den := by
      have := Nat.mod_lt (BigInteger.magNat num) hdpos
      omega
    rw [hchars, ih _ hpv hpn (by rw [hpm]; exact hplt), hpm]
    show _ = ((BigInteger.magNat num / BigInteger.magNat den) ::
      fracSpec (BigInteger.magNat den) k
        ((BigInteger.magNat num % BigInteger.magNat den) * 10)).map BigInteger.digitChar
    rw [List.map_cons]
    rfl

/-- `asDecimal` on a canonical rational, at positive precision: minus sign
exactly when the remainder is negative while the integer part is zero,
then the rendered integer part, a point, and the fractional digits of the
specification recurrence seeded with ten times the absolute remainder. -/
theorem asDecimal_spec {r : Rational} (hr : RatInv r) {p : ℕ} (hp : 0 < p) :
    (asDecimal r p).data =
      (if BigInteger.toInt (BigInteger.mod r.numerator r.denominator) < 0 ∧
          BigInteger.toInt (BigInteger.div r.numerator r.denominator) = 0
        then ['-'] else []) ++
      BigInteger.toChars (BigInteger.div r.numerator r.denominator) ++ ['.'] ++
      (fracSpec (BigInteger.magNat r.denominator) p
        (BigInteger.magNat (BigInteger.mod r.numerator r.denominator) * 10)).map
        BigInteger.digitChar := by
  obtain ⟨hnv, hdv, hdn, hdp, -⟩ := hr
  have hsplit : asDecimal r p =
      if p = 0 then
        ⟨(if BigInteger.lt (BigInteger.mod r.numerator r.denominator)
              (BigInteger.ofInt 0) &&
            BigInteger.beq (BigInteger.div r.numerator r.denominator)
              (BigInteger.ofInt 0)
          then ['-'] else []) ++
          BigInteger.toChars (BigInteger.div r.numerator r.denominator)⟩
      else
        ⟨((if BigInteger.lt (BigInteger.mod r.numerator r.denominator)
              (BigInteger.ofInt 0) &&
            BigInteger.beq (BigInteger.div r.numerator r.denominator)
              (BigInteger.ofInt 0)
          then ['-'] else []) ++
          BigInteger.toChars (BigInteger.div r.numerator r.denominator)) ++ ['.'] ++
          fracGo r.denominator p
            (BigInteger.mul (BigInteger.abs (BigInteger.mod r.numerator r.denominator))
              (BigInteger.ofInt 10))⟩ := rfl
  rw [hsplit, if_neg (by omega)]
  show (if BigInteger.lt (BigInteger.mod r.numerator r.denominator)
          (BigInteger.ofInt 0) &&
        BigInteger.beq (BigInteger.div r.numerator r.denominator)
          (BigInteger.ofInt 0)
      then ['-'] else []) ++
      BigInteger.toChars (BigInteger.div r.numerator r.denominator) ++ ['.'] ++
      fracGo r.denominator p
        (BigInteger.mul (BigInteger.abs (BigInteger.mod r.numerator r.denominator))
          (BigInteger.ofInt 10)) = _
  obtain ⟨hmv, -, hmsgn, hmm⟩ := BigInteger.mod_correct hnv hdv hdp
  obtain ⟨hqv, -, -⟩ := BigInteger.div_correct hnv hdv hdp
  have hcond : (BigInteger.lt (BigInteger.mod r.numerator r.denominator)
        (BigInteger.ofInt 0) &&
      BigInteger.beq (BigInteger.div r.numerator r.denominator) (BigInteger.ofInt 0)) =
      decide (BigInteger.toInt (BigInteger.mod r.numerator r.denominator) < 0 ∧
        BigInteger.toInt (BigInteger.div r.numerator r.denominator) = 0) := by
    rw [BigInteger.lt_correct hmv (BigInteger.ofInt_correct 0).1,
      (BigInteger.ofInt_correct 0).2,
      BigInteger.beq_correct hqv (BigInteger.ofInt_correct 0).1,
      (BigInteger.ofInt_correct 0).2, Bool.decide_and]
  have hfrac : fracGo r.denominator p
      (BigInteger.mul (BigInteger.abs (BigInteger.mod r.numerator r.denominator))
        (BigInteger.ofInt 10)) =
      (fracSpec (BigInteger.magNat r.denominator) p
        (BigInteger.magNat (BigInteger.mod r.numerator r.denominator) * 10)).map
        BigInteger.digitChar := by
    have habsv : BigInteger.Valid
        (BigInteger.abs (BigInteger.mod r.numerator r.denominator)) :=
      BigInteger.valid_abs (BigInteger.valid_nice hmv)
    obtain ⟨hpv, hpi⟩ := BigInteger.mul_correct (BigInteger.valid_nice habsv)
      (BigInteger.valid_nice (BigInteger.ofInt_correct 10).1)
    have hpim : BigInteger.toInt
        (BigInteger.mul (BigInteger.abs (BigInteger.mod r.numerator r.denominator))
          (BigInteger.ofInt 10)) =
        ((BigInteger.magNat (BigInteger.mod r.numerator r.denominator) * 10 : ℕ) : ℤ) := by
      rw [hpi, (BigInteger.ofInt_correct 10).2, BigInteger.toInt_abs]
      push_cast
      ring
    obtain ⟨hpn, hpm⟩ := BigInteger.valid_nonneg_of_toInt hpv hpim
    have hlt10 : BigInteger.magNat (BigInteger.mod r.numerator r.denominator) * 10 <
        10 * BigInteger.magNat r.denominator := by
      rw [hmm]
      have := Nat.mod_lt (BigInteger.magNat r.numerator) hdp
      omega
    rw [fracGo_spec hdv hdn hdp p _ hpv hpn (by rw [hpm]; exact hlt10), hpm]
  rw [hfrac, hcond]
  by_cases hP : BigInteger.toInt (BigInteger.mod r.numerator r.denominator) < 0 ∧
      BigInteger.toInt (BigInteger.div r.numerator r.denominator) = 0
  · rw [if_pos (by simp [hP.1, hP.2]), if_pos hP]
  · rw [if_neg (by simpa using hP), if_neg hP]

end Rational



/-! ## The claims -/

/-- C1: for every canonical BigInteger `a` and nonzero canonical `b` the
operators satisfy `a == (a/b)*b + (a%b)`, and a nonzero remainder carries
the sign of the dividend (the quotient is truncated toward zero); in
particular `BigInteger("-5") / BigInteger("2") = BigInteger("-2")` and
`BigInteger("-5") % BigInteger("2") = BigInteger("-1")`. -/
theorem claim_C1 :
    (∀ x y : BigInteger, BigInteger.Valid x → BigInteger.Valid y →
      BigInteger.toInt y ≠ 0 →
      BigInteger.toInt x =
        BigInteger.toInt (BigInteger.div x y) * BigInteger.toInt y +
          BigInteger.toInt (BigInteger.mod x y) ∧
      (BigInteger.toInt (BigInteger.mod x y) ≠ 0 →
        Int.sign (BigInteger.toInt (BigInteger.mod x y)) =
          Int.sign (BigInteger.toInt x))) ∧
    BigInteger.div (BigInteger.fromString "-5") (BigInteger.fromString "2") =
      BigInteger.fromString "-2" ∧
    BigInteger.mod (BigInteger.fromString "-5") (BigInteger.fromString "2") =
      BigInteger.fromString "-1" := by
  refine ⟨?_, by decide, by decide⟩
  intro x y hx hy hy0
  have hpos : 0 < BigInteger.magNat y := by
    have := BigInteger.natAbs_toInt y
    omega
  obtain ⟨-, hid, hsgn, -⟩ := BigInteger.mod_correct hx hy hpos
  refine ⟨by rw [hid]; ring, ?_⟩
  intro hr0
  have hmle := Nat.mod_le (BigInteger.magNat x) (BigInteger.magNat y)
  rcases Bool.eq_false_or_eq_true x.m_negative with hbx | hbx
  · rw [hbx] at hsgn
    simp only [if_true] at hsgn
    have hm0 : BigInteger.magNat x % BigInteger.magNat y ≠ 0 := by
      intro hz
      rw [hz] at hsgn
      simp at hsgn
      exact hr0 hsgn
    have hxneg : BigInteger.toInt x < 0 := by
      rw [BigInteger.toInt_of_neg_true hbx]
      omega
    rw [Int.sign_eq_neg_one_of_neg hxneg,
      Int.sign_eq_neg_one_of_neg (by rw [hsgn]; omega)]
  · rw [hbx] at hsgn
    simp only [Bool.false_eq_true, if_false] at hsgn
    have hm0 : BigInteger.magNat x % BigInteger.magNat y ≠ 0 := by
      intro hz
      rw [hz] at hsgn
      simp at hsgn
      exact hr0 hsgn
    have hxpos : 0 < BigInteger.toInt x := by
      rw [BigInteger.toInt_of_neg_false hbx]
      omega
    rw [Int.sign_eq_one_of_pos hxpos, Int.sign_eq_one_of_pos (by rw [hsgn]; omega)]

/-- Witness for C1 at the claim's own example `-5` and `2`. -/
theorem claim_C1_witness :
    BigInteger.toInt (BigInteger.fromString "-5") =
      BigInteger.toInt (BigInteger.div (BigInteger.fromString "-5")
          (BigInteger.fromString "2")) *
        BigInteger.toInt (BigInteger.fromString "2") +
      BigInteger.toInt (BigInteger.mod (BigInteger.fromString "-5")
        (BigInteger.fromString "2")) ∧
    Int.sign (BigInteger.toInt (BigInteger.mod (BigInteger.fromString "-5")
        (BigInteger.fromString "2"))) =
      Int.sign (BigInteger.toInt (BigInteger.fromString "-5")) := by
  obtain ⟨h1, h2⟩ := claim_C1.1 (BigInteger.fromString "-5") (BigInteger.fromString "2")
    (by decide) (by decide) (by decide)
  exact ⟨h1, h2 (by decide)⟩

/-- C2: addition of canonical values is exact on the signed integer
semantics (and yields a canonical value); in particular
`BigInteger("999999999") + BigInteger("1") = BigInteger("1000000000")`,
the carry crossing the limb boundary. -/
theorem claim_C2 :
    (∀ x y : BigInteger, BigInteger.Valid x → BigInteger.Valid y →
      BigInteger.Valid (BigInteger.add x y) ∧
      BigInteger.toInt (BigInteger.add x y) =
        BigInteger.toInt x + BigInteger.toInt y) ∧
    BigInteger.add (BigInteger.fromString "999999999") (BigInteger.fromString "1") =
      BigInteger.fromString "1000000000" := by
  refine ⟨?_, by decide⟩
  intro x y hx hy
  exact BigInteger.add_correct (BigInteger.valid_nice hx) (BigInteger.valid_nice hy)

/-- Witness for C2 at the claim's carry example. -/
theorem claim_C2_witness :
    BigInteger.Valid (BigInteger.add (BigInteger.ofInt 999999999)
      (BigInteger.ofInt 1)) ∧
    BigInteger.toInt (BigInteger.add (BigInteger.ofInt 999999999)
        (BigInteger.ofInt 1)) =
      BigInteger.toInt (BigInteger.ofInt 999999999) +
        BigInteger.toInt (BigInteger.ofInt 1) :=
  claim_C2.1 (BigInteger.ofInt 999999999) (BigInteger.ofInt 1) (by decide) (by decide)

/-- C3: parsing and rendering are mutually inverse: parsing the rendered
string of any canonical value gives the value back, and rendering the
parse of any canonical decimal string reproduces the string. -/
theorem claim_C3 :
    (∀ x : BigInteger, BigInteger.Valid x →
      BigInteger.fromString (BigInteger.toString x) = x) ∧
    (∀ s : String, BigInteger.CanonicalChars s.data →
      BigInteger.toString (BigInteger.fromString s) = s) := by
  refine ⟨fun x hx => BigInteger.parse_render hx, ?_⟩
  intro s hc
  show (⟨BigInteger.toChars (BigInteger.ofChars s.data)⟩ : String) = s
  rw [BigInteger.render_parse hc]

/-- Witness for C3 at the value parsed from `"-37"` and at the canonical
string `"-37"`. -/
theorem claim_C3_witness :
    BigInteger.fromString (BigInteger.toString (BigInteger.fromString "-37")) =
      BigInteger.fromString "-37" ∧
    BigInteger.toString (BigInteger.fromString "-37") = "-37" :=
  ⟨claim_C3.1 (BigInteger.fromString "-37") (by decide),
    claim_C3.2 "-37" (Or.inr (Or.inr ⟨['3', '7'], by decide, by decide, by decide⟩))⟩

/-- C4: addition is commutative and associative and multiplication is
commutative on canonical values (as structural equality of results). -/
theorem claim_C4 : ∀ a b c : BigInteger, BigInteger.Valid a → BigInteger.Valid b →
    BigInteger.Valid c →
    BigInteger.add a b = BigInteger.add b a ∧
    BigInteger.add (BigInteger.add a b) c = BigInteger.add a (BigInteger.add b c) ∧
    BigInteger.mul a b = BigInteger.mul b a := by
  intro a b c ha hb hc
  exact ⟨BigInteger.add_comm' ha hb, BigInteger.add_assoc' ha hb hc,
    BigInteger.mul_comm' ha hb⟩

/-- Witness for C4 at `3`, `-4`, `7`. -/
theorem claim_C4_witness :
    BigInteger.add (BigInteger.ofInt 3) (BigInteger.ofInt (-4)) =
      BigInteger.add (BigInteger.ofInt (-4)) (BigInteger.ofInt 3) ∧
    BigInteger.add (BigInteger.add (BigInteger.ofInt 3) (BigInteger.ofInt (-4)))
        (BigInteger.ofInt 7) =
      BigInteger.add (BigInteger.ofInt 3)
        (BigInteger.add (BigInteger.ofInt (-4)) (BigInteger.ofInt 7)) ∧
    BigInteger.mul (BigInteger.ofInt 3) (BigInteger.ofInt (-4)) =
      BigInteger.mul (BigInteger.ofInt (-4)) (BigInteger.ofInt 3) :=
  claim_C4 (BigInteger.ofInt 3) (BigInteger.ofInt (-4)) (BigInteger.ofInt 7)
    (by decide) (by decide) (by decide)

/-- C5: every Rational built by a constructor or arithmetic operation
(with denominators kept nonzero) satisfies the lowest-terms invariant —
canonical parts, strictly positive denominator, coprime magnitudes; in
particular `Rational(4, 8)` normalizes to `1/2` and prints `"1/2"`. -/
theorem claim_C5 :
    ((∀ num den : BigInteger, BigInteger.Valid num → BigInteger.Valid den →
        0 < BigInteger.magNat den → Rational.RatInv (Rational.mk' num den)) ∧
      (∀ n : ℤ, Rational.RatInv (Rational.ofInt n)) ∧
      (∀ n : BigInteger, BigInteger.Valid n → Rational.RatInv (Rational.ofBigInt n)) ∧
      (∀ a b : Rational, Rational.RatInv a → Rational.RatInv b →
        Rational.RatInv (Rational.add a b) ∧ Rational.RatInv (Rational.sub a b) ∧
        Rational.RatInv (Rational.mul a b)) ∧
      (∀ a b : Rational, Rational.RatInv a → Rational.RatInv b →
        0 < BigInteger.magNat b.numerator → Rational.RatInv (Rational.divR a b))) ∧
    Rational.mk' (BigInteger.ofInt 4) (BigInteger.ofInt 8) =
      ⟨⟨[1], false⟩, ⟨[2], false⟩⟩ ∧
    Rational.toString (Rational.mk' (BigInteger.ofInt 4) (BigInteger.ofInt 8)) =
      "1/2" := by
  refine ⟨⟨?_, Rational.ratInv_ofInt, ?_, ?_, ?_⟩, by decide, by decide⟩
  · intro num den h1 h2 hpos
    exact Rational.ratInv_mk h1 h2 hpos
  · intro n h
    exact Rational.ratInv_ofBigInt h
  · intro a b ha hb
    exact ⟨Rational.ratInv_add ha hb, Rational.ratInv_sub ha hb,
      Rational.ratInv_mul ha hb⟩
  · intro a b ha hb hb0
    exact Rational.ratInv_divR ha hb hb0

/-- Witness for C5 at the claim's own example `Rational(4, 8)`. -/
theorem claim_C5_witness :
    Rational.RatInv (Rational.mk' (BigInteger.ofInt 4) (BigInteger.ofInt 8)) :=
  claim_C5.1.1 (BigInteger.ofInt 4) (BigInteger.ofInt 8) (by decide) (by decide)
    (by decide)

/-- C6 (amended): the canonical-zero invariant holds for the int
constructor, for the arithmetic operations on canonical operands, and for
the string constructor on every input except the bare minus sign `"-"` —
that one input produces a negative zero; the big-times-zero example is
canonical. -/
theorem claim_C6 :
    (∀ n : ℤ, BigInteger.MagZeroInv (BigInteger.ofInt n)) ∧
    (∀ x y : BigInteger, BigInteger.Valid x → BigInteger.Valid y →
      BigInteger.MagZeroInv (BigInteger.add x y) ∧
      BigInteger.MagZeroInv (BigInteger.sub x y) ∧
      BigInteger.MagZeroInv (BigInteger.mul x y) ∧
      BigInteger.MagZeroInv (BigInteger.div x y) ∧
      BigInteger.MagZeroInv (BigInteger.mod x y)) ∧
    (∀ s : String, s.data ≠ ['-'] →
      BigInteger.MagZeroInv (BigInteger.fromString s)) ∧
    BigInteger.mul (BigInteger.fromString "123456789012345678901234567890")
      (BigInteger.fromString "0") = BigInteger.fromString "0" := by
  refine ⟨?_, ?_, ?_, by decide⟩
  · intro n
    exact BigInteger.valid_magZeroInv (BigInteger.ofInt_correct n).1
  · intro x y hx hy
    refine ⟨?_, ?_, ?_, ?_, ?_⟩
    · exact BigInteger.valid_magZeroInv (BigInteger.add_correct
        (BigInteger.valid_nice hx) (BigInteger.valid_nice hy)).1
    · exact BigInteger.valid_magZeroInv (BigInteger.sub_correct
        (BigInteger.valid_nice hx) (BigInteger.valid_nice hy)).1
    · exact BigInteger.valid_magZeroInv (BigInteger.mul_correct
        (BigInteger.valid_nice hx) (BigInteger.valid_nice hy)).1
    · exact BigInteger.valid_magZeroInv (BigInteger.div_valid x y)
    · exact BigInteger.valid_magZeroInv (BigInteger.mod_valid hx hy)
  · intro s hs
    exact BigInteger.ofChars_magZero hs

/-- Witness for C6 at the string `"-0"` and at `(-3) * 0`. -/
theorem claim_C6_witness :
    BigInteger.MagZeroInv (BigInteger.fromString "-0") ∧
    BigInteger.MagZeroInv (BigInteger.mul (BigInteger.ofInt (-3))
      (BigInteger.ofInt 0)) :=
  ⟨claim_C6.2.2.1 "-0" (by decide),
    (claim_C6.2.1 (BigInteger.ofInt (-3)) (BigInteger.ofInt 0)
      (by decide) (by decide)).2.2.1⟩

/-- C6 counterexample: the string constructor on the bare minus sign
leaves a set sign flag on a zero magnitude — a negative zero that does not
compare equal to `BigInteger(0)`. -/
theorem claim_C6_counterexample :
    BigInteger.fromString "-" = ⟨[0], true⟩ ∧
    BigInteger.magNat (BigInteger.fromString "-") = 0 ∧
    BigInteger.beq (BigInteger.fromString "-") (BigInteger.ofInt 0) = false := by
  decide

/-- C7 (amended): division and modulo by a zero divisor are indeed
unguarded — the long-division code runs — but every loop in it is bounded
(the digit loop and the binary search), so it terminates and delivers a
structurally canonical yet numerically meaningless value. -/
theorem claim_C7 :
    (∀ x : BigInteger, BigInteger.Valid x →
      BigInteger.Valid (BigInteger.div x (BigInteger.ofInt 0)) ∧
      BigInteger.Valid (BigInteger.mod x (BigInteger.ofInt 0))) ∧
    BigInteger.div (BigInteger.ofInt 5) (BigInteger.ofInt 0) =
      ⟨[999999999], false⟩ := by
  refine ⟨?_, by decide⟩
  intro x hx
  exact ⟨BigInteger.div_valid x (BigInteger.ofInt 0),
    BigInteger.mod_valid hx (BigInteger.ofInt_correct 0).1⟩

/-- Witness for C7 at the dividend `7`. -/
theorem claim_C7_witness :
    BigInteger.Valid (BigInteger.div (BigInteger.ofInt 7) (BigInteger.ofInt 0)) ∧
    BigInteger.Valid (BigInteger.mod (BigInteger.ofInt 7) (BigInteger.ofInt 0)) :=
  claim_C7.1 (BigInteger.ofInt 7) (by decide)

/-- C7 counterexample: division by zero terminates with concrete
(meaningless) results — `5 / 0` is the single limb `999999999`, `0 / 0`
is `1`, and `5 % 0` hands back `5` — refuting the claimed infinite or
undefined loop behaviour. -/
theorem claim_C7_counterexample :
    BigInteger.div (BigInteger.ofInt 5) (BigInteger.ofInt 0) =
      ⟨[999999999], false⟩ ∧
    BigInteger.div (BigInteger.ofInt 0) (BigInteger.ofInt 0) = ⟨[1], false⟩ ∧
    BigInteger.mod (BigInteger.ofInt 5) (BigInteger.ofInt 0) = BigInteger.ofInt 5 := by
  decide

/-- C8: any input string that is not an optional sign followed by one or
more ASCII digits parses silently to the value zero instead of signaling
a failure. -/
theorem claim_C8 : ∀ s : String, ¬ BigInteger.WellFormedStr s.data →
    BigInteger.toInt (BigInteger.fromString s) = 0 :=
  fun _ h => BigInteger.malformed_zero h

/-- Witness for C8 at the malformed string `"12a"`. -/
theorem claim_C8_witness : BigInteger.toInt (BigInteger.fromString "12a") = 0 := by
  apply claim_C8
  rintro (⟨-, hall⟩ | ⟨c, ds, heq, -, -, hall⟩)
  · exact absurd hall (by decide)
  · have hds : ds = ['2', 'a'] := by
      have h2 : ('1' :: ['2', 'a'] : List Char) = c :: ds := heq
      injection h2 with e1 e2
      exact e2.symm
    rw [hds] at hall
    exact absurd hall (by decide)

/-- C9: on a canonical Rational at positive precision, `asDecimal` emits
the truncated expansion: a standalone minus sign exactly when the
remainder is negative and the integer part is zero, the rendered integer
part, a point, and exactly `precision` fractional digits each obtained by
multiplying the absolute remainder by ten and dividing by the
denominator; in particular `Rational(1,3).asDecimal(4) = "0.3333"`. -/
theorem claim_C9 :
    (∀ (r : Rational) (p : ℕ), Rational.RatInv r → 0 < p →
      (Rational.asDecimal r p).data =
        (if BigInteger.toInt (BigInteger.mod r.numerator r.denominator) < 0 ∧
            BigInteger.toInt (BigInteger.div r.numerator r.denominator) = 0
          then ['-'] else []) ++
        BigInteger.toChars (BigInteger.div r.numerator r.denominator) ++ ['.'] ++
        (Rational.fracSpec (BigInteger.magNat r.denominator) p
          (BigInteger.magNat (BigInteger.mod r.numerator r.denominator) * 10)).map
          BigInteger.digitChar ∧
      ((Rational.fracSpec (BigInteger.magNat r.denominator) p
        (BigInteger.magNat (BigInteger.mod r.numerator r.denominator) * 10)).map
        BigInteger.digitChar).length = p) ∧
    Rational.asDecimal (Rational.mk' (BigInteger.ofInt 1) (BigInteger.ofInt 3)) 4 =
      "0.3333" := by
  refine ⟨?_, by decide⟩
  intro r p hr hp
  refine ⟨Rational.asDecimal_spec hr hp, ?_⟩
  rw [List.length_map, Rational.fracSpec_len]

/-- Witness for C9 at `Rational(1, 3)` and precision `4`. -/
theorem claim_C9_witness :
    ((Rational.fracSpec
      (BigInteger.magNat
        (Rational.mk' (BigInteger.ofInt 1) (BigInteger.ofInt 3)).denominator) 4
      (BigInteger.magNat (BigInteger.mod
        (Rational.mk' (BigInteger.ofInt 1) (BigInteger.ofInt 3)).numerator
        (Rational.mk' (BigInteger.ofInt 1) (BigInteger.ofInt 3)).denominator) *
        10)).map BigInteger.digitChar).length = 4 :=
  (claim_C9.1 (Rational.mk' (BigInteger.ofInt 1) (BigInteger.ofInt 3)) 4
    (by decide) (by decide)).2

/-- C10: dividing zero by zero takes the equal-magnitudes fast path and
returns `1` without signaling any error, and zero modulo zero returns
`0`; this holds for the canonical zero operands generally. -/
theorem claim_C10 :
    (∀ x y : BigInteger, BigInteger.Valid x → BigInteger.Valid y →
      BigInteger.toInt x = 0 → BigInteger.toInt y = 0 →
      BigInteger.div x y = BigInteger.ofInt 1 ∧
      BigInteger.mod x y = BigInteger.ofInt 0) ∧
    BigInteger.div (BigInteger.ofInt 0) (BigInteger.ofInt 0) = BigInteger.ofInt 1 ∧
    BigInteger.mod (BigInteger.ofInt 0) (BigInteger.ofInt 0) = BigInteger.ofInt 0 := by
  refine ⟨?_, by decide, by decide⟩
  intro x y hx hy hx0 hy0
  have hxe : x = BigInteger.ofInt 0 := BigInteger.toInt_inj hx
    (BigInteger.ofInt_correct 0).1 (by rw [hx0, (BigInteger.ofInt_correct 0).2])
  have hye : y = BigInteger.ofInt 0 := BigInteger.toInt_inj hy
    (BigInteger.ofInt_correct 0).1 (by rw [hy0, (BigInteger.ofInt_correct 0).2])
  rw [hxe, hye]
  exact ⟨by decide, by decide⟩

/-- Witness for C10 at the canonical zeros. -/
theorem claim_C10_witness :
    BigInteger.div (BigInteger.ofInt 0) (BigInteger.ofInt 0) = BigInteger.ofInt 1 ∧
    BigInteger.mod (BigInteger.ofInt 0) (BigInteger.ofInt 0) = BigInteger.ofInt 0 :=
  claim_C10.1 (BigInteger.ofInt 0) (BigInteger.ofInt 0) (by decide) (by decide)
    (by decide) (by decide)

